import Mathlib

/-!
# seed.c : BIP39-style mnemonic generation and validation

A shallow embedding of `src/seed.c`.

* C strings are lists of characters (the content before the terminating NUL).
* `unsigned char` buffers are lists of naturals; every value the program stores in one is
  below 256 (shown below where it matters).
* The word list `char **wordlist` is a list of strings; slot `j` of the C array is element `j`.
* The two library primitives are inputs of the model: the bytes `RAND_bytes` delivers are the
  argument `rand` (`none` when the call fails) and the hash is the argument `SHA256`
  (an arbitrary function in the general theorems, the FIPS 180-4 function `SHA256_std`
  in the concrete evaluations).
-/

namespace Seed

/-- Content of a NUL-terminated C string. -/
abbrev CString := List Char

def WORDLIST_SIZE : Nat := 2048
def MAX_WORD_LEN : Nat := 20
def MAX_LINE_LEN : Nat := 50

/-! ## libc `strtok` with the delimiter string `" "` -/

/-- One call of `strtok(·, " ")` on the remaining input: leading delimiters are skipped, the
token is the maximal run without a delimiter, and scanning resumes after the delimiter that
ended the token. `none` is the NULL result. -/
def strtok (s : CString) : Option (CString × CString) :=
  match s.dropWhile (fun c => c == ' ') with
  | [] => none
  | c :: s1 =>
    some ((c :: s1).takeWhile (fun x => x != ' '), ((c :: s1).dropWhile (fun x => x != ' ')).drop 1)

/-- Lines 79-83: `while (token && actual_count < 24) { words[actual_count++] = token; ... }`.
The first argument is the room left in `words`, that is `24 - actual_count`. -/
def split_words : Nat → CString → List CString
  | 0, _ => []
  | room + 1, s =>
    match strtok s with
    | none => []
    | some (token, rest) => token :: split_words room rest

/-! ## Dictionary search (lines 91-104) -/

/-- Inner loop `for (j = 0; j < WORDLIST_SIZE; j++) if (strcmp(word, wordlist[j]) == 0) ...`
over the slots from `j` on: the first slot holding `word`. -/
def find_from : List CString → CString → Nat → Option Nat
  | [], _, _ => none
  | w :: ws, word, j => if word = w then some j else find_from ws word (j + 1)

/-- Search of one token in the `WORDLIST_SIZE` slots of the word list. -/
def find_word (wordlist : List CString) (word : CString) : Option Nat :=
  find_from (wordlist.take WORDLIST_SIZE) word 0

/-- Outer loop of lines 91-104: the indices of all tokens, `none` as soon as one token is not
found (`return 0`). -/
def get_indices (wordlist : List CString) : List CString → Option (List Nat)
  | [] => some []
  | w :: ws =>
    match find_word wordlist w with
    | none => none
    | some j =>
      match get_indices wordlist ws with
      | none => none
      | some js => some (j :: js)

/-! ## Bit packing (lines 111-121) and extraction (lines 166-172) -/

/-- Body of the inner loop of lines 113-120 for word `i`, bit `j`. -/
def pack_bit (index i : Nat) (bits : List Nat) (j : Nat) : List Nat :=
  let bit_idx := i * 11 + j
  let byte_idx := bit_idx / 8
  let bit_pos := 7 - bit_idx % 8
  if index &&& (1 <<< (10 - j)) ≠ 0 then
    bits.set byte_idx (bits.getD byte_idx 0 ||| (1 <<< bit_pos))
  else bits

/-- Inner loop `for (j = 0; j < 11; j++)` of the reconstruction, for word `i`. -/
def pack_word (bits : List Nat) (index i : Nat) : List Nat :=
  (List.range 11).foldl (pack_bit index i) bits

/-- Outer loop of the reconstruction: the indices still to write, the position `i` of the
first of them, the buffer so far. -/
def pack_from : List Nat → Nat → List Nat → List Nat
  | [], _, bits => bits
  | index :: rest, i, bits => pack_from rest (i + 1) (pack_word bits index i)

/-- Lines 111-121: `unsigned char bits[33] = {0}` filled from the indices. -/
def pack_indices (indices : List Nat) : List Nat :=
  pack_from indices 0 (List.replicate 33 0)

/-- Body of the inner loop of lines 167-172 for word `i`, bit `j`. -/
def extract_bit (bits : List Nat) (i : Nat) (word_index j : Nat) : Nat :=
  let bit_idx := i * 11 + j
  let byte_idx := bit_idx / 8
  let bit_pos := 7 - bit_idx % 8
  word_index ||| (((bits.getD byte_idx 0 >>> bit_pos) &&& 1) <<< (10 - j))

/-- Lines 166-172: the `word_index` of word `i` read from `bits`. -/
def word_index_at (bits : List Nat) (i : Nat) : Nat :=
  (List.range 11).foldl (extract_bit bits i) 0

/-! ## Sizes -/

def entropy_bits (word_count : Int) : Nat := if word_count = 12 then 128 else 256
def checksum_bits (word_count : Int) : Nat := entropy_bits word_count / 32
def total_bits (word_count : Int) : Nat := entropy_bits word_count + checksum_bits word_count
def byte_count (word_count : Int) : Nat := (total_bits word_count + 7) / 8

/-- The byte `hash[0]` of the digest buffer (`unsigned char hash[32]`). -/
def hash0 (SHA256 : List Nat → List Nat) (data : List Nat) : Nat :=
  (SHA256 data).getD 0 0 % 256

/-! ## `validate_mnemonic` (lines 70-137) -/

/-- The function `validate_mnemonic`; the result is the returned `int`. The copy made by
`strdup` is taken to succeed, and the progress message printed before `return 1` is left
out. -/
def validate_mnemonic (SHA256 : List Nat → List Nat) (mnemonic : CString)
    (wordlist : List CString) (word_count : Int) : Int :=
  let words := split_words 24 mnemonic
  let actual_count := words.length
  if (actual_count : Int) ≠ word_count then 0
  else
    match get_indices wordlist words with
    | none => 0
    | some indices =>
      let bits := pack_indices indices
      let entropy := bits.take (entropy_bits word_count / 8)
      let expected_checksum := hash0 SHA256 entropy >>> (8 - checksum_bits word_count)
      let actual_checksum :=
        bits.getD (byte_count word_count - 1) 0 &&& ((1 <<< checksum_bits word_count) - 1)
      if expected_checksum ≠ actual_checksum then 0 else 1

/-! ## `generate_mnemonic` (lines 140-190) -/

/-- The `exit(1)` paths of `generate_mnemonic`. -/
inductive GenError where
  | entropy_failure
  | invalid_word_index
  | insufficient_buffer
  | write_failure
  deriving DecidableEq

/-- Lines 157-160: `bits[33] = {0}`, `memcpy(bits, entropy, entropy_bits / 8)`,
`bits[byte_count - 1] = hash[0] >> (8 - checksum_bits)`. -/
def form_bits (SHA256 : List Nat → List Nat) (entropy : List Nat) (word_count : Int) :
    List Nat :=
  let n := entropy_bits word_count / 8
  let bits := entropy.take n ++ (List.replicate 33 0).drop n
  bits.set (byte_count word_count - 1) (hash0 SHA256 (entropy.take n) >>> (8 - checksum_bits word_count))

/-- Loop of lines 165-188. The first argument counts the iterations left, `i` is the loop
variable, `out` the text written so far (`offset` is its length). -/
def write_words (bits : List Nat) (len : Nat) (wordlist : List CString) (word_count : Int) :
    Nat → Nat → CString → Except GenError CString
  | 0, _, out => Except.ok out
  | todo + 1, i, out =>
    let word_index := word_index_at bits i
    if word_index ≥ WORDLIST_SIZE then Except.error GenError.invalid_word_index
    else
      match wordlist.get? word_index with
      | none => Except.error GenError.invalid_word_index
      | some word =>
        let offset := out.length
        let word_len := word.length
        if offset + word_len + 2 > len then Except.error GenError.insufficient_buffer
        else
          let piece := word ++ (if (i : Int) < word_count - 1 then [' '] else [])
          let written := piece.length
          if written ≥ len - offset then Except.error GenError.write_failure
          else write_words bits len wordlist word_count todo (i + 1) (out ++ piece)

/-- The function `generate_mnemonic`: `rand` is what `RAND_bytes(entropy, entropy_bits / 8)`
delivered (`none` when it did not return 1), the result is the string left in `mnemonic`, or
the `exit(1)` path taken. A slot of `wordlist` that does not exist stands for a NULL slot. -/
def generate_mnemonic (SHA256 : List Nat → List Nat) (rand : Option (List Nat)) (len : Nat)
    (wordlist : List CString) (word_count : Int) : Except GenError CString :=
  match rand with
  | none => Except.error GenError.entropy_failure
  | some entropy =>
    write_words (form_bits SHA256 entropy word_count) len wordlist word_count
      word_count.toNat 0 []

/-- The word indices computed by the loop of `generate_mnemonic`, in order. -/
def generate_indices (SHA256 : List Nat → List Nat) (entropy : List Nat) (word_count : Int) :
    List Nat :=
  (List.range word_count.toNat).map (word_index_at (form_bits SHA256 entropy word_count))

/-! ## SHA-256 and a concrete dictionary for evaluation -/

/-- Round constants of FIPS 180-4, section 4.2.2, in decimal (the first is 0x428a2f98, the
last 0xc67178f2). -/
def sha_K : List Nat := [
  1116352408, 1899447441, 3049323471, 3921009573, 961987163, 1508970993,
  2453635748, 2870763221, 3624381080, 310598401, 607225278, 1426881987,
  1925078388, 2162078206, 2614888103, 3248222580, 3835390401, 4022224774,
  264347078, 604807628, 770255983, 1249150122, 1555081692, 1996064986,
  2554220882, 2821834349, 2952996808, 3210313671, 3336571891, 3584528711,
  113926993, 338241895, 666307205, 773529912, 1294757372, 1396182291,
  1695183700, 1986661051, 2177026350, 2456956037, 2730485921, 2820302411,
  3259730800, 3345764771, 3516065817, 3600352804, 4094571909, 275423344,
  430227734, 506948616, 659060556, 883997877, 958139571, 1322822218,
  1537002063, 1747873779, 1955562222, 2024104815, 2227730452, 2361852424,
  2428436474, 2756734187, 3204031479, 3329325298]

/-- Initial hash value of FIPS 180-4, section 5.3.3, in decimal (the first word is
0x6a09e667). -/
def sha_H0 : List Nat := [
  1779033703, 3144134277, 1013904242, 2773480762, 1359893119, 2600822924,
  528734635, 1541459225]

/-- Right rotation of a 32-bit word. -/
def rotr32 (x n : Nat) : Nat := ((x >>> n) ||| (x <<< (32 - n))) % 2 ^ 32

/-- Padding of FIPS 180-4, section 5.1.1: a one bit, zeros, the bit length on 64 bits. -/
def sha_pad (msg : List Nat) : List Nat :=
  let l := msg.length
  let k := (119 - l % 64) % 64
  msg ++ [0x80] ++ List.replicate k 0 ++
    (List.range 8).map (fun i => (8 * l) >>> (8 * (7 - i)) % 256)

/-- Big-endian 32-bit word at the head of a byte list. -/
def be32 (b : List Nat) : Nat :=
  ((b.getD 0 0 * 256 + b.getD 1 0) * 256 + b.getD 2 0) * 256 + b.getD 3 0

/-- The first `n` big-endian words of a block. -/
def sha_words : Nat → List Nat → List Nat
  | 0, _ => []
  | n + 1, b => be32 b :: sha_words n (b.drop 4)

/-- Message schedule, newest word first: `n` more words after the ones in `w`. -/
def sha_schedule : Nat → List Nat → List Nat
  | 0, w => w
  | n + 1, w =>
    let w2 := w.getD 1 0
    let w7 := w.getD 6 0
    let w15 := w.getD 14 0
    let w16 := w.getD 15 0
    let s0 := rotr32 w15 7 ^^^ rotr32 w15 18 ^^^ (w15 >>> 3)
    let s1 := rotr32 w2 17 ^^^ rotr32 w2 19 ^^^ (w2 >>> 10)
    sha_schedule n (((w16 + s0 + w7 + s1) % 2 ^ 32) :: w)

/-- One round of the compression function on the working variables `a..h`. -/
def sha_round (s : List Nat) (kw : Nat × Nat) : List Nat :=
  match s with
  | [a, b, c, d, e, f, g, h] =>
    let S1 := rotr32 e 6 ^^^ rotr32 e 11 ^^^ rotr32 e 25
    let ch := (e &&& f) ^^^ ((e ^^^ (2 ^ 32 - 1)) &&& g)
    let t1 := (h + S1 + ch + kw.1 + kw.2) % 2 ^ 32
    let S0 := rotr32 a 2 ^^^ rotr32 a 13 ^^^ rotr32 a 22
    let maj := (a &&& b) ^^^ (a &&& c) ^^^ (b &&& c)
    let t2 := (S0 + maj) % 2 ^ 32
    [(t1 + t2) % 2 ^ 32, a, b, c, (d + t1) % 2 ^ 32, e, f, g]
  | _ => s

/-- Compression of one 64-byte block into the chaining value. -/
def sha_compress (h : List Nat) (block : List Nat) : List Nat :=
  let w := (sha_schedule 48 (sha_words 16 block).reverse).reverse
  let s := (sha_K.zip w).foldl sha_round h
  List.zipWith (fun x y => (x + y) % 2 ^ 32) h s

/-- Compression of `n` consecutive blocks. -/
def sha_blocks : Nat → List Nat → List Nat → List Nat
  | 0, h, _ => h
  | n + 1, h, m => sha_blocks n (sha_compress h (m.take 64)) (m.drop 64)

/-- The digest function the program links against (`SHA256` of the crypto library), written
out after FIPS 180-4: 32 digest bytes of a message given as bytes. It is not code of
`seed.c`; it serves to evaluate the program on concrete inputs. -/
def SHA256_std (msg : List Nat) : List Nat :=
  let m := sha_pad msg
  (sha_blocks (m.length / 64) sha_H0 m).flatMap
    (fun x => [x >>> 24 % 256, x >>> 16 % 256, x >>> 8 % 256, x % 256])

/-- The letters `a` .. `p`, one per base-16 digit. -/
def sample_letter (d : Nat) : Char :=
  ['a', 'b', 'c', 'd', 'e', 'f', 'g', 'h', 'i', 'j', 'k', 'l', 'm', 'n', 'o', 'p'].getD d 'a'

/-- Word `k` of the dictionary used in concrete evaluations: three letters spelling `k` in
base 16 (the program reads its dictionary from a file that is not part of the sources, and
none of the properties below depends on the words themselves). -/
def sample_word (k : Nat) : CString :=
  [sample_letter (k / 256 % 16), sample_letter (k / 16 % 16), sample_letter (k % 16)]

/-- A dictionary of 2048 pairwise distinct words. -/
def sample_wordlist : List CString := (List.range 2048).map sample_word

/-- Words joined by single spaces, the text `format` of the specification. -/
def join_words : List CString → CString
  | [] => []
  | [w] => w
  | w :: v :: ws => w ++ ' ' :: join_words (v :: ws)

/-! ## Notions used to state the properties -/

/-- Bit `p` of a byte buffer in the numbering of the program: byte `p / 8`, bit `7 - p % 8`
of that byte (most significant first). -/
def bit_at (bits : List Nat) (p : Nat) : Bool :=
  (bits.getD (p / 8) 0).testBit (7 - p % 8)

/-- Every element of the buffer is a byte. -/
def all_bytes (bits : List Nat) : Prop := ∀ b ∈ bits, b < 256

/-- A dictionary word as the program needs it: not empty and without a space. -/
def is_word (w : CString) : Prop := w ≠ [] ∧ ' ' ∉ w

/-- The word the dictionary holds at index `k`. -/
def word_of (wordlist : List CString) (k : Nat) : CString := wordlist.getD k []

/-- All tokens `strtok` yields on a string, without the cap of 24: the maximal runs of
characters other than the space, in order. A string holds fewer tokens than characters plus
one, so this room never runs out. -/
def tokens (s : CString) : List CString := split_words (s.length + 1) s

/-- Value of the `width` bits `bit offset`, `bit (offset + 1)`, ... read most significant
first and right-aligned. -/
def bits_value (bit : Nat → Bool) (offset width : Nat) : Nat :=
  (List.range width).foldl (fun acc j => 2 * acc + (bit (offset + j)).toNat) 0

/-- The operation `unpack(buffer, bit_offset, width)` of the specification (section 4.2):
the `width` bits of the buffer from `bit_offset` on, most significant first. -/
def spec_unpack (buffer : List Nat) (bit_offset width : Nat) : Nat :=
  bits_value (bit_at buffer) bit_offset width

/-- Bit `p` of the stream in which word `i` occupies the bit offsets `11 i .. 11 i + 10`,
most significant bit of the index first; zero where no word was written. -/
def stream_bit (indices : List Nat) (p : Nat) : Bool :=
  decide (p / 11 < indices.length) && (indices.getD (p / 11) 0).testBit (10 - p % 11)

/-- The zero-initialised buffer of `nbytes` bytes holding that stream (specification 4.4,
step 3): byte `k` carries the stream bits `8 k .. 8 k + 7`, most significant first. -/
def spec_bitstream (indices : List Nat) (nbytes : Nat) : List Nat :=
  (List.range nbytes).map (fun k => bits_value (stream_bit indices) (8 * k) 8)

/-- The bits of one byte, most significant first. -/
def bits_of_byte (b : Nat) : List Bool := (List.range 8).map (fun t => b.testBit (7 - t))

/-- The bit string of a byte sequence. -/
def bit_string (bytes : List Nat) : List Bool := bytes.flatMap bits_of_byte

/-- Value of a group of bits, most significant first. -/
def group_value (g : List Bool) : Nat := g.foldl (fun acc b => 2 * acc + b.toNat) 0

/-- The first `n` consecutive 11-bit groups of a bit string. -/
def groups11 : Nat → List Bool → List Nat
  | 0, _ => []
  | n + 1, s => group_value (s.take 11) :: groups11 n (s.drop 11)

/-- Word indices as the BIP39 standard defines them: the 11-bit groups of the entropy bits
followed immediately by the first `entropy_bits / 32` bits of the digest of the entropy. -/
def standard_indices (SHA256 : List Nat → List Nat) (entropy : List Nat) (word_count : Int) :
    List Nat :=
  groups11 word_count.toNat
    (bit_string entropy ++ (bit_string (SHA256 entropy)).take (entropy_bits word_count / 32))

/-- The non-empty pieces obtained by cutting a string at every space. -/
def nonempty_pieces (s : CString) : List CString :=
  (s.splitOn ' ').filter (fun t => decide (t ≠ []))

/-- The phrase generated from 16 zero bytes with the sample dictionary (word 0 twelve times). -/
def phrase_zero_12 : CString := "aaa aaa aaa aaa aaa aaa aaa aaa aaa aaa aaa aaa".toList

/-- The phrase generated from 32 zero bytes with the sample dictionary: 23 times word 0, then
word 102 (the first digest byte of 32 zero bytes is 0x66). -/
def phrase_zero_24 : CString :=
  ("aaa aaa aaa aaa aaa aaa aaa aaa aaa aaa aaa aaa " ++
   "aaa aaa aaa aaa aaa aaa aaa aaa aaa aaa aaa agg").toList

/-! ## Intermediate values of `validate_mnemonic` -/

/-- Lines 76-121 of `validate_mnemonic`: the buffer `bits` once the reconstruction loop has
run, `none` when the function has returned 0 before (word count or unknown word). -/
def reconstructed_bits (mnemonic : CString) (wordlist : List CString) (word_count : Int) :
    Option (List Nat) :=
  let words := split_words 24 mnemonic
  let actual_count := words.length
  if (actual_count : Int) ≠ word_count then none
  else
    match get_indices wordlist words with
    | none => none
    | some indices => some (pack_indices indices)

/-- Lines 124-125 of `validate_mnemonic`: the array `entropy`, that is the first
`entropy_bits / 8` bytes of `bits`. -/
def candidate_entropy (mnemonic : CString) (wordlist : List CString) (word_count : Int) :
    Option (List Nat) :=
  (reconstructed_bits mnemonic wordlist word_count).map
    (fun bits => bits.take (entropy_bits word_count / 8))

/-! ## `load_bip39_wordlist` (lines 13-59) -/

/-- The newline character. -/
def newline : Char := Char.ofNat 10

/-- The NUL character, which ends a C string. -/
def nul : Char := Char.ofNat 0

/-- The C string in an array that holds the characters `buffer` followed by a NUL: the
characters before the first NUL. -/
def c_string (buffer : List Char) : CString := buffer.takeWhile (fun c => c != nul)

/-- The characters one call of `fgets` stores when it may store `room` of them: it stops
after a newline, at the end of the file, or when the room is used up. The result is the
stored text and the file content left. -/
def take_line : Nat → List Char → List Char × List Char
  | 0, s => ([], s)
  | _ + 1, [] => ([], [])
  | room + 1, c :: cs =>
    if c = newline then ([c], cs)
    else ((c :: (take_line room cs).1), (take_line room cs).2)

/-- One call `fgets(line, size, file)` on the file content not yet read: `none` is the NULL
result at the end of the file; otherwise at most `size - 1` characters are stored. -/
def fgets (size : Nat) (s : List Char) : Option (List Char × List Char) :=
  match s with
  | [] => none
  | c :: cs => some (take_line (size - 1) (c :: cs))

/-- The C strings that the successive calls `fgets(line, MAX_LINE_LEN, file)` leave in `line`
until NULL is returned, for at most `fuel` calls. -/
def fgets_calls : Nat → List Char → List CString
  | 0, _ => []
  | fuel + 1, s =>
    match fgets MAX_LINE_LEN s with
    | none => []
    | some (line, rest) => c_string line :: fgets_calls fuel rest

/-- All pieces `fgets` delivers on a file: every call takes at least one character, so as
many calls as the file has characters reach the end (`fgets_calls_enough`). A line of at
most 48 characters before its newline is one piece, a longer line comes in several, and a
piece is cut at a NUL character of the file. -/
def fgets_lines (file : List Char) : List CString := fgets_calls file.length file

/-- White space as `sscanf` skips it: space, tab, newline, vertical tab, form feed, return. -/
def is_space (c : Char) : Bool := c == ' ' || (9 ≤ c.toNat && c.toNat ≤ 13)

/-- Value of a run of decimal digits at the head of the input, and the input after it. -/
def scan_digits : List Char → Nat → Nat × List Char
  | [], acc => (acc, [])
  | c :: cs, acc =>
    if c.isDigit then scan_digits cs (10 * acc + (c.toNat - 48)) else (acc, c :: cs)

/-- The `long` the C library computes for a decimal numeral of value `v` (64-bit `long`): the
value itself, or the nearest bound when it is out of range. -/
def long_of_numeral (v : Int) : Int :=
  if v > 9223372036854775807 then 9223372036854775807
  else if v < -9223372036854775808 then -9223372036854775808
  else v

/-- The `int` stored from a `long`: its low 32 bits in two's complement. -/
def int_of_long (v : Int) : Int := (v + 2147483648) % 4294967296 - 2147483648

/-- The conversion `%d` of `sscanf` into `int idx`: white space is skipped, then an optional
sign and at least one digit are read; the numeral is converted to `long` and stored as `int`
(so `4294967296` is stored as 0). `none` is a matching failure. -/
def scan_int (s : List Char) : Option (Int × List Char) :=
  let s1 := s.dropWhile is_space
  let signed : Bool × List Char :=
    match s1 with
    | [] => (false, s1)
    | c :: r => if c = '-' then (true, r) else if c = '+' then (false, r) else (false, s1)
  match signed.2 with
  | [] => none
  | c :: r =>
    if c.isDigit then
      let vr := scan_digits (c :: r) 0
      some (int_of_long (long_of_numeral (if signed.1 then - (vr.1 : Int) else (vr.1 : Int))),
        vr.2)
    else none

/-- The conversions `%s` (no width) and `%11s` (width 11) of `sscanf`: white space is
skipped, then the characters up to the next white space are read, at most `width` of them;
an empty result is a matching failure. -/
def scan_word (width : Option Nat) (s : List Char) : Option (CString × List Char) :=
  let s1 := s.dropWhile is_space
  let run := s1.takeWhile (fun c => !is_space c)
  let tok := match width with
    | some n => run.take n
    | none => run
  if tok = [] then none else some (tok, s1.drop tok.length)

/-- What the call `sscanf(line, "%d %11s %s", &idx, binary, word)` does: `fields` when it
returned 3 and every array held its text; `fewer` when it returned less than 3; `overrun`
when the third conversion read `MAX_WORD_LEN` characters or more and wrote past
`char word[MAX_WORD_LEN]`, after which the behaviour of the program is undefined. -/
inductive ScanResult where
  | fields (idx : Int) (binary word : CString)
  | fewer
  | overrun
  deriving DecidableEq

/-- The call `sscanf(line, "%d %11s %s", &idx, binary, word)`. The array `binary` has 12
bytes, enough for the 11 characters of `%11s`; the array `word` has `MAX_WORD_LEN` bytes,
enough for a word of at most `MAX_WORD_LEN - 1` characters. -/
def sscanf_line (line : CString) : ScanResult :=
  match scan_int line with
  | none => ScanResult.fewer
  | some (idx, r1) =>
    match scan_word (some 11) r1 with
    | none => ScanResult.fewer
    | some (binary, r2) =>
      match scan_word none r2 with
      | none => ScanResult.fewer
      | some (word, _) =>
        if word.length + 1 > MAX_WORD_LEN then ScanResult.overrun
        else ScanResult.fields idx binary word

/-- The `exit(1)` paths of the reading loop and of the final count check, with the numbers
the messages print; `word_overrun` is no exit but the line on which `sscanf` wrote past
`word` (see `ScanResult`), where the model stops following the program. -/
inductive LoadError where
  | parse_error (line : Nat)
  | invalid_index (line : Nat)
  | wrong_count (found : Nat)
  | word_overrun (line : Nat)
  deriving DecidableEq

/-- Loop of lines 30-50 on the pieces `fgets` still delivers, with `index` words stored so
far: the final value of `index` and the words stored in the slots `index`, `index + 1`, ...
The loop ends when the input ends or when `index` reaches `WORDLIST_SIZE`. -/
def load_from : List CString → Nat → Except LoadError (Nat × List CString)
  | [], index => Except.ok (index, [])
  | line :: rest, index =>
    if index < WORDLIST_SIZE then
      match sscanf_line line with
      | ScanResult.fewer => Except.error (LoadError.parse_error (index + 1))
      | ScanResult.overrun => Except.error (LoadError.word_overrun (index + 1))
      | ScanResult.fields idx _ word =>
        if idx ≠ (index : Int) then Except.error (LoadError.invalid_index (index + 1))
        else
          match load_from rest (index + 1) with
          | Except.error e => Except.error e
          | Except.ok (n, ws) => Except.ok (n, word :: ws)
    else Except.ok (index, [])

/-- The function `load_bip39_wordlist` as a function of the content of the file (the file is
taken to open and the allocations to succeed). -/
def load_bip39_wordlist (file : List Char) : Except LoadError (List CString) :=
  match load_from (fgets_lines file) 0 with
  | Except.error e => Except.error e
  | Except.ok (index, wordlist) =>
    if index ≠ WORDLIST_SIZE then Except.error (LoadError.wrong_count index)
    else Except.ok wordlist

/-- The decimal digit of value `d` (code 48 is the character `0`). -/
def digit_char (d : Nat) : Char := Char.ofNat (48 + d)

/-- Line `k` of a source in the format of the program, `<index> <bits> <word>`, without its
newline, the index written on four digits and the word given. -/
def source_body (k : Nat) (word : CString) : CString :=
  [digit_char (k / 1000 % 10), digit_char (k / 100 % 10), digit_char (k / 10 % 10),
    digit_char (k % 10)] ++ " 00000000000 ".toList ++ word

/-- The same line with its newline. -/
def source_line (k : Nat) (word : CString) : CString := source_body k word ++ [newline]

/-- A file made of the given lines, each followed by a newline. -/
def file_of_lines (bodies : List CString) : List Char :=
  bodies.flatMap (fun b => b ++ [newline])

/-- A source of 2048 well-numbered lines that all carry the same word. -/
def source_same_word : List Char :=
  file_of_lines ((List.range 2048).map (fun k => source_body k "abandon".toList))

/-- A source of 2049 well-numbered lines with the words of the sample dictionary and one
more. -/
def source_2049 : List Char :=
  file_of_lines ((List.range 2049).map (fun k => source_body k (sample_word k)))

/-- A source whose first line carries the index 4294967296, which `int idx` holds as 0, and
whose other 2047 lines are well numbered. -/
def source_wrapped_index : List Char :=
  file_of_lines (("4294967296 00000000000 ".toList ++ sample_word 0) ::
    (List.range 2047).map (fun k => source_body (k + 1) (sample_word (k + 1))))

/-! ## The generate-and-validate loop of `main` (lines 233-257) -/

/-- The variables `successful` and `attempts`. -/
structure LoopState where
  successful : Int
  attempts : Int
  deriving DecidableEq

/-- Loop condition of line 237. -/
def loop_continues (success_count : Int) (s : LoopState) : Bool :=
  decide (s.successful < success_count) && decide (s.attempts < 100 * success_count)

/-- Loop body, lines 238-245; `valid` tells whether `validate_mnemonic` returned non-zero on
the phrase just generated. -/
def loop_body (valid : Bool) (s : LoopState) : LoopState :=
  { successful := if valid then s.successful + 1 else s.successful
    attempts := s.attempts + 1 }

/-- The `while` loop run for at most `fuel + 1` tests of its condition; `outcomes k` is the
outcome of the validation in iteration `k` (counted from 0) and `none` means the fuel ran
out. The exits inside `generate_mnemonic` end the process and are not part of this model. -/
def run_loop (outcomes : Nat → Bool) (success_count : Int) :
    Nat → Nat → LoopState → Option LoopState
  | 0, _, s => if loop_continues success_count s then none else some s
  | fuel + 1, k, s =>
    if loop_continues success_count s then
      run_loop outcomes success_count fuel (k + 1) (loop_body (outcomes k) s)
    else some s

/-- Lines 248-257: the value `main` returns once the loop has ended. -/
def main_return (success_count : Int) (s : LoopState) : Int :=
  if s.successful < success_count then 1 else 0

/-- The states the loop passes through at its condition test: `Reachable k s` says that `s`
is the state before iteration `k`. -/
inductive Reachable (outcomes : Nat → Bool) (success_count : Int) : Nat → LoopState → Prop where
  | start : Reachable outcomes success_count 0 { successful := 0, attempts := 0 }
  | step (k : Nat) (s : LoopState) :
      Reachable outcomes success_count k s → loop_continues success_count s = true →
      Reachable outcomes success_count (k + 1) (loop_body (outcomes k) s)

/-! ## The packing loop of the validator, bit by bit -/

theorem and_two_pow_ne_zero (x k : Nat) : x &&& (1 <<< k) ≠ 0 ↔ x.testBit k = true := by
  rw [Nat.one_shiftLeft]
  constructor
  · intro h
    by_contra hb
    apply h
    apply Nat.eq_of_testBit_eq
    intro t
    simp only [Nat.testBit_and, Nat.testBit_two_pow, Nat.zero_testBit]
    by_cases ht : k = t
    · subst ht; simp [hb]
    · simp [ht]
  · intro hb h
    have := congrArg (fun y => Nat.testBit y k) h
    simp [hb, Nat.testBit_two_pow] at this

theorem getD_set_eq (l : List Nat) (a b v : Nat) (ha : a < l.length) :
    (l.set a v).getD b 0 = if b = a then v else l.getD b 0 := by
  simp only [List.getD_eq_getElem?_getD, List.getElem?_set]
  by_cases h : a = b
  · subst h; simp [ha]
  · have h2 : ¬ b = a := fun e => h e.symm
    simp [h, h2]

theorem bit_at_pack_bit (index i j : Nat) (bits : List Nat) (p : Nat)
    (h : (i * 11 + j) / 8 < bits.length) :
    bit_at (pack_bit index i bits j) p
      = (bit_at bits p || (decide (p = i * 11 + j) && index.testBit (10 - j))) := by
  unfold pack_bit
  simp only [and_two_pow_ne_zero]
  by_cases hb : index.testBit (10 - j) = true
  · rw [if_pos hb]
    unfold bit_at
    rw [getD_set_eq _ _ _ _ h, Nat.one_shiftLeft]
    by_cases hp : p / 8 = (i * 11 + j) / 8
    · rw [if_pos hp, Nat.testBit_or, Nat.testBit_two_pow, hp, hb]
      congr 1
      simp only [Bool.and_true, decide_eq_decide]
      omega
    · rw [if_neg hp]
      have : ¬ p = i * 11 + j := fun e => hp (by rw [e])
      simp [this]
  · rw [if_neg hb]
    simp [hb]

theorem length_pack_bit (index i j : Nat) (bits : List Nat) :
    (pack_bit index i bits j).length = bits.length := by
  unfold pack_bit
  simp only
  split <;> simp

theorem length_pack_fold (index i n : Nat) (bits : List Nat) :
    ((List.range n).foldl (pack_bit index i) bits).length = bits.length := by
  induction n with
  | zero => simp
  | succ n ih => rw [List.range_succ, List.foldl_append]; simp [length_pack_bit, ih]

theorem bit_at_pack_fold (index i n : Nat) (bits : List Nat) (p : Nat)
    (h : i * 11 + n ≤ 8 * bits.length) :
    bit_at ((List.range n).foldl (pack_bit index i) bits) p
      = (bit_at bits p
          || (decide (i * 11 ≤ p ∧ p < i * 11 + n) && index.testBit (10 - (p - i * 11)))) := by
  induction n with
  | zero => simp
  | succ n ih =>
    rw [List.range_succ, List.foldl_append]
    simp only [List.foldl_cons, List.foldl_nil]
    rw [bit_at_pack_bit _ _ _ _ _ (by rw [length_pack_fold]; omega), ih (by omega)]
    by_cases hp : p = i * 11 + n
    · subst hp
      have e : i * 11 + n - i * 11 = n := by omega
      simp [e]
    · by_cases hq : i * 11 ≤ p ∧ p < i * 11 + n
      · have : i * 11 ≤ p ∧ p < i * 11 + (n + 1) := by omega
        simp [hp, hq, this]
      · have : ¬ (i * 11 ≤ p ∧ p < i * 11 + (n + 1)) := by omega
        simp [hp, hq, this]

theorem length_pack_word (bits : List Nat) (index i : Nat) :
    (pack_word bits index i).length = bits.length := length_pack_fold index i 11 bits

theorem bit_at_pack_word (bits : List Nat) (index i p : Nat)
    (h : i * 11 + 11 ≤ 8 * bits.length) :
    bit_at (pack_word bits index i) p
      = (bit_at bits p
          || (decide (i * 11 ≤ p ∧ p < i * 11 + 11) && index.testBit (10 - (p - i * 11)))) :=
  bit_at_pack_fold index i 11 bits p h

theorem length_pack_from (indices : List Nat) (i : Nat) (bits : List Nat) :
    (pack_from indices i bits).length = bits.length := by
  induction indices generalizing i bits with
  | nil => rfl
  | cons x xs ih => simp [pack_from, ih, length_pack_word]

theorem bit_at_pack_from (indices : List Nat) (i : Nat) (bits : List Nat) (p : Nat)
    (h : (i + indices.length) * 11 ≤ 8 * bits.length) :
    bit_at (pack_from indices i bits) p
      = (bit_at bits p
          || (decide (i * 11 ≤ p ∧ p < (i + indices.length) * 11)
              && (indices.getD (p / 11 - i) 0).testBit (10 - p % 11))) := by
  induction indices generalizing i bits with
  | nil =>
    have : ¬ (i * 11 ≤ p ∧ p < (i + 0) * 11) := by omega
    simp [pack_from, this]
  | cons x xs ih =>
    simp only [pack_from, List.length_cons] at h ⊢
    rw [ih (i + 1) _ (by rw [length_pack_word]; omega), bit_at_pack_word _ _ _ _ (by omega)]
    by_cases h1 : i * 11 ≤ p ∧ p < i * 11 + 11
    · have h2 : ¬ ((i + 1) * 11 ≤ p ∧ p < (i + 1 + xs.length) * 11) := by omega
      have h3 : i * 11 ≤ p ∧ p < (i + (xs.length + 1)) * 11 := by omega
      have h4 : p / 11 - i = 0 := by omega
      have h5 : p - i * 11 = p % 11 := by omega
      simp [h1, h2, h3, h4, h5]
    · by_cases h2 : (i + 1) * 11 ≤ p ∧ p < (i + 1 + xs.length) * 11
      · have h3 : i * 11 ≤ p ∧ p < (i + (xs.length + 1)) * 11 := by omega
        have h4 : p / 11 - i = (p / 11 - (i + 1)) + 1 := by omega
        have h5 : ¬ p < i * 11 + 11 := by omega
        simp [h1, h2, h3, h4, h5]
      · have h3 : ¬ (i * 11 ≤ p ∧ p < (i + (xs.length + 1)) * 11) := by omega
        simp [h1, h2, h3]

theorem bit_at_replicate_zero (n p : Nat) : bit_at (List.replicate n 0) p = false := by
  unfold bit_at
  simp only [List.getD_eq_getElem?_getD, List.getElem?_replicate]
  split <;> simp

theorem length_pack_indices (indices : List Nat) : (pack_indices indices).length = 33 := by
  simp [pack_indices, length_pack_from]

/-- Bit-level description of the buffer rebuilt by `validate_mnemonic`. -/
theorem bit_at_pack_indices (indices : List Nat) (p : Nat) (h : indices.length ≤ 24) :
    bit_at (pack_indices indices) p
      = (decide (p < indices.length * 11) && (indices.getD (p / 11) 0).testBit (10 - p % 11)) := by
  unfold pack_indices
  rw [bit_at_pack_from _ _ _ _ (by simp; omega), bit_at_replicate_zero]
  simp

theorem getD_lt_256 (bits : List Nat) (hb : all_bytes bits) (k : Nat) : bits.getD k 0 < 256 := by
  simp only [List.getD_eq_getElem?_getD]
  cases h : bits[k]? with
  | none => simp
  | some v => exact hb v (List.getElem?_mem h)

theorem all_bytes_set (bits : List Nat) (hb : all_bytes bits) (k v : Nat) (hv : v < 256) :
    all_bytes (bits.set k v) := by
  intro b hmem
  rcases List.mem_or_eq_of_mem_set hmem with h | h
  · exact hb b h
  · omega

theorem all_bytes_pack_bit (index i j : Nat) (bits : List Nat) (hb : all_bytes bits) :
    all_bytes (pack_bit index i bits j) := by
  unfold pack_bit
  simp only
  split
  · apply all_bytes_set _ hb
    rw [Nat.one_shiftLeft]
    have h1 : bits.getD ((i * 11 + j) / 8) 0 < 2 ^ 8 := getD_lt_256 bits hb _
    have h2 : 2 ^ (7 - (i * 11 + j) % 8) < 2 ^ 8 := Nat.pow_lt_pow_right (by omega) (by omega)
    exact Nat.or_lt_two_pow h1 h2
  · exact hb

theorem all_bytes_pack_word (bits : List Nat) (index i : Nat) (hb : all_bytes bits) :
    all_bytes (pack_word bits index i) := by
  unfold pack_word
  generalize List.range 11 = js
  induction js generalizing bits with
  | nil => exact hb
  | cons j js ih => exact ih _ (all_bytes_pack_bit index i j bits hb)

theorem all_bytes_pack_from (indices : List Nat) (i : Nat) (bits : List Nat)
    (hb : all_bytes bits) : all_bytes (pack_from indices i bits) := by
  induction indices generalizing i bits with
  | nil => exact hb
  | cons x xs ih => exact ih _ _ (all_bytes_pack_word bits x i hb)

theorem all_bytes_pack_indices (indices : List Nat) : all_bytes (pack_indices indices) := by
  apply all_bytes_pack_from
  intro b hmem
  rw [List.eq_of_mem_replicate hmem]
  omega

/-! ## The extraction loop of the generator -/

theorem testBit_extract_term (b pos j k : Nat) (hj : j ≤ 10) :
    (((b >>> pos) &&& 1) <<< (10 - j)).testBit k = (decide (k = 10 - j) && b.testBit pos) := by
  rw [Nat.testBit_shiftLeft, Nat.testBit_and, Nat.testBit_shiftRight]
  have h1 : (1 : Nat) = 2 ^ 0 := rfl
  rw [h1, Nat.testBit_two_pow]
  by_cases hk : k = 10 - j
  · subst hk; simp
  · by_cases hk2 : k ≥ 10 - j
    · have : ¬ (0 = k - (10 - j)) := by omega
      simp [hk, this]
    · simp [hk, hk2]

theorem testBit_extract_bit (bits : List Nat) (i w j k : Nat) (hj : j ≤ 10) :
    (extract_bit bits i w j).testBit k
      = (w.testBit k || (decide (k = 10 - j) && bit_at bits (i * 11 + j))) := by
  unfold extract_bit bit_at
  simp only
  rw [Nat.testBit_or, testBit_extract_term _ _ _ _ hj]

theorem testBit_extract_fold (bits : List Nat) (i n w k : Nat) (hn : n ≤ 11) :
    ((List.range n).foldl (extract_bit bits i) w).testBit k
      = (w.testBit k || (decide (k ≤ 10 ∧ 10 - k < n) && bit_at bits (i * 11 + (10 - k)))) := by
  induction n with
  | zero => simp
  | succ n ih =>
    rw [List.range_succ, List.foldl_append]
    simp only [List.foldl_cons, List.foldl_nil]
    rw [testBit_extract_bit _ _ _ _ _ (by omega), ih (by omega)]
    by_cases hk : k = 10 - n
    · have h1 : k ≤ 10 ∧ 10 - k < n + 1 := by omega
      have h2 : ¬ (k ≤ 10 ∧ 10 - k < n) := by omega
      have h3 : 10 - k = n := by omega
      rw [decide_eq_true hk, decide_eq_true h1, decide_eq_false h2, h3]
      simp
    · by_cases h2 : k ≤ 10 ∧ 10 - k < n
      · have h1 : k ≤ 10 ∧ 10 - k < n + 1 := by omega
        simp [hk, h1, h2]
      · have h1 : ¬ (k ≤ 10 ∧ 10 - k < n + 1) := by omega
        simp [hk, h1, h2]

/-- Bit `k` of the extracted word index is bit `11 i + 10 - k` of the buffer. -/
theorem testBit_word_index_at (bits : List Nat) (i k : Nat) :
    (word_index_at bits i).testBit k = (decide (k ≤ 10) && bit_at bits (i * 11 + (10 - k))) := by
  unfold word_index_at
  rw [testBit_extract_fold _ _ _ _ _ (le_refl 11)]
  have : (k ≤ 10 ∧ 10 - k < 11) ↔ k ≤ 10 := by omega
  simp [this]

theorem word_index_at_lt (bits : List Nat) (i : Nat) : word_index_at bits i < 2048 := by
  have : word_index_at bits i < 2 ^ 11 := by
    apply Nat.lt_pow_two_of_testBit
    intro k hk
    rw [testBit_word_index_at]
    have : ¬ k ≤ 10 := by omega
    simp [this]
  simpa using this

/-- Reading window `i` of the buffer packed from `indices` gives back `indices[i]`. -/
theorem word_index_at_pack_indices (indices : List Nat) (h : indices.length ≤ 24)
    (hlt : ∀ x ∈ indices, x < 2048) (i : Nat) (hi : i < indices.length) :
    word_index_at (pack_indices indices) i = indices.getD i 0 := by
  apply Nat.eq_of_testBit_eq
  intro k
  rw [testBit_word_index_at, bit_at_pack_indices _ _ h]
  by_cases hk : k ≤ 10
  · have h1 : i * 11 + (10 - k) < indices.length * 11 := by
      have : (i + 1) * 11 ≤ indices.length * 11 := Nat.mul_le_mul_right 11 hi
      omega
    have h2 : (i * 11 + (10 - k)) / 11 = i := by omega
    have h3 : 10 - (i * 11 + (10 - k)) % 11 = k := by omega
    simp [hk, h1, h2, h3]
  · have hx : indices.getD i 0 < 2 ^ 11 := by
      have hm : indices.getD i 0 ∈ indices := by
        simp only [List.getD_eq_getElem?_getD, List.getElem?_eq_getElem hi, Option.getD_some]
        exact List.getElem_mem hi
      simpa using hlt _ hm
    have h4 : (indices.getD i 0).testBit k = false := by
      apply Nat.testBit_lt_two_pow
      exact lt_of_lt_of_le hx (Nat.pow_le_pow_right (by omega) (by omega))
    simp only [hk, decide_False, Bool.false_and]
    exact h4.symm

/-! ## Tokens and dictionary search -/

theorem takeWhile_word_sep (u rest : CString) (hu : ' ' ∉ u) :
    (u ++ ' ' :: rest).takeWhile (fun x => x != ' ') = u := by
  induction u with
  | nil => simp [List.takeWhile_cons]
  | cons a u ih =>
    have ha : a ≠ ' ' := fun e => hu (by simp [e])
    have hu' : ' ' ∉ u := fun e => hu (List.mem_cons_of_mem _ e)
    simp [List.takeWhile_cons, ha, ih hu']

theorem dropWhile_word_sep (u rest : CString) (hu : ' ' ∉ u) :
    (u ++ ' ' :: rest).dropWhile (fun x => x != ' ') = ' ' :: rest := by
  induction u with
  | nil => simp [List.dropWhile_cons]
  | cons a u ih =>
    have ha : a ≠ ' ' := fun e => hu (by simp [e])
    have hu' : ' ' ∉ u := fun e => hu (List.mem_cons_of_mem _ e)
    simp [List.dropWhile_cons, ha, ih hu']

theorem takeWhile_word (u : CString) (hu : ' ' ∉ u) :
    u.takeWhile (fun x => x != ' ') = u := by
  induction u with
  | nil => simp
  | cons a u ih =>
    have ha : a ≠ ' ' := fun e => hu (by simp [e])
    have hu' : ' ' ∉ u := fun e => hu (List.mem_cons_of_mem _ e)
    simp [List.takeWhile_cons, ha, ih hu']

theorem dropWhile_word (u : CString) (hu : ' ' ∉ u) :
    u.dropWhile (fun x => x != ' ') = [] := by
  induction u with
  | nil => simp
  | cons a u ih =>
    have ha : a ≠ ' ' := fun e => hu (by simp [e])
    have hu' : ' ' ∉ u := fun e => hu (List.mem_cons_of_mem _ e)
    simp [List.dropWhile_cons, ha, ih hu']

theorem strtok_word_sep (w rest : CString) (hw : is_word w) :
    strtok (w ++ ' ' :: rest) = some (w, rest) := by
  obtain ⟨hne, hsp⟩ := hw
  cases w with
  | nil => exact absurd rfl hne
  | cons c w' =>
    have hc : c ≠ ' ' := fun e => hsp (by simp [e])
    have h1 : ((c :: w') ++ ' ' :: rest).dropWhile (fun c => c == ' ')
        = c :: (w' ++ ' ' :: rest) := by
      simp [List.dropWhile_cons, hc]
    unfold strtok
    rw [h1]
    simp only
    rw [show c :: (w' ++ ' ' :: rest) = (c :: w') ++ ' ' :: rest from rfl,
      takeWhile_word_sep _ _ hsp, dropWhile_word_sep _ _ hsp]
    rfl

theorem strtok_word (w : CString) (hw : is_word w) : strtok w = some (w, []) := by
  obtain ⟨hne, hsp⟩ := hw
  cases w with
  | nil => exact absurd rfl hne
  | cons c w' =>
    have hc : c ≠ ' ' := fun e => hsp (by simp [e])
    have h1 : (c :: w').dropWhile (fun c => c == ' ') = c :: w' := by
      simp [List.dropWhile_cons, hc]
    unfold strtok
    rw [h1]
    simp only
    rw [takeWhile_word _ hsp, dropWhile_word _ hsp]
    rfl

theorem strtok_nil : strtok [] = none := rfl

/-- Splitting a space-joined sequence of words gives the words back, cut at the room. -/
theorem split_words_join (ws : List CString) (hws : ∀ w ∈ ws, is_word w) (room : Nat) :
    split_words room (join_words ws) = ws.take room := by
  induction room generalizing ws with
  | zero => simp [split_words]
  | succ room ih =>
    match ws, hws with
    | [], _ => simp [split_words, join_words, strtok_nil]
    | [w], h =>
      have hw := h w (by simp)
      cases room <;> simp [split_words, join_words, strtok_word w hw, strtok_nil]
    | w :: v :: ws, h =>
      have hw := h w (by simp)
      have hr : ∀ x ∈ v :: ws, is_word x := fun x hx => h x (List.mem_cons_of_mem _ hx)
      simp only [split_words, join_words, strtok_word_sep w _ hw, List.take_succ_cons]
      rw [ih _ hr]

theorem find_from_none (ws : List CString) (word : CString) (j : Nat) :
    find_from ws word j = none ↔ word ∉ ws := by
  induction ws generalizing j with
  | nil => simp [find_from]
  | cons w ws ih =>
    unfold find_from
    by_cases h : word = w
    · simp [h]
    · simp [h, ih]

theorem find_from_nodup (ws : List CString) (hnd : ws.Nodup) (j k : Nat) (hk : k < ws.length) :
    find_from ws (ws.getD k []) j = some (j + k) := by
  induction ws generalizing j k with
  | nil => simp at hk
  | cons w ws ih =>
    unfold find_from
    cases k with
    | zero => simp
    | succ k =>
      have hk' : k < ws.length := by simpa using hk
      have hmem : ws.getD k [] ∈ ws := by
        simp only [List.getD_eq_getElem?_getD, List.getElem?_eq_getElem hk', Option.getD_some]
        exact List.getElem_mem hk'
      have hne : ¬ (ws.getD k [] = w) := by
        intro e
        exact (List.nodup_cons.mp hnd).1 (e ▸ hmem)
      have e1 : (w :: ws).getD (k + 1) [] = ws.getD k [] := by simp
      rw [e1, if_neg hne, ih (List.nodup_cons.mp hnd).2 (j + 1) k hk']
      congr 1
      omega

theorem find_from_some_getD (ws : List CString) (word : CString) (j r : Nat)
    (h : find_from ws word j = some r) : j ≤ r ∧ r - j < ws.length ∧ ws.getD (r - j) [] = word := by
  induction ws generalizing j with
  | nil => simp [find_from] at h
  | cons w ws ih =>
    unfold find_from at h
    by_cases hw : word = w
    · rw [if_pos hw] at h
      have : j = r := by simpa using h
      subst this
      simp [hw]
    · rw [if_neg hw] at h
      obtain ⟨h1, h2, h3⟩ := ih (j + 1) h
      have e : r - j = (r - (j + 1)) + 1 := by omega
      refine ⟨by omega, by simp; omega, ?_⟩
      rw [e]
      simpa using h3

theorem find_word_nodup (wordlist : List CString) (hlen : wordlist.length = WORDLIST_SIZE)
    (hnd : wordlist.Nodup) (k : Nat) (hk : k < WORDLIST_SIZE) :
    find_word wordlist (word_of wordlist k) = some k := by
  unfold find_word word_of
  rw [List.take_of_length_le (by omega), find_from_nodup wordlist hnd 0 k (by omega)]
  simp

theorem find_word_none (wordlist : List CString) (hlen : wordlist.length = WORDLIST_SIZE)
    (word : CString) : find_word wordlist word = none ↔ word ∉ wordlist := by
  unfold find_word
  rw [List.take_of_length_le (by omega), find_from_none]

theorem find_word_some (wordlist : List CString) (word : CString) (r : Nat)
    (h : find_word wordlist word = some r) :
    r < WORDLIST_SIZE ∧ r < wordlist.length ∧ word_of wordlist r = word := by
  unfold find_word at h
  obtain ⟨_, h2, h3⟩ := find_from_some_getD _ _ _ _ h
  simp only [Nat.sub_zero, List.length_take] at h2
  refine ⟨by omega, by omega, ?_⟩
  unfold word_of
  simp only [Nat.sub_zero, List.getD_eq_getElem?_getD] at h3 ⊢
  rw [List.getElem?_take_of_lt (by omega)] at h3
  exact h3

theorem get_indices_none (wordlist : List CString) (ws : List CString) :
    get_indices wordlist ws = none ↔ ∃ w ∈ ws, find_word wordlist w = none := by
  induction ws with
  | nil => simp [get_indices]
  | cons w ws ih =>
    unfold get_indices
    cases hw : find_word wordlist w with
    | none => simp [hw]
    | some j =>
      cases hr : get_indices wordlist ws with
      | none =>
        obtain ⟨v, hv, hvn⟩ := ih.mp hr
        simp only [true_iff]
        exact ⟨v, List.mem_cons_of_mem _ hv, hvn⟩
      | some js =>
        constructor
        · intro h; cases h
        rintro ⟨v, hv, hvn⟩
        rcases List.mem_cons.mp hv with e | e
        · rw [e, hw] at hvn; cases hvn
        · have := ih.mpr ⟨v, e, hvn⟩
          rw [hr] at this; cases this

theorem get_indices_some (wordlist : List CString) (ws : List CString) (js : List Nat)
    (h : get_indices wordlist ws = some js) :
    js.length = ws.length ∧ (∀ x ∈ js, x < WORDLIST_SIZE) ∧ js.map (word_of wordlist) = ws := by
  induction ws generalizing js with
  | nil =>
    simp only [get_indices, Option.some.injEq] at h
    subst h
    simp
  | cons w ws ih =>
    unfold get_indices at h
    cases hw : find_word wordlist w with
    | none => rw [hw] at h; cases h
    | some j =>
      rw [hw] at h
      cases hr : get_indices wordlist ws with
      | none => rw [hr] at h; cases h
      | some js' =>
        rw [hr] at h
        simp only [Option.some.injEq] at h
        subst h
        obtain ⟨i1, i2, i3⟩ := ih js' hr
        obtain ⟨f1, _, f3⟩ := find_word_some _ _ _ hw
        refine ⟨by simp [i1], ?_, by simp [i3, f3]⟩
        intro x hx
        rcases List.mem_cons.mp hx with e | e
        · rw [e]; exact f1
        · exact i2 x e

/-- Looking up the words at given indices of a duplicate-free dictionary returns the indices. -/
theorem get_indices_map (wordlist : List CString) (hlen : wordlist.length = WORDLIST_SIZE)
    (hnd : wordlist.Nodup) (js : List Nat) (hjs : ∀ x ∈ js, x < WORDLIST_SIZE) :
    get_indices wordlist (js.map (word_of wordlist)) = some js := by
  induction js with
  | nil => rfl
  | cons j js ih =>
    simp only [List.map_cons, get_indices]
    rw [find_word_nodup wordlist hlen hnd j (hjs j (by simp)),
      ih (fun x hx => hjs x (List.mem_cons_of_mem _ hx))]

theorem word_of_mem (wordlist : List CString) (k : Nat) (hk : k < wordlist.length) :
    word_of wordlist k ∈ wordlist := by
  unfold word_of
  simp only [List.getD_eq_getElem?_getD, List.getElem?_eq_getElem hk, Option.getD_some]
  exact List.getElem_mem hk

/-- The loop of `generate_mnemonic` runs to its end and leaves the joined words, when the
buffer has room for `word_count` words of at most `L` characters. -/
theorem write_words_ok (bits : List Nat) (len L : Nat) (wordlist : List CString)
    (word_count : Int) (hlen : wordlist.length = WORDLIST_SIZE)
    (hL : ∀ w ∈ wordlist, w.length ≤ L)
    (todo i : Nat) (out : CString) (hwc : ((i + todo : Nat) : Int) = word_count)
    (hroom : (i + todo) * (L + 1) + 1 ≤ len) (hout : out.length ≤ i * (L + 1)) :
    write_words bits len wordlist word_count todo i out
      = Except.ok (out ++ join_words
          ((List.range' i todo).map (fun t => word_of wordlist (word_index_at bits t)))) := by
  induction todo generalizing i out with
  | zero => simp [write_words, join_words]
  | succ todo ih =>
    unfold write_words
    have hlt := word_index_at_lt bits i
    have h1 : ¬ (word_index_at bits i ≥ WORDLIST_SIZE) := by
      unfold WORDLIST_SIZE; omega
    have hin : word_index_at bits i < wordlist.length := by
      rw [hlen]; unfold WORDLIST_SIZE; omega
    have hget : wordlist.get? (word_index_at bits i)
        = some (word_of wordlist (word_index_at bits i)) := by
      unfold word_of
      simp [List.getD_eq_getElem?_getD, List.getElem?_eq_getElem hin]
    have hwl : (word_of wordlist (word_index_at bits i)).length ≤ L :=
      hL _ (word_of_mem _ _ hin)
    simp only [h1, if_false, hget]
    have hmul : (i + (todo + 1)) * (L + 1) = i * (L + 1) + (todo + 1) * (L + 1) := by ring
    have hmul2 : (todo + 1) * (L + 1) = todo * (L + 1) + (L + 1) := by ring
    have h2 : ¬ (out.length + (word_of wordlist (word_index_at bits i)).length + 2 > len) := by
      omega
    simp only [h2, if_false]
    have h3 : ¬ ((word_of wordlist (word_index_at bits i) ++
        if (i : Int) < word_count - 1 then [' '] else []).length ≥ len - out.length) := by
      rw [List.length_append]
      split <;> simp <;> omega
    simp only [h3, if_false]
    have hmul3 : (i + 1) * (L + 1) = i * (L + 1) + (L + 1) := by ring
    have hroom' : (i + 1 + todo) * (L + 1) + 1 ≤ len := by
      have e : i + 1 + todo = i + (todo + 1) := by omega
      rw [e]; exact hroom
    rw [ih (i + 1) _ (by rw [← hwc]; push_cast; ring) hroom'
      (by rw [List.length_append]; split <;> simp <;> omega)]
    congr 1
    rw [List.append_assoc]
    congr 1
    cases todo with
    | zero =>
      have : ¬ ((i : Int) < word_count - 1) := by rw [← hwc]; push_cast; omega
      simp [this, join_words]
    | succ t =>
      have : (i : Int) < word_count - 1 := by rw [← hwc]; push_cast; omega
      simp [this, join_words, List.range'_succ]

/-! ## Generator followed by validator -/

theorem testBit_getD_eq_bit_at (a : List Nat) (k t : Nat) (ht : t < 8) :
    (a.getD k 0).testBit t = bit_at a (8 * k + (7 - t)) := by
  unfold bit_at
  have h1 : (8 * k + (7 - t)) / 8 = k := by omega
  have h2 : 7 - (8 * k + (7 - t)) % 8 = t := by omega
  rw [h1, h2]

/-- Two byte buffers of the same length with the same bits are equal. -/
theorem eq_of_bit_at_eq (a b : List Nat) (ha : all_bytes a) (hb : all_bytes b)
    (hl : a.length = b.length) (h : ∀ p, p < 8 * a.length → bit_at a p = bit_at b p) :
    a = b := by
  apply List.ext_getElem hl
  intro k hk1 hk2
  have e1 : a[k] = a.getD k 0 := by
    simp [List.getD_eq_getElem?_getD, List.getElem?_eq_getElem hk1]
  have e2 : b[k] = b.getD k 0 := by
    simp [List.getD_eq_getElem?_getD, List.getElem?_eq_getElem hk2]
  rw [e1, e2]
  apply Nat.eq_of_testBit_eq
  intro t
  by_cases ht : t < 8
  · rw [testBit_getD_eq_bit_at _ _ _ ht, testBit_getD_eq_bit_at _ _ _ ht]
    exact h _ (by omega)
  · have p8 : (2 : Nat) ^ 8 ≤ 2 ^ t := Nat.pow_le_pow_right (by omega) (by omega)
    rw [Nat.testBit_lt_two_pow (lt_of_lt_of_le (getD_lt_256 a ha k) p8),
      Nat.testBit_lt_two_pow (lt_of_lt_of_le (getD_lt_256 b hb k) p8)]

/-- Packing the indices read from the first `n` windows of a buffer reproduces the first
`11 n` bits of that buffer and leaves the other bits zero. -/
theorem bit_at_pack_extract (gb : List Nat) (n p : Nat) (hn : n ≤ 24) :
    bit_at (pack_indices ((List.range n).map (word_index_at gb))) p
      = (decide (p < n * 11) && bit_at gb p) := by
  rw [bit_at_pack_indices _ _ (by simpa using hn)]
  simp only [List.length_map, List.length_range]
  by_cases hp : p < n * 11
  · have hq : p / 11 < n := by omega
    have e : ((List.range n).map (word_index_at gb)).getD (p / 11) 0
        = word_index_at gb (p / 11) := by
      simp [List.getD_eq_getElem?_getD, List.getElem?_map, List.getElem?_range hq]
    rw [e, testBit_word_index_at]
    have h1 : 10 - p % 11 ≤ 10 := by omega
    have h2 : p / 11 * 11 + (10 - (10 - p % 11)) = p := by omega
    simp [hp, h1, h2]
  · simp [hp]

theorem length_form_bits (SHA256 : List Nat → List Nat) (entropy : List Nat) (word_count : Int)
    (he : entropy.length = entropy_bits word_count / 8) :
    (form_bits SHA256 entropy word_count).length = 33 := by
  unfold form_bits
  simp only [List.length_set, List.length_append, List.length_take, List.length_drop,
    List.length_replicate]
  have : entropy_bits word_count / 8 ≤ 32 := by
    unfold entropy_bits; split <;> decide
  omega

theorem hash0_lt (SHA256 : List Nat → List Nat) (data : List Nat) : hash0 SHA256 data < 256 :=
  Nat.mod_lt _ (by decide)

theorem all_bytes_form_bits (SHA256 : List Nat → List Nat) (entropy : List Nat)
    (word_count : Int) (hb : all_bytes entropy) :
    all_bytes (form_bits SHA256 entropy word_count) := by
  unfold form_bits
  apply all_bytes_set
  · intro b hmem
    rcases List.mem_append.mp hmem with h | h
    · exact hb b (List.mem_of_mem_take h)
    · have := List.mem_of_mem_drop h
      rw [List.eq_of_mem_replicate this]; omega
  · have h1 := hash0_lt SHA256 (entropy.take (entropy_bits word_count / 8))
    rw [Nat.shiftRight_eq_div_pow]
    exact lt_of_le_of_lt (Nat.div_le_self _ _) h1

theorem length_generate_indices (SHA256 : List Nat → List Nat) (entropy : List Nat)
    (word_count : Int) : (generate_indices SHA256 entropy word_count).length = word_count.toNat := by
  simp [generate_indices]

theorem generate_indices_lt (SHA256 : List Nat → List Nat) (entropy : List Nat)
    (word_count : Int) : ∀ x ∈ generate_indices SHA256 entropy word_count, x < WORDLIST_SIZE := by
  intro x hx
  unfold generate_indices at hx
  obtain ⟨i, _, rfl⟩ := List.mem_map.mp hx
  exact word_index_at_lt _ i

/-- With 24 words the validator rebuilds exactly the buffer the generator formed. -/
theorem pack_generate_24 (SHA256 : List Nat → List Nat) (E : List Nat) (hE : E.length = 32)
    (hb : all_bytes E) :
    pack_indices (generate_indices SHA256 E 24) = form_bits SHA256 E 24 := by
  apply eq_of_bit_at_eq _ _ (all_bytes_pack_indices _) (all_bytes_form_bits _ _ _ hb)
  · rw [length_pack_indices, length_form_bits _ _ _ (by simpa [entropy_bits] using hE)]
  · intro p hp
    rw [length_pack_indices] at hp
    unfold generate_indices
    rw [show (24 : Int).toNat = 24 from rfl, bit_at_pack_extract _ _ _ (le_refl 24)]
    have : p < 24 * 11 := by omega
    simp [this]

theorem form_bits_24 (SHA256 : List Nat → List Nat) (E : List Nat) (hE : E.length = 32) :
    form_bits SHA256 E 24 = E ++ [hash0 SHA256 E] := by
  unfold form_bits
  have e1 : entropy_bits 24 / 8 = 32 := by decide
  have e2 : byte_count 24 - 1 = 32 := by decide
  have e3 : 8 - checksum_bits 24 = 0 := by decide
  rw [e1, e2, e3]
  simp only
  rw [List.take_of_length_le (by omega)]
  have : (List.replicate 33 0).drop 32 = [0] := by decide
  rw [this, Nat.shiftRight_zero]
  have : (E ++ [0]).set 32 (hash0 SHA256 E) = E ++ [hash0 SHA256 E] := by
    rw [← hE, List.set_append_right _ _ (le_refl _)]
    simp
  exact this

theorem form_bits_12 (SHA256 : List Nat → List Nat) (E : List Nat) (hE : E.length = 16) :
    form_bits SHA256 E 12 = E ++ (hash0 SHA256 E >>> 4) :: List.replicate 16 0 := by
  unfold form_bits
  have e1 : entropy_bits 12 / 8 = 16 := by decide
  have e2 : byte_count 12 - 1 = 16 := by decide
  have e3 : 8 - checksum_bits 12 = 4 := by decide
  rw [e1, e2, e3]
  simp only
  rw [List.take_of_length_le (by omega)]
  have : (List.replicate 33 0).drop 16 = 0 :: List.replicate 16 0 := by decide
  rw [this, ← hE, List.set_append_right _ _ (le_refl _)]
  simp

/-- With 12 words the validator rebuilds the entropy followed by zero bytes: the byte that
held the checksum in the generator's buffer comes back as zero. -/
theorem pack_generate_12 (SHA256 : List Nat → List Nat) (E : List Nat) (hE : E.length = 16)
    (hb : all_bytes E) :
    pack_indices (generate_indices SHA256 E 12) = E ++ List.replicate 17 0 := by
  have hz : all_bytes (E ++ List.replicate 17 0) := by
    intro b hmem
    rcases List.mem_append.mp hmem with h | h
    · exact hb b h
    · rw [List.eq_of_mem_replicate h]; omega
  apply eq_of_bit_at_eq _ _ (all_bytes_pack_indices _) hz
  · rw [length_pack_indices]; simp [hE]
  · intro p hp
    rw [length_pack_indices] at hp
    unfold generate_indices
    rw [show (12 : Int).toNat = 12 from rfl, bit_at_pack_extract _ _ _ (by omega),
      form_bits_12 _ _ hE]
    unfold bit_at
    simp only [List.getD_eq_getElem?_getD]
    by_cases h1 : p / 8 < 16
    · have hp2 : p < 12 * 11 := by omega
      rw [List.getElem?_append_left (by omega), List.getElem?_append_left (by omega)]
      simp [hp2]
    · rw [List.getElem?_append_right (by omega), List.getElem?_append_right (by omega), hE]
      by_cases h2 : p / 8 = 16
      · have e : p / 8 - 16 = 0 := by omega
        rw [e]
        simp only [List.getElem?_cons_zero, Option.getD_some, List.replicate_succ,
          Nat.zero_testBit, Bool.and_eq_false_imp, decide_eq_true_eq]
        intro hlt
        apply Nat.testBit_lt_two_pow
        have h3 : hash0 SHA256 E >>> 4 < 16 := by
          have := hash0_lt SHA256 E
          rw [Nat.shiftRight_eq_div_pow]; omega
        have h4 : (2 : Nat) ^ 4 ≤ 2 ^ (7 - p % 8) := Nat.pow_le_pow_right (by omega) (by omega)
        omega
      · have hp2 : ¬ p < 12 * 11 := by omega
        have h5 : ((List.replicate 17 0)[p / 8 - 16]?.getD 0) = 0 := by
          rw [List.getElem?_replicate]; split <;> rfl
        rw [h5, decide_eq_false hp2]
        simp

/-- The validator on the space-joined words of given indices: the tokens and the indices are
recovered, and the verdict is the checksum comparison on the packed buffer. -/
theorem validate_join_words (SHA256 : List Nat → List Nat) (wordlist : List CString)
    (hlen : wordlist.length = WORDLIST_SIZE) (hnd : wordlist.Nodup)
    (hw : ∀ w ∈ wordlist, is_word w) (js : List Nat) (hjs : ∀ x ∈ js, x < WORDLIST_SIZE)
    (hn : js.length ≤ 24) (word_count : Int) (hwc : (js.length : Int) = word_count) :
    validate_mnemonic SHA256 (join_words (js.map (word_of wordlist))) wordlist word_count
      = if hash0 SHA256 ((pack_indices js).take (entropy_bits word_count / 8))
            >>> (8 - checksum_bits word_count)
          ≠ (pack_indices js).getD (byte_count word_count - 1) 0
            &&& ((1 <<< checksum_bits word_count) - 1)
        then 0 else 1 := by
  have hws : ∀ w ∈ js.map (word_of wordlist), is_word w := by
    intro w hmem
    obtain ⟨k, hk, rfl⟩ := List.mem_map.mp hmem
    exact hw _ (word_of_mem _ _ (by rw [hlen]; exact hjs k hk))
  unfold validate_mnemonic
  simp only
  rw [split_words_join _ hws, List.take_of_length_le (by simpa using hn),
    get_indices_map wordlist hlen hnd js hjs]
  simp only [List.length_map, hwc, ne_eq, not_true_eq_false, if_false]

/-- Round trip with 24 words: the generated phrase validates. -/
theorem validate_generate_24 (SHA256 : List Nat → List Nat) (wordlist : List CString)
    (hlen : wordlist.length = WORDLIST_SIZE) (hnd : wordlist.Nodup)
    (hw : ∀ w ∈ wordlist, is_word w) (E : List Nat) (hE : E.length = 32) (hb : all_bytes E) :
    validate_mnemonic SHA256
      (join_words ((generate_indices SHA256 E 24).map (word_of wordlist))) wordlist 24 = 1 := by
  rw [validate_join_words SHA256 wordlist hlen hnd hw _ (generate_indices_lt _ _ _)
    (by rw [length_generate_indices]; decide) 24 (by rw [length_generate_indices]; rfl),
    pack_generate_24 _ _ hE hb, form_bits_24 _ _ hE]
  have e1 : entropy_bits 24 / 8 = 32 := by decide
  have e2 : byte_count 24 - 1 = 32 := by decide
  have e3 : 8 - checksum_bits 24 = 0 := by decide
  have e4 : (1 <<< checksum_bits 24) - 1 = 2 ^ 8 - 1 := by decide
  rw [e1, e2, e3, e4, ← hE, List.take_left, Nat.and_pow_two_sub_one_eq_mod]
  have h1 : (E ++ [hash0 SHA256 E]).getD E.length 0 = hash0 SHA256 E := by
    simp [List.getD_eq_getElem?_getD, List.getElem?_append_right]
  rw [h1, Nat.shiftRight_zero, Nat.mod_eq_of_lt (by simpa using hash0_lt SHA256 E)]
  simp

/-- Round trip with 12 words: the generated phrase validates exactly when the top four bits
of the first digest byte are zero. -/
theorem validate_generate_12 (SHA256 : List Nat → List Nat) (wordlist : List CString)
    (hlen : wordlist.length = WORDLIST_SIZE) (hnd : wordlist.Nodup)
    (hw : ∀ w ∈ wordlist, is_word w) (E : List Nat) (hE : E.length = 16) (hb : all_bytes E) :
    validate_mnemonic SHA256
      (join_words ((generate_indices SHA256 E 12).map (word_of wordlist))) wordlist 12
      = if hash0 SHA256 E >>> 4 = 0 then 1 else 0 := by
  rw [validate_join_words SHA256 wordlist hlen hnd hw _ (generate_indices_lt _ _ _)
    (by rw [length_generate_indices]; decide) 12 (by rw [length_generate_indices]; rfl),
    pack_generate_12 _ _ hE hb]
  have e1 : entropy_bits 12 / 8 = 16 := by decide
  have e2 : byte_count 12 - 1 = 16 := by decide
  have e3 : 8 - checksum_bits 12 = 4 := by decide
  rw [e1, e2, e3, ← hE, List.take_left]
  have h1 : (E ++ List.replicate 17 0).getD E.length 0 = 0 := by
    rw [List.getD_eq_getElem?_getD, List.getElem?_append_right (le_refl _), Nat.sub_self]
    rfl
  rw [h1, Nat.zero_and]
  by_cases h : hash0 SHA256 E >>> 4 = 0 <;> simp [h]

/-- The generator's result for word counts 12 and 24: the loop ends normally and the buffer
holds the space-joined dictionary words of the generated indices. -/
theorem generate_mnemonic_eq (SHA256 : List Nat → List Nat) (E : List Nat) (len L : Nat)
    (wordlist : List CString) (word_count : Int) (hwc : word_count = 12 ∨ word_count = 24)
    (hlen : wordlist.length = WORDLIST_SIZE) (hL : ∀ w ∈ wordlist, w.length ≤ L)
    (hroom : 24 * (L + 1) + 1 ≤ len) :
    generate_mnemonic SHA256 (some E) len wordlist word_count
      = Except.ok (join_words ((generate_indices SHA256 E word_count).map (word_of wordlist))) := by
  unfold generate_mnemonic generate_indices
  simp only
  have hn : word_count.toNat ≤ 24 := by rcases hwc with h | h <;> rw [h] <;> decide
  have hc : ((0 + word_count.toNat : Nat) : Int) = word_count := by
    rcases hwc with h | h <;> rw [h] <;> rfl
  have hr : (0 + word_count.toNat) * (L + 1) + 1 ≤ len := by
    have := Nat.mul_le_mul_right (L + 1) hn
    rw [Nat.zero_add]
    omega
  rw [write_words_ok _ len L wordlist word_count hlen hL word_count.toNat 0 [] hc hr (by simp)]
  simp [List.range_eq_range', List.map_map, Function.comp_def]

theorem strtok_rest_length (s tok rest : CString) (h : strtok s = some (tok, rest)) :
    rest.length < s.length := by
  unfold strtok at h
  split at h
  · cases h
  · rename_i c s1 hd
    simp only [Option.some.injEq, Prod.mk.injEq] at h
    have h1 : (c :: s1).length ≤ s.length := by
      rw [← hd]; exact (List.dropWhile_sublist _).length_le
    have h2 : ((c :: s1).dropWhile (fun x => x != ' ')).length ≤ (c :: s1).length :=
      (List.dropWhile_sublist _).length_le
    rw [← h.2, List.length_drop]
    simp only [List.length_cons] at h1 h2 ⊢
    omega

theorem split_words_length_le (room : Nat) (s : CString) :
    (split_words room s).length ≤ s.length := by
  induction room generalizing s with
  | zero => simp [split_words]
  | succ room ih =>
    unfold split_words
    cases h : strtok s with
    | none => simp
    | some tr =>
      obtain ⟨tok, rest⟩ := tr
      have h1 := strtok_rest_length s tok rest h
      have h2 := ih rest
      simp only [List.length_cons]
      omega

theorem split_words_take (n m : Nat) (s : CString) (h : n ≤ m) :
    split_words n s = (split_words m s).take n := by
  induction n generalizing m s with
  | zero => simp [split_words]
  | succ n ih =>
    cases m with
    | zero => omega
    | succ m =>
      unfold split_words
      cases hs : strtok s with
      | none => simp
      | some tr =>
        obtain ⟨tok, rest⟩ := tr
        simp only [List.take_succ_cons]
        rw [ih m rest (by omega)]

/-- The words the validator stores are the first tokens of the candidate, up to the room. -/
theorem split_words_eq_take_tokens (room : Nat) (s : CString) :
    split_words room s = (tokens s).take room := by
  unfold tokens
  by_cases h : room ≤ s.length + 1
  · exact split_words_take room (s.length + 1) s h
  · have h1 := split_words_take (s.length + 1) room s (by omega)
    have h2 := split_words_length_le room s
    rw [List.take_of_length_le (by omega)] at h1
    rw [h1, List.take_of_length_le (by omega)]

/-- The verdict depends on the candidate only through the words stored by the splitting loop. -/
theorem validate_mnemonic_congr (SHA256 : List Nat → List Nat) (a b : CString)
    (wordlist : List CString) (word_count : Int) (h : split_words 24 a = split_words 24 b) :
    validate_mnemonic SHA256 a wordlist word_count
      = validate_mnemonic SHA256 b wordlist word_count := by
  unfold validate_mnemonic
  rw [h]

theorem validate_count_mismatch (SHA256 : List Nat → List Nat) (c : CString)
    (wordlist : List CString) (word_count : Int)
    (h : ((split_words 24 c).length : Int) ≠ word_count) :
    validate_mnemonic SHA256 c wordlist word_count = 0 := by
  unfold validate_mnemonic
  simp only [h, ne_eq, not_false_eq_true, if_true]

theorem validate_unknown_word (SHA256 : List Nat → List Nat) (c : CString)
    (wordlist : List CString) (word_count : Int)
    (h : get_indices wordlist (split_words 24 c) = none) :
    validate_mnemonic SHA256 c wordlist word_count = 0 := by
  unfold validate_mnemonic
  simp only [h]
  split <;> rfl

theorem splitOn_space_cons (c : Char) (s : CString) :
    (c :: s).splitOn ' '
      = if c = ' ' then [] :: s.splitOn ' ' else (s.splitOn ' ').modifyHead (fun t => c :: t) := by
  unfold List.splitOn
  rw [List.splitOnP_cons]
  by_cases h : c = ' ' <;> simp [h]

theorem splitOn_space_eq (s : CString) :
    s.splitOn ' ' = s.takeWhile (fun x => x != ' ') ::
      (match s.dropWhile (fun x => x != ' ') with
        | [] => []
        | _ :: r => r.splitOn ' ') := by
  induction s with
  | nil => rfl
  | cons c s ih =>
    rw [splitOn_space_cons]
    by_cases h : c = ' '
    · subst h
      simp [List.takeWhile_cons, List.dropWhile_cons]
    · rw [if_neg h, ih]
      simp [List.takeWhile_cons, List.dropWhile_cons, h, List.modifyHead]

theorem nonempty_pieces_nil : nonempty_pieces [] = [] := by
  decide

theorem nonempty_pieces_cons_space (s : CString) :
    nonempty_pieces (' ' :: s) = nonempty_pieces s := by
  unfold nonempty_pieces
  rw [splitOn_space_cons]
  simp

theorem strtok_cons_space (s : CString) : strtok (' ' :: s) = strtok s := by
  unfold strtok
  simp [List.dropWhile_cons]

theorem strtok_cons_ne (c : Char) (s : CString) (h : c ≠ ' ') :
    strtok (c :: s) = some ((c :: s).takeWhile (fun x => x != ' '),
      ((c :: s).dropWhile (fun x => x != ' ')).drop 1) := by
  unfold strtok
  simp [List.dropWhile_cons, h]

theorem nonempty_pieces_cons_ne (c : Char) (s : CString) (h : c ≠ ' ') :
    nonempty_pieces (c :: s) = (c :: s).takeWhile (fun x => x != ' ') ::
      nonempty_pieces (((c :: s).dropWhile (fun x => x != ' ')).drop 1) := by
  unfold nonempty_pieces
  rw [splitOn_space_eq (c :: s)]
  have hne : (c :: s).takeWhile (fun x => x != ' ') ≠ [] := by
    simp [List.takeWhile_cons, h]
  rw [List.filter_cons_of_pos (by simpa using hne)]
  congr 1
  cases hd : (c :: s).dropWhile (fun x => x != ' ') with
  | nil => decide
  | cons a r => simp

/-- The words stored by the splitting loop are the first non-empty pieces of the candidate
cut at every space. -/
theorem split_words_eq_take_pieces (room : Nat) (s : CString) :
    split_words room s = (nonempty_pieces s).take room := by
  induction room generalizing s with
  | zero => simp [split_words]
  | succ room ih =>
    induction s with
    | nil => simp [split_words, strtok_nil, nonempty_pieces_nil]
    | cons c s ihs =>
      by_cases h : c = ' '
      · subst h
        rw [nonempty_pieces_cons_space, ← ihs, split_words, split_words, strtok_cons_space]
      · rw [nonempty_pieces_cons_ne c s h, List.take_succ_cons, ← ih, split_words,
          strtok_cons_ne c s h]

/-- The tokens `strtok` yields are the non-empty pieces between spaces. -/
theorem tokens_eq_nonempty_pieces (s : CString) : tokens s = nonempty_pieces s := by
  have h1 := split_words_eq_take_pieces ((nonempty_pieces s).length + s.length + 1) s
  have h2 := split_words_eq_take_tokens ((nonempty_pieces s).length + s.length + 1) s
  have h3 : (tokens s).length ≤ s.length := split_words_length_le _ s
  rw [List.take_of_length_le (by omega)] at h1 h2
  rw [← h1, h2]

/-! ## The sample dictionary and the zero entropies -/

theorem sample_letter_inj : ∀ d < 16, ∀ e < 16, sample_letter d = sample_letter e → d = e := by
  decide

theorem sample_letter_ne_space : ∀ d < 16, sample_letter d ≠ ' ' := by decide

theorem sample_word_inj (a b : Nat) (h : sample_word a = sample_word b) (ha : a < 2048)
    (hb : b < 2048) : a = b := by
  unfold sample_word at h
  simp only [List.cons.injEq, and_true] at h
  obtain ⟨h1, h2, h3⟩ := h
  have e1 := sample_letter_inj _ (Nat.mod_lt _ (by decide)) _ (Nat.mod_lt _ (by decide)) h1
  have e2 := sample_letter_inj _ (Nat.mod_lt _ (by decide)) _ (Nat.mod_lt _ (by decide)) h2
  have e3 := sample_letter_inj _ (Nat.mod_lt _ (by decide)) _ (Nat.mod_lt _ (by decide)) h3
  omega

theorem sample_wordlist_length : sample_wordlist.length = WORDLIST_SIZE := by
  simp [sample_wordlist, WORDLIST_SIZE]

theorem sample_wordlist_nodup : sample_wordlist.Nodup := by
  unfold sample_wordlist
  apply List.Nodup.map_on _ (List.nodup_range 2048)
  intro x hx y hy hxy
  exact sample_word_inj x y hxy (List.mem_range.mp hx) (List.mem_range.mp hy)

theorem sample_wordlist_is_word : ∀ w ∈ sample_wordlist, is_word w := by
  intro w hw
  unfold sample_wordlist at hw
  obtain ⟨k, _, rfl⟩ := List.mem_map.mp hw
  refine ⟨by simp [sample_word], ?_⟩
  unfold sample_word
  intro hmem
  simp only [List.mem_cons, List.mem_singleton, List.not_mem_nil, or_false] at hmem
  rcases hmem with h | h | h
  · exact sample_letter_ne_space _ (Nat.mod_lt _ (by decide)) h.symm
  · exact sample_letter_ne_space _ (Nat.mod_lt _ (by decide)) h.symm
  · exact sample_letter_ne_space _ (Nat.mod_lt _ (by decide)) h.symm

theorem sample_wordlist_short : ∀ w ∈ sample_wordlist, w.length ≤ 19 := by
  intro w hw
  unfold sample_wordlist at hw
  obtain ⟨k, _, rfl⟩ := List.mem_map.mp hw
  simp [sample_word]

theorem word_of_sample (k : Nat) (hk : k < 2048) : word_of sample_wordlist k = sample_word k := by
  unfold word_of sample_wordlist
  simp [List.getD_eq_getElem?_getD, List.getElem?_map, List.getElem?_range hk]

theorem all_bytes_replicate_zero (n : Nat) : all_bytes (List.replicate n 0) := by
  intro b hmem
  rw [List.eq_of_mem_replicate hmem]; omega

theorem hash0_zero_16 : hash0 SHA256_std (List.replicate 16 0) = 0x37 := by decide

theorem hash0_zero_32 : hash0 SHA256_std (List.replicate 32 0) = 0x66 := by decide

theorem generate_indices_zero_12 :
    generate_indices SHA256_std (List.replicate 16 0) 12 = List.replicate 12 0 := by decide

set_option maxRecDepth 100000 in
theorem generate_indices_zero_24 :
    generate_indices SHA256_std (List.replicate 32 0) 24 = List.replicate 23 0 ++ [102] := by
  decide

theorem phrase_zero_12_eq :
    join_words ((List.replicate 12 0).map (word_of sample_wordlist)) = phrase_zero_12 := by
  rw [List.map_replicate, word_of_sample 0 (by decide)]
  decide

set_option maxRecDepth 100000 in
theorem phrase_zero_24_eq :
    join_words ((List.replicate 23 0 ++ [102]).map (word_of sample_wordlist))
      = phrase_zero_24 := by
  rw [List.map_append, List.map_replicate, word_of_sample 0 (by decide)]
  simp only [List.map_cons, List.map_nil]
  rw [word_of_sample 102 (by decide)]
  decide

theorem generate_zero_12 :
    generate_mnemonic SHA256_std (some (List.replicate 16 0)) 600 sample_wordlist 12
      = Except.ok phrase_zero_12 := by
  rw [generate_mnemonic_eq SHA256_std _ 600 19 sample_wordlist 12 (Or.inl rfl)
    sample_wordlist_length sample_wordlist_short (by decide),
    generate_indices_zero_12, phrase_zero_12_eq]

theorem generate_zero_24 :
    generate_mnemonic SHA256_std (some (List.replicate 32 0)) 600 sample_wordlist 24
      = Except.ok phrase_zero_24 := by
  rw [generate_mnemonic_eq SHA256_std _ 600 19 sample_wordlist 24 (Or.inr rfl)
    sample_wordlist_length sample_wordlist_short (by decide),
    generate_indices_zero_24, phrase_zero_24_eq]

theorem validate_zero_12 : validate_mnemonic SHA256_std phrase_zero_12 sample_wordlist 12 = 0 := by
  have h := validate_generate_12 SHA256_std sample_wordlist sample_wordlist_length
    sample_wordlist_nodup sample_wordlist_is_word (List.replicate 16 0) (by simp)
    (all_bytes_replicate_zero 16)
  rw [generate_indices_zero_12, phrase_zero_12_eq, hash0_zero_16] at h
  exact h

theorem validate_zero_24 : validate_mnemonic SHA256_std phrase_zero_24 sample_wordlist 24 = 1 := by
  have h := validate_generate_24 SHA256_std sample_wordlist sample_wordlist_length
    sample_wordlist_nodup sample_wordlist_is_word (List.replicate 32 0) (by simp)
    (all_bytes_replicate_zero 32)
  rw [generate_indices_zero_24, phrase_zero_24_eq] at h
  exact h

set_option maxRecDepth 100000 in
theorem validate_zero_24_extra_known :
    validate_mnemonic SHA256_std (phrase_zero_24 ++ " aaa".toList) sample_wordlist 24 = 1 := by
  decide

set_option maxRecDepth 100000 in
theorem validate_zero_24_extra_unknown :
    validate_mnemonic SHA256_std (phrase_zero_24 ++ " zzz".toList) sample_wordlist 24 = 1 := by
  decide

set_option maxRecDepth 100000 in
theorem zzz_not_in_sample_wordlist : "zzz".toList ∉ sample_wordlist := by decide

set_option maxRecDepth 100000 in
theorem tokens_phrase_zero_24_length : ((tokens phrase_zero_24).length : Int) = 24 := by decide

set_option maxRecDepth 100000 in
theorem tokens_phrase_zero_24_known : ∀ w ∈ tokens phrase_zero_24, w ∈ sample_wordlist := by
  decide

/-! ## The specification's bit operations -/

theorem join_words_eq_intercalate (ws : List CString) :
    join_words ws = [' '].intercalate ws := by
  induction ws with
  | nil => rfl
  | cons w ws ih =>
    cases ws with
    | nil => simp [join_words, List.intercalate]
    | cons v vs =>
      simp only [join_words]
      rw [ih]
      simp [List.intercalate, List.intersperse]

/-- Splitting space-joined words at every single space gives the words back. -/
theorem splitOn_join_words (ws : List CString) (hws : ∀ w ∈ ws, is_word w) (hne : ws ≠ []) :
    (join_words ws).splitOn ' ' = ws := by
  rw [join_words_eq_intercalate]
  exact List.splitOn_intercalate _ ' ' (fun l hl => (hws l hl).2) hne

theorem testBit_bits_value (f : Nat → Bool) (off w k : Nat) :
    (bits_value f off w).testBit k = (decide (k < w) && f (off + (w - 1 - k))) := by
  induction w generalizing k with
  | zero => simp [bits_value]
  | succ w ih =>
    have step : bits_value f off (w + 1) = 2 * bits_value f off w + (f (off + w)).toNat := by
      unfold bits_value
      rw [List.range_succ, List.foldl_append]
      rfl
    rw [step]
    have hb : (f (off + w)).toNat ≤ 1 := Bool.toNat_le _
    cases k with
    | zero =>
      rw [Nat.testBit_zero]
      have e : (2 * bits_value f off w + (f (off + w)).toNat) % 2 = (f (off + w)).toNat := by
        omega
      rw [e]
      cases hf : f (off + w) <;> simp [hf]
    | succ k =>
      rw [Nat.testBit_succ]
      have e : (2 * bits_value f off w + (f (off + w)).toNat) / 2 = bits_value f off w := by
        omega
      rw [e, ih k]
      have e2 : w + 1 - 1 - (k + 1) = w - 1 - k := by omega
      rw [e2]
      by_cases hk : k < w
      · have : k + 1 < w + 1 := by omega
        simp [hk, this]
      · have : ¬ (k + 1 < w + 1) := by omega
        simp [hk, this]

theorem bits_value_lt (f : Nat → Bool) (off w : Nat) : bits_value f off w < 2 ^ w := by
  apply Nat.lt_pow_two_of_testBit
  intro k hk
  rw [testBit_bits_value]
  have : ¬ k < w := by omega
  simp [this]

/-- The extraction loop of the generator computes `unpack(bits, 11 i, 11)`. -/
theorem word_index_at_eq_spec_unpack (bits : List Nat) (i : Nat) :
    word_index_at bits i = spec_unpack bits (11 * i) 11 := by
  apply Nat.eq_of_testBit_eq
  intro k
  unfold spec_unpack
  rw [testBit_word_index_at, testBit_bits_value]
  by_cases hk : k ≤ 10
  · have h1 : k < 11 := by omega
    have h2 : i * 11 + (10 - k) = 11 * i + (11 - 1 - k) := by omega
    simp [hk, h1, h2]
  · have h1 : ¬ k < 11 := by omega
    simp [hk, h1]

theorem bit_at_congr (a b : List Nat) (p : Nat) (h : a.getD (p / 8) 0 = b.getD (p / 8) 0) :
    bit_at a p = bit_at b p := by
  unfold bit_at
  rw [h]

theorem word_index_at_congr (a b : List Nat) (i : Nat)
    (h : ∀ p, i * 11 ≤ p → p < i * 11 + 11 → bit_at a p = bit_at b p) :
    word_index_at a i = word_index_at b i := by
  apply Nat.eq_of_testBit_eq
  intro k
  rw [testBit_word_index_at, testBit_word_index_at]
  by_cases hk : k ≤ 10
  · rw [h _ (by omega) (by omega)]
  · simp [hk]

theorem find_from_indexOf (ws : List CString) (w : CString) (j : Nat) (h : w ∈ ws) :
    find_from ws w j = some (j + ws.indexOf w) := by
  induction ws generalizing j with
  | nil => simp at h
  | cons v vs ih =>
    unfold find_from
    by_cases hv : w = v
    · rw [if_pos hv, List.indexOf_cons]
      have hb : (v == w) = true := by rw [hv]; exact beq_self_eq_true v
      rw [hb]; rfl
    · rw [if_neg hv, List.indexOf_cons]
      have hb : (v == w) = false := by
        cases hvw : v == w with
        | false => rfl
        | true => exact absurd (eq_of_beq hvw).symm hv
      rw [hb]
      have hm : w ∈ vs := by
        rcases List.mem_cons.mp h with e | e
        · exact absurd e hv
        · exact e
      rw [ih (j + 1) hm]
      simp only [cond_false]
      congr 1
      omega

theorem find_word_indexOf (wordlist : List CString) (hlen : wordlist.length = WORDLIST_SIZE)
    (w : CString) (h : w ∈ wordlist) : find_word wordlist w = some (wordlist.indexOf w) := by
  unfold find_word
  rw [List.take_of_length_le (by omega), find_from_indexOf _ _ _ h, Nat.zero_add]

theorem get_indices_indexOf (wordlist : List CString) (hlen : wordlist.length = WORDLIST_SIZE)
    (ws : List CString) (h : ∀ w ∈ ws, w ∈ wordlist) :
    get_indices wordlist ws = some (ws.map (fun w => wordlist.indexOf w)) := by
  induction ws with
  | nil => rfl
  | cons w ws ih =>
    simp only [get_indices, List.map_cons]
    rw [find_word_indexOf wordlist hlen w (h w (by simp)),
      ih (fun x hx => h x (List.mem_cons_of_mem _ hx))]

/-- The verdict once the words are stored and found: the checksum comparison. -/
theorem validate_of_indices (SHA256 : List Nat → List Nat) (c : CString)
    (wordlist : List CString) (word_count : Int) (js : List Nat)
    (h1 : ((split_words 24 c).length : Int) = word_count)
    (h2 : get_indices wordlist (split_words 24 c) = some js) :
    validate_mnemonic SHA256 c wordlist word_count
      = if hash0 SHA256 ((pack_indices js).take (entropy_bits word_count / 8))
            >>> (8 - checksum_bits word_count)
          ≠ (pack_indices js).getD (byte_count word_count - 1) 0
            &&& ((1 <<< checksum_bits word_count) - 1)
        then 0 else 1 := by
  unfold validate_mnemonic
  simp only [h1, h2, ne_eq, not_true_eq_false, if_false]

theorem getD_spec_bitstream (js : List Nat) (n k : Nat) (hk : k < n) :
    (spec_bitstream js n).getD k 0 = bits_value (stream_bit js) (8 * k) 8 := by
  unfold spec_bitstream
  simp [List.getD_eq_getElem?_getD, List.getElem?_map, List.getElem?_range hk]

theorem length_spec_bitstream (js : List Nat) (n : Nat) : (spec_bitstream js n).length = n := by
  simp [spec_bitstream]

theorem all_bytes_spec_bitstream (js : List Nat) (n : Nat) : all_bytes (spec_bitstream js n) := by
  intro b hb
  unfold spec_bitstream at hb
  obtain ⟨k, _, rfl⟩ := List.mem_map.mp hb
  exact bits_value_lt _ _ 8

theorem bit_at_spec_bitstream (js : List Nat) (n p : Nat) (hp : p < 8 * n) :
    bit_at (spec_bitstream js n) p = stream_bit js p := by
  unfold bit_at
  rw [getD_spec_bitstream js n (p / 8) (by omega), testBit_bits_value]
  have h1 : 7 - p % 8 < 8 := by omega
  have h2 : 8 * (p / 8) + (8 - 1 - (7 - p % 8)) = p := by omega
  simp [h1, h2]

theorem bit_at_pack_eq_stream_bit (js : List Nat) (p : Nat) (h : js.length ≤ 24) :
    bit_at (pack_indices js) p = stream_bit js p := by
  rw [bit_at_pack_indices js p h]
  unfold stream_bit
  have : p < js.length * 11 ↔ p / 11 < js.length := by omega
  simp [this]

theorem bit_at_take (l : List Nat) (n p : Nat) (hp : p < 8 * n) :
    bit_at (l.take n) p = bit_at l p := by
  apply bit_at_congr
  simp only [List.getD_eq_getElem?_getD]
  rw [List.getElem?_take_of_lt (by omega)]

theorem all_bytes_take (l : List Nat) (n : Nat) (h : all_bytes l) : all_bytes (l.take n) :=
  fun b hb => h b (List.mem_of_mem_take hb)

/-- The buffer rebuilt by the validator, cut to `n` bytes, is the buffer of the
specification. -/
theorem take_pack_indices (js : List Nat) (n : Nat) (h : js.length ≤ 24) (hn : n ≤ 33) :
    (pack_indices js).take n = spec_bitstream js n := by
  apply eq_of_bit_at_eq _ _ (all_bytes_take _ _ (all_bytes_pack_indices js))
    (all_bytes_spec_bitstream js n)
  · rw [List.length_take, length_pack_indices, length_spec_bitstream]; omega
  · intro p hp
    rw [List.length_take, length_pack_indices] at hp
    have hp' : p < 8 * n := by omega
    rw [bit_at_take _ _ _ hp', bit_at_pack_eq_stream_bit _ _ h, bit_at_spec_bitstream _ _ _ hp']

theorem write_words_index_ok (bits : List Nat) (len : Nat) (wordlist : List CString)
    (word_count : Int) (hlen : wordlist.length = WORDLIST_SIZE) (todo i : Nat) (out : CString) :
    write_words bits len wordlist word_count todo i out
      ≠ Except.error GenError.invalid_word_index := by
  induction todo generalizing i out with
  | zero => simp [write_words]
  | succ todo ih =>
    unfold write_words
    have hlt := word_index_at_lt bits i
    have h1 : ¬ (word_index_at bits i ≥ WORDLIST_SIZE) := by
      unfold WORDLIST_SIZE; omega
    have hin : word_index_at bits i < wordlist.length := by
      rw [hlen]; unfold WORDLIST_SIZE; omega
    have hget : wordlist.get? (word_index_at bits i)
        = some (word_of wordlist (word_index_at bits i)) := by
      unfold word_of
      simp [List.getD_eq_getElem?_getD, List.getElem?_eq_getElem hin]
    simp only [h1, if_false, hget]
    split_ifs <;> first | exact ih _ _ | simp

theorem spec_unpack_congr (a b : List Nat) (off w : Nat)
    (h : ∀ p, off ≤ p → p < off + w → bit_at a p = bit_at b p) :
    spec_unpack a off w = spec_unpack b off w := by
  apply Nat.eq_of_testBit_eq
  intro k
  unfold spec_unpack
  rw [testBit_bits_value, testBit_bits_value]
  by_cases hk : k < w
  · rw [h _ (by omega) (by omega)]
  · simp [hk]

/-- The generator's 33-byte buffer reads like the entropy followed by the checksum byte. -/
theorem getD_form_bits (SHA256 : List Nat → List Nat) (E : List Nat) (word_count : Int)
    (hwc : word_count = 12 ∨ word_count = 24) (hE : E.length = entropy_bits word_count / 8)
    (k : Nat) :
    (form_bits SHA256 E word_count).getD k 0
      = (E ++ [hash0 SHA256 E >>> (8 - checksum_bits word_count)]).getD k 0 := by
  rcases hwc with h | h
  · subst h
    have hE' : E.length = 16 := hE
    rw [form_bits_12 _ _ hE', show 8 - checksum_bits 12 = 4 from rfl]
    simp only [List.getD_eq_getElem?_getD]
    by_cases hk : k < 16
    · rw [List.getElem?_append_left (by omega), List.getElem?_append_left (by omega)]
    · rw [List.getElem?_append_right (by omega), List.getElem?_append_right (by omega)]
      by_cases hk2 : k - E.length = 0
      · rw [hk2]; rfl
      · obtain ⟨m, hm⟩ : ∃ m, k - E.length = m + 1 := ⟨k - E.length - 1, by omega⟩
        rw [hm]
        simp only [List.getElem?_cons_succ, List.getElem?_nil, Option.getD_none]
        rw [List.getElem?_replicate]
        split <;> rfl
  · subst h
    have hE' : E.length = 32 := hE
    rw [form_bits_24 _ _ hE', show 8 - checksum_bits 24 = 0 from rfl, Nat.shiftRight_zero]

/-! ## Lemmas for the behaviour claims -/

/-- The verdict of `validate_mnemonic` in terms of its reconstructed buffer. -/
theorem validate_eq_reconstructed (SHA256 : List Nat → List Nat) (c : CString)
    (wordlist : List CString) (word_count : Int) :
    validate_mnemonic SHA256 c wordlist word_count
      = match reconstructed_bits c wordlist word_count with
        | none => 0
        | some bits =>
          if hash0 SHA256 (bits.take (entropy_bits word_count / 8))
                >>> (8 - checksum_bits word_count)
              ≠ bits.getD (byte_count word_count - 1) 0
                &&& ((1 <<< checksum_bits word_count) - 1)
          then 0 else 1 := by
  unfold validate_mnemonic reconstructed_bits
  simp only
  split
  · rfl
  · cases get_indices wordlist (split_words 24 c) <;> rfl

/-- Whatever the buffer length, a run of the generator's loop that ends normally leaves the
joined words of the indices it computed. -/
theorem write_words_eq_of_ok (bits : List Nat) (len : Nat) (wordlist : List CString)
    (word_count : Int) (todo i : Nat) (out m : CString)
    (hwc : ((i + todo : Nat) : Int) = word_count)
    (h : write_words bits len wordlist word_count todo i out = Except.ok m) :
    m = out ++ join_words
          ((List.range' i todo).map (fun t => word_of wordlist (word_index_at bits t))) := by
  induction todo generalizing i out with
  | zero =>
    simp only [write_words, Except.ok.injEq] at h
    simp [join_words, h]
  | succ todo ih =>
    unfold write_words at h
    simp only at h
    by_cases h1 : word_index_at bits i ≥ WORDLIST_SIZE
    · rw [if_pos h1] at h; cases h
    rw [if_neg h1] at h
    cases hget : wordlist.get? (word_index_at bits i) with
    | none => rw [hget] at h; cases h
    | some word =>
      rw [hget] at h
      simp only at h
      by_cases h2 : out.length + word.length + 2 > len
      · rw [if_pos h2] at h; cases h
      rw [if_neg h2] at h
      by_cases h3 : (word ++ if (i : Int) < word_count - 1 then [' '] else []).length
          ≥ len - out.length
      · rw [if_pos h3] at h; cases h
      rw [if_neg h3] at h
      have hw : word = word_of wordlist (word_index_at bits i) := by
        unfold word_of
        rw [List.get?_eq_getElem?] at hget
        simp [List.getD_eq_getElem?_getD, hget]
      rw [ih (i + 1) _ (by rw [← hwc]; push_cast; ring) h, List.append_assoc]
      congr 1
      rw [List.range'_succ, List.map_cons, ← hw]
      cases todo with
      | zero =>
        have : ¬ ((i : Int) < word_count - 1) := by rw [← hwc]; push_cast; omega
        simp [this, join_words]
      | succ t =>
        have : (i : Int) < word_count - 1 := by rw [← hwc]; push_cast; omega
        simp [this, join_words, List.range'_succ]

/-- A mnemonic returned by `generate_mnemonic` for word count 12 or 24 is the space-joined
sequence of the dictionary words at the generated indices. -/
theorem generate_mnemonic_ok_eq (SHA256 : List Nat → List Nat) (E : List Nat) (len : Nat)
    (wordlist : List CString) (word_count : Int) (m : CString)
    (hwc : word_count = 12 ∨ word_count = 24)
    (h : generate_mnemonic SHA256 (some E) len wordlist word_count = Except.ok m) :
    m = join_words ((generate_indices SHA256 E word_count).map (word_of wordlist)) := by
  unfold generate_mnemonic at h
  simp only at h
  have hc : ((0 + word_count.toNat : Nat) : Int) = word_count := by
    rcases hwc with h | h <;> rw [h] <;> rfl
  rw [write_words_eq_of_ok _ _ _ _ _ _ _ _ hc h]
  unfold generate_indices
  simp [List.range_eq_range', List.map_map, Function.comp_def]

theorem nonempty_pieces_join_words (ws : List CString) (hsp : ∀ w ∈ ws, ' ' ∉ w) :
    nonempty_pieces (join_words ws) = ws.filter (fun t => decide (t ≠ [])) := by
  cases ws with
  | nil => decide
  | cons w ws =>
    unfold nonempty_pieces
    rw [join_words_eq_intercalate,
      List.splitOn_intercalate _ ' ' hsp (List.cons_ne_nil w ws)]

/-- With a duplicate-free dictionary of non-empty space-free words the validator rebuilds,
from the joined words of given indices, the buffer packed from these indices. -/
theorem reconstructed_join_words (wordlist : List CString)
    (hlen : wordlist.length = WORDLIST_SIZE) (hnd : wordlist.Nodup) (js : List Nat)
    (hjs : ∀ x ∈ js, x < WORDLIST_SIZE) (hn : js.length ≤ 24) (word_count : Int)
    (hwc : (js.length : Int) = word_count)
    (hne : ∀ w ∈ js.map (word_of wordlist), w ≠ [])
    (hsp : ∀ w ∈ js.map (word_of wordlist), ' ' ∉ w) :
    reconstructed_bits (join_words (js.map (word_of wordlist))) wordlist word_count
      = some (pack_indices js) := by
  unfold reconstructed_bits
  simp only
  rw [split_words_join _ (fun w h => ⟨hne w h, hsp w h⟩),
    List.take_of_length_le (by simpa using hn), get_indices_map wordlist hlen hnd js hjs]
  simp only [List.length_map, hwc, ne_eq, not_true_eq_false, if_false]

/-- If some word is empty the candidate has too few tokens and no buffer is rebuilt. -/
theorem reconstructed_join_words_empty (wordlist : List CString) (ws : List CString)
    (word_count : Int) (hwc : (ws.length : Int) = word_count)
    (hsp : ∀ w ∈ ws, ' ' ∉ w) (hempty : ∃ w ∈ ws, w = []) :
    reconstructed_bits (join_words ws) wordlist word_count = none := by
  unfold reconstructed_bits
  simp only
  have hlt : (split_words 24 (join_words ws)).length < ws.length := by
    rw [split_words_eq_take_pieces, nonempty_pieces_join_words ws hsp, List.length_take]
    have : (ws.filter (fun t => decide (t ≠ []))).length < ws.length := by
      rw [List.length_filter_lt_length_iff_exists]
      obtain ⟨w, hw, he⟩ := hempty
      exact ⟨w, hw, by simp [he]⟩
    omega
  have hne : ((split_words 24 (join_words ws)).length : Int) ≠ word_count := by
    rw [← hwc]; omega
  rw [if_pos hne]

/-- For space-free words, whether or not some are empty: a buffer rebuilt from the joined
words of given indices is the buffer packed from these indices. -/
theorem reconstructed_join_words_of_some (wordlist : List CString)
    (hlen : wordlist.length = WORDLIST_SIZE) (hnd : wordlist.Nodup) (js : List Nat)
    (hjs : ∀ x ∈ js, x < WORDLIST_SIZE) (hn : js.length ≤ 24) (word_count : Int)
    (hwc : (js.length : Int) = word_count)
    (hsp : ∀ w ∈ js.map (word_of wordlist), ' ' ∉ w) (bits : List Nat)
    (h : reconstructed_bits (join_words (js.map (word_of wordlist))) wordlist word_count
      = some bits) :
    bits = pack_indices js := by
  by_cases hne : ∀ w ∈ js.map (word_of wordlist), w ≠ []
  · rw [reconstructed_join_words wordlist hlen hnd js hjs hn word_count hwc hne hsp] at h
    exact (Option.some.inj h).symm
  · have hex : ∃ w ∈ js.map (word_of wordlist), w = [] := by
      by_contra hcon
      exact hne (fun w hw he => hcon ⟨w, hw, he⟩)
    rw [reconstructed_join_words_empty wordlist _ word_count (by simpa using hwc) hsp hex] at h
    cases h

theorem generate_indices_words_space_free (SHA256 : List Nat → List Nat) (E : List Nat)
    (word_count : Int) (wordlist : List CString) (hlen : wordlist.length = WORDLIST_SIZE)
    (hsp : ∀ w ∈ wordlist, ' ' ∉ w) :
    ∀ w ∈ (generate_indices SHA256 E word_count).map (word_of wordlist), ' ' ∉ w := by
  intro w hmem
  obtain ⟨k, hk, rfl⟩ := List.mem_map.mp hmem
  exact hsp _ (word_of_mem _ _ (by rw [hlen]; exact generate_indices_lt _ _ _ k hk))

theorem generate_indices_words_nonempty (SHA256 : List Nat → List Nat) (E : List Nat)
    (word_count : Int) (wordlist : List CString) (hlen : wordlist.length = WORDLIST_SIZE)
    (hne : ∀ w ∈ wordlist, w ≠ []) :
    ∀ w ∈ (generate_indices SHA256 E word_count).map (word_of wordlist), w ≠ [] := by
  intro w hmem
  obtain ⟨k, hk, rfl⟩ := List.mem_map.mp hmem
  exact hne _ (word_of_mem _ _ (by rw [hlen]; exact generate_indices_lt _ _ _ k hk))

/-- The first `entropy_bits / 8` bytes of the buffer packed from the generated indices are
the entropy, for 12 as for 24 words. -/
theorem take_pack_generate (SHA256 : List Nat → List Nat) (E : List Nat) (word_count : Int)
    (hwc : word_count = 12 ∨ word_count = 24) (hE : E.length = entropy_bits word_count / 8)
    (hb : all_bytes E) :
    (pack_indices (generate_indices SHA256 E word_count)).take (entropy_bits word_count / 8)
      = E := by
  rcases hwc with h | h
  · subst h
    have hE' : E.length = 16 := hE
    rw [pack_generate_12 SHA256 E hE' hb, ← hE, List.take_left]
  · subst h
    have hE' : E.length = 32 := hE
    rw [pack_generate_24 SHA256 E hE' hb, form_bits_24 SHA256 E hE', ← hE, List.take_left]

/-- With 12 words every generated index can be read from the entropy followed by zero bytes:
the byte holding the checksum does not reach the words. -/
theorem generate_indices_12_eq (SHA256 : List Nat → List Nat) (E : List Nat)
    (hE : E.length = 16) (hb : all_bytes E) :
    generate_indices SHA256 E 12
      = (List.range 12).map (word_index_at (E ++ List.replicate 17 0)) := by
  have hl : (generate_indices SHA256 E 12).length = 12 := by
    rw [length_generate_indices]; rfl
  apply List.ext_getElem (by simp [hl])
  intro i h1 h2
  rw [List.getElem_map, List.getElem_range, ← pack_generate_12 SHA256 E hE hb,
    word_index_at_pack_indices _ (by omega) (generate_indices_lt _ _ _) i h1]
  simp [List.getD_eq_getElem?_getD, List.getElem?_eq_getElem h1]

theorem word_index_at_12_last (E : List Nat) (hE : E.length = 16) :
    word_index_at (E ++ List.replicate 17 0) 11 = 16 * (E.getD 15 0 % 128) := by
  apply Nat.eq_of_testBit_eq
  intro k
  have e : 16 * (E.getD 15 0 % 128) = (E.getD 15 0 % 2 ^ 7) <<< 4 := by
    rw [Nat.shiftLeft_eq]; omega
  rw [testBit_word_index_at, e, Nat.testBit_shiftLeft, Nat.testBit_mod_two_pow]
  unfold bit_at
  simp only [List.getD_eq_getElem?_getD]
  by_cases h1 : k ≤ 10
  · by_cases h2 : k ≥ 4
    · have e1 : (11 * 11 + (10 - k)) / 8 = 15 := by omega
      have e2 : 7 - (11 * 11 + (10 - k)) % 8 = k - 4 := by omega
      have e3 : k - 4 < 7 := by omega
      rw [e1, e2, List.getElem?_append_left (by omega)]
      simp [h1, h2, e3]
    · have e1 : (11 * 11 + (10 - k)) / 8 = 16 := by omega
      rw [e1, List.getElem?_append_right (by omega), hE]
      simp [h2]
  · have h2 : k ≥ 4 := by omega
    have e3 : ¬ k - 4 < 7 := by omega
    simp [h1, h2, e3]

/-- The generator's loop sees the buffer only through the word indices it reads. -/
theorem write_words_congr (a b : List Nat) (len : Nat) (wordlist : List CString)
    (word_count : Int) (todo i : Nat) (out : CString)
    (h : ∀ t, i ≤ t → t < i + todo → word_index_at a t = word_index_at b t) :
    write_words a len wordlist word_count todo i out
      = write_words b len wordlist word_count todo i out := by
  induction todo generalizing i out with
  | zero => rfl
  | succ todo ih =>
    have key : ∀ out2, write_words a len wordlist word_count todo (i + 1) out2
        = write_words b len wordlist word_count todo (i + 1) out2 :=
      fun out2 => ih (i + 1) out2 (fun t h1 h2 => h t (by omega) (by omega))
    unfold write_words
    rw [h i (le_refl i) (by omega)]
    simp only [key]

/-- Bytes past the last written window are still zero after the reconstruction. -/
theorem getD_pack_indices_zero (indices : List Nat) (h : indices.length ≤ 24) (k : Nat)
    (hk : (11 * indices.length + 7) / 8 ≤ k) : (pack_indices indices).getD k 0 = 0 := by
  apply Nat.eq_of_testBit_eq
  intro t
  rw [Nat.zero_testBit]
  by_cases ht : t < 8
  · rw [testBit_getD_eq_bit_at _ _ _ ht, bit_at_pack_indices _ _ h]
    have : ¬ (8 * k + (7 - t) < indices.length * 11) := by omega
    simp [this]
  · have p8 : (2 : Nat) ^ 8 ≤ 2 ^ t := Nat.pow_le_pow_right (by omega) (by omega)
    exact Nat.testBit_lt_two_pow
      (lt_of_lt_of_le (getD_lt_256 _ (all_bytes_pack_indices indices) k) p8)

theorem strtok_token_is_word (s tok rest : CString) (h : strtok s = some (tok, rest)) :
    is_word tok := by
  unfold strtok at h
  split at h
  · cases h
  · rename_i c s1 hd
    simp only [Option.some.injEq, Prod.mk.injEq] at h
    have hc : (c == ' ') = false := by
      have := List.head_dropWhile_not (fun c => c == ' ') s (by rw [hd]; simp)
      simpa [hd] using this
    have hc2 : c ≠ ' ' := by simpa using hc
    rw [← h.1]
    constructor
    · simp [List.takeWhile_cons, hc2]
    · intro hmem
      have := List.mem_takeWhile_imp hmem
      simp at this

theorem split_words_is_word (room : Nat) (s : CString) :
    ∀ w ∈ split_words room s, is_word w := by
  induction room generalizing s with
  | zero => simp [split_words]
  | succ room ih =>
    unfold split_words
    cases h : strtok s with
    | none => simp
    | some tr =>
      obtain ⟨tok, rest⟩ := tr
      intro w hw
      rcases List.mem_cons.mp hw with e | e
      · rw [e]; exact strtok_token_is_word s tok rest h
      · exact ih rest w e

theorem split_words_length_le_room (room : Nat) (s : CString) :
    (split_words room s).length ≤ room := by
  rw [split_words_eq_take_pieces, List.length_take]
  omega

/-- Joining the stored words by single spaces and splitting again stores the same words. -/
theorem split_words_join_split (s : CString) :
    split_words 24 (join_words (split_words 24 s)) = split_words 24 s := by
  rw [split_words_join _ (split_words_is_word 24 s),
    List.take_of_length_le (split_words_length_le_room 24 s)]

theorem length_bits_of_byte (b : Nat) : (bits_of_byte b).length = 8 := by
  simp [bits_of_byte]

theorem length_bit_string (B : List Nat) : (bit_string B).length = 8 * B.length := by
  induction B with
  | nil => rfl
  | cons b B ih =>
    have : bit_string (b :: B) = bits_of_byte b ++ bit_string B := by
      simp [bit_string]
    rw [this, List.length_append, length_bits_of_byte, ih, List.length_cons]
    ring

theorem getD_bit_string (B : List Nat) (p : Nat) :
    (bit_string B).getD p false = bit_at B p := by
  induction B generalizing p with
  | nil => simp [bit_string, bit_at]
  | cons b B ih =>
    have hs : bit_string (b :: B) = bits_of_byte b ++ bit_string B := by
      simp [bit_string]
    rw [hs]
    simp only [List.getD_eq_getElem?_getD]
    by_cases hp : p < 8
    · rw [List.getElem?_append_left (by rw [length_bits_of_byte]; exact hp)]
      unfold bits_of_byte bit_at
      have e1 : p / 8 = 0 := by omega
      have e2 : p % 8 = p := by omega
      simp [List.getElem?_map, List.getElem?_range hp, e1, e2]
    · rw [List.getElem?_append_right (by rw [length_bits_of_byte]; omega),
        length_bits_of_byte, ← List.getD_eq_getElem?_getD, ih (p - 8)]
      unfold bit_at
      have e1 : p / 8 = (p - 8) / 8 + 1 := by omega
      have e2 : p % 8 = (p - 8) % 8 := by omega
      rw [e1, e2]
      simp

theorem group_value_append (g : List Bool) (b : Bool) :
    group_value (g ++ [b]) = 2 * group_value g + b.toNat := by
  simp [group_value, List.foldl_append]

theorem testBit_group_value (g : List Bool) (k : Nat) :
    (group_value g).testBit k = (decide (k < g.length) && g.getD (g.length - 1 - k) false) := by
  induction g using List.reverseRecOn generalizing k with
  | nil => simp [group_value]
  | append_singleton g b ih =>
    rw [group_value_append]
    have hb : b.toNat ≤ 1 := Bool.toNat_le _
    cases k with
    | zero =>
      rw [Nat.testBit_zero]
      have e : (2 * group_value g + b.toNat) % 2 = b.toNat := by omega
      rw [e]
      cases b <;> simp
    | succ k =>
      rw [Nat.testBit_succ]
      have e : (2 * group_value g + b.toNat) / 2 = group_value g := by omega
      rw [e, ih k]
      simp only [List.length_append, List.length_singleton, List.getD_eq_getElem?_getD]
      by_cases hk : k < g.length
      · have h1 : k + 1 < g.length + 1 := by omega
        have h2 : g.length + 1 - 1 - (k + 1) = g.length - 1 - k := by omega
        rw [h2, List.getElem?_append_left (by omega)]
        simp [hk, h1]
      · have h1 : ¬ (k + 1 < g.length + 1) := by omega
        simp [hk, h1]

theorem getD_groups11 (n : Nat) (s : List Bool) (i : Nat) (hi : i < n) :
    (groups11 n s).getD i 0 = group_value ((s.drop (11 * i)).take 11) := by
  induction n generalizing s i with
  | zero => omega
  | succ n ih =>
    unfold groups11
    cases i with
    | zero => simp
    | succ i =>
      have : ((group_value (s.take 11)) :: groups11 n (s.drop 11)).getD (i + 1) 0
          = (groups11 n (s.drop 11)).getD i 0 := by simp
      rw [this, ih (s.drop 11) i (by omega), List.drop_drop]
      congr 3
      ring

theorem length_groups11 (n : Nat) (s : List Bool) : (groups11 n s).length = n := by
  induction n generalizing s with
  | zero => rfl
  | succ n ih => simp [groups11, ih]

/-- The extraction loop reads the same value as the i-th 11-bit group of the bit string of
the buffer, as long as the group lies inside the buffer. -/
theorem word_index_at_eq_group (B : List Nat) (n i : Nat) (hi : i < n)
    (hlen : 11 * n ≤ 8 * B.length) :
    word_index_at B i = (groups11 n (bit_string B)).getD i 0 := by
  rw [getD_groups11 n _ i hi]
  apply Nat.eq_of_testBit_eq
  intro k
  rw [testBit_word_index_at, testBit_group_value]
  have hl : ((bit_string B).drop (11 * i)).length ≥ 11 := by
    rw [List.length_drop, length_bit_string]
    have : 11 * (i + 1) ≤ 11 * n := Nat.mul_le_mul_left 11 hi
    omega
  have hl2 : (((bit_string B).drop (11 * i)).take 11).length = 11 := by
    rw [List.length_take]; omega
  rw [hl2]
  by_cases hk : k ≤ 10
  · have h1 : k < 11 := by omega
    simp only [List.getD_eq_getElem?_getD]
    rw [List.getElem?_take_of_lt (by omega), List.getElem?_drop,
      ← List.getD_eq_getElem?_getD, getD_bit_string]
    have e : 11 * i + (11 - 1 - k) = i * 11 + (10 - k) := by omega
    simp [hk, h1, e]
  · have h1 : ¬ k < 11 := by omega
    simp [hk, h1]

/-! ## The loader -/

theorem take_line_rest_le (room : Nat) (s : List Char) :
    (take_line room s).2.length ≤ s.length := by
  induction room generalizing s with
  | zero => simp [take_line]
  | succ room ih =>
    cases s with
    | nil => simp [take_line]
    | cons c cs =>
      unfold take_line
      split
      · simp
      · have := ih cs
        simp only [List.length_cons]
        omega

theorem take_line_rest_lt (room : Nat) (c : Char) (cs : List Char) :
    (take_line (room + 1) (c :: cs)).2.length ≤ cs.length := by
  unfold take_line
  split
  · simp
  · exact take_line_rest_le room cs

/-- More calls than the file has characters deliver nothing more. -/
theorem fgets_calls_stable (fuel fuel2 : Nat) (s : List Char) (h : s.length ≤ fuel)
    (h2 : s.length ≤ fuel2) : fgets_calls fuel s = fgets_calls fuel2 s := by
  induction fuel generalizing fuel2 s with
  | zero =>
    have hs : s = [] := List.length_eq_zero.mp (by omega)
    subst hs
    cases fuel2 <;> simp [fgets_calls, fgets]
  | succ fuel ih =>
    cases s with
    | nil => cases fuel2 <;> simp [fgets_calls, fgets]
    | cons c cs =>
      cases fuel2 with
      | zero => simp at h2
      | succ fuel2 =>
        have hr : (take_line (50 - 1) (c :: cs)).2.length ≤ cs.length :=
          take_line_rest_lt 48 c cs
        simp only [List.length_cons] at h h2
        simp only [fgets_calls, fgets, MAX_LINE_LEN]
        congr 1
        exact ih fuel2 _ (by omega) (by omega)

theorem fgets_calls_enough (fuel : Nat) (file : List Char) (h : file.length ≤ fuel) :
    fgets_calls fuel file = fgets_lines file :=
  fgets_calls_stable fuel file.length file h (le_refl _)

theorem take_line_body (room : Nat) (b rest : List Char) (hb : newline ∉ b)
    (hroom : b.length < room) :
    take_line room (b ++ newline :: rest) = (b ++ [newline], rest) := by
  induction b generalizing room with
  | nil =>
    cases room with
    | zero => simp at hroom
    | succ room => simp [take_line]
  | cons c b ih =>
    cases room with
    | zero => simp at hroom
    | succ room =>
      have hc : c ≠ newline := fun e => hb (by simp [e])
      have hb2 : newline ∉ b := fun e => hb (List.mem_cons_of_mem _ e)
      simp only [List.length_cons] at hroom
      show take_line (room + 1) (c :: (b ++ newline :: rest)) = _
      rw [take_line, if_neg hc, ih room hb2 (by omega)]
      rfl

theorem c_string_eq (s : List Char) (h : nul ∉ s) : c_string s = s := by
  unfold c_string
  rw [List.takeWhile_eq_self_iff]
  intro c hc
  have : c ≠ nul := fun e => h (e ▸ hc)
  simpa using this

/-- A file of newline-terminated lines of at most 48 characters, without NUL, is read line by
line. -/
theorem fgets_calls_file_of_lines (bodies : List CString)
    (hb : ∀ b ∈ bodies, b.length ≤ 48 ∧ newline ∉ b ∧ nul ∉ b) (fuel : Nat)
    (hf : (file_of_lines bodies).length ≤ fuel) :
    fgets_calls fuel (file_of_lines bodies) = bodies.map (fun b => b ++ [newline]) := by
  induction bodies generalizing fuel with
  | nil => cases fuel <;> simp [file_of_lines, fgets_calls, fgets]
  | cons b bs ih =>
    have e : file_of_lines (b :: bs) = b ++ newline :: file_of_lines bs := by
      simp [file_of_lines]
    rw [e] at hf ⊢
    obtain ⟨h1, h2, h3⟩ := hb b (by simp)
    have hcs2 : c_string (b ++ [newline]) = b ++ [newline] := by
      apply c_string_eq
      intro hm
      rcases List.mem_append.mp hm with hm | hm
      · exact h3 hm
      · simp only [List.mem_singleton] at hm
        revert hm
        decide
    cases fuel with
    | zero => simp at hf
    | succ fuel =>
      have hne : ∃ c cs, b ++ newline :: file_of_lines bs = c :: cs := by
        cases b with
        | nil => exact ⟨_, _, rfl⟩
        | cons c b2 => exact ⟨_, _, rfl⟩
      obtain ⟨c, cs, hcs⟩ := hne
      have hg : fgets MAX_LINE_LEN (b ++ newline :: file_of_lines bs)
          = some (b ++ [newline], file_of_lines bs) := by
        rw [hcs]
        simp only [fgets, MAX_LINE_LEN]
        rw [← hcs, take_line_body 49 b _ h2 (by omega)]
      simp only [fgets_calls, hg, List.map_cons, hcs2]
      congr 1
      apply ih (fun x hx => hb x (List.mem_cons_of_mem _ hx))
      simp only [List.length_append, List.length_cons] at hf
      omega

theorem fgets_lines_file_of_lines (bodies : List CString)
    (hb : ∀ b ∈ bodies, b.length ≤ 48 ∧ newline ∉ b ∧ nul ∉ b) :
    fgets_lines (file_of_lines bodies) = bodies.map (fun b => b ++ [newline]) :=
  fgets_calls_file_of_lines bodies hb _ (le_refl _)

theorem digit_char_ne_nul : ∀ d < 10, digit_char d ≠ nul := by
  decide

theorem digit_char_facts : ∀ d < 10,
    (digit_char d).isDigit = true ∧ (digit_char d).toNat - 48 = d
      ∧ is_space (digit_char d) = false ∧ digit_char d ≠ '-' ∧ digit_char d ≠ '+'
      ∧ digit_char d ≠ newline := by
  decide

theorem scan_digits_four (a b c d : Nat) (ha : a < 10) (hb : b < 10) (hc : c < 10)
    (hd : d < 10) (rest : List Char) :
    scan_digits (digit_char a :: digit_char b :: digit_char c :: digit_char d :: ' ' :: rest) 0
      = (((a * 10 + b) * 10 + c) * 10 + d, ' ' :: rest) := by
  obtain ⟨a1, a2, _⟩ := digit_char_facts a ha
  obtain ⟨b1, b2, _⟩ := digit_char_facts b hb
  obtain ⟨c1, c2, _⟩ := digit_char_facts c hc
  obtain ⟨d1, d2, _⟩ := digit_char_facts d hd
  have hsp : (' ' : Char).isDigit = false := by decide
  simp only [scan_digits, a1, a2, b1, b2, c1, c2, d1, d2, hsp, if_true]
  simp only [Bool.false_eq_true, if_false, Prod.mk.injEq, and_true]
  ring

theorem int_of_long_small (k : Nat) (hk : k < 10000) :
    int_of_long (long_of_numeral (k : Int)) = (k : Int) := by
  unfold int_of_long long_of_numeral
  rw [if_neg (by omega), if_neg (by omega)]
  omega

theorem scan_int_source (k : Nat) (hk : k < 10000) (rest : List Char) :
    scan_int ([digit_char (k / 1000 % 10), digit_char (k / 100 % 10), digit_char (k / 10 % 10),
        digit_char (k % 10)] ++ ' ' :: rest)
      = some ((k : Int), ' ' :: rest) := by
  obtain ⟨a1, _, a3, a4, a5, _⟩ := digit_char_facts (k / 1000 % 10) (Nat.mod_lt _ (by decide))
  unfold scan_int
  simp only [List.cons_append, List.nil_append, List.dropWhile_cons, a3, Bool.false_eq_true,
    if_false, a4, a5, a1, if_true]
  rw [scan_digits_four _ _ _ _ (Nat.mod_lt _ (by decide)) (Nat.mod_lt _ (by decide))
    (Nat.mod_lt _ (by decide)) (Nat.mod_lt _ (by decide))]
  simp only [Option.some.injEq, Prod.mk.injEq, and_true]
  have e : ((k / 1000 % 10 * 10 + k / 100 % 10) * 10 + k / 10 % 10) * 10 + k % 10 = k := by
    omega
  rw [e]
  exact int_of_long_small k hk

theorem takeWhile_not_space (w rest : List Char) (c0 : Char) (hw : ∀ c ∈ w, is_space c = false)
    (h0 : is_space c0 = true) :
    (w ++ c0 :: rest).takeWhile (fun c => !is_space c) = w := by
  induction w with
  | nil => simp [List.takeWhile_cons, h0]
  | cons a w ih =>
    have ha := hw a (by simp)
    simp [List.takeWhile_cons, ha, ih (fun c hc => hw c (List.mem_cons_of_mem _ hc))]

theorem scan_word_source (width : Option Nat) (w rest : List Char)
    (hne : w ≠ []) (hw : ∀ c ∈ w, is_space c = false)
    (hwidth : ∀ n, width = some n → w.length ≤ n) (c0 : Char) (h0 : is_space c0 = true) :
    scan_word width (' ' :: (w ++ c0 :: rest)) = some (w, c0 :: rest) := by
  unfold scan_word
  have hs : is_space ' ' = true := by decide
  cases w with
  | nil => exact absurd rfl hne
  | cons a w2 =>
    have ha := hw a (by simp)
    have hd : (' ' :: ((a :: w2) ++ c0 :: rest)).dropWhile is_space
        = (a :: w2) ++ c0 :: rest := by
      simp [List.dropWhile_cons, hs, ha]
    simp only [hd]
    rw [takeWhile_not_space (a :: w2) rest c0 hw h0]
    cases width with
    | none => simp
    | some n =>
      simp only
      rw [List.take_of_length_le (hwidth n rfl)]
      simp

/-- A line of the sample sources parses into its index, bit field and word. -/
theorem sscanf_source_line (k : Nat) (hk : k < 10000) (word : CString) (hne : word ≠ [])
    (hw : ∀ c ∈ word, is_space c = false) (hfit : word.length < MAX_WORD_LEN) :
    sscanf_line (source_line k word)
      = ScanResult.fields (k : Int) "00000000000".toList word := by
  unfold sscanf_line source_line source_body
  have e : [digit_char (k / 1000 % 10), digit_char (k / 100 % 10), digit_char (k / 10 % 10),
      digit_char (k % 10)] ++ " 00000000000 ".toList ++ word ++ [newline]
      = [digit_char (k / 1000 % 10), digit_char (k / 100 % 10), digit_char (k / 10 % 10),
          digit_char (k % 10)] ++ ' ' :: ("00000000000".toList ++ ' ' :: (word ++
            newline :: [])) := by
    simp
  rw [e, scan_int_source k hk]
  simp only
  rw [scan_word_source (some 11) "00000000000".toList _ (by decide) (by decide)
    (by intro n hn; cases hn; decide) ' ' (by decide)]
  simp only
  rw [scan_word_source none word [] hne hw (by intro n hn; cases hn) newline (by decide)]
  simp only
  rw [if_neg (by omega)]

theorem sscanf_fields_fits (line : CString) (idx : Int) (binary word : CString)
    (h : sscanf_line line = ScanResult.fields idx binary word) :
    word.length < MAX_WORD_LEN := by
  unfold sscanf_line at h
  split at h
  · cases h
  · split at h
    · cases h
    · split at h
      · cases h
      · split at h
        · cases h
        · simp only [ScanResult.fields.injEq] at h
          rw [← h.2.2]
          omega

theorem load_from_cons_ok (line : CString) (rest : List CString) (index n : Nat)
    (ws : List CString) (hi : index < WORDLIST_SIZE) :
    load_from (line :: rest) index = Except.ok (n, ws)
      ↔ ∃ binary word ws2, sscanf_line line = ScanResult.fields (index : Int) binary word
          ∧ load_from rest (index + 1) = Except.ok (n, ws2) ∧ ws = word :: ws2 := by
  rw [load_from, if_pos hi]
  cases hs : sscanf_line line with
  | fewer =>
    simp only
    constructor
    · intro h; cases h
    · rintro ⟨_, _, _, h, _⟩; cases h
  | overrun =>
    simp only
    constructor
    · intro h; cases h
    · rintro ⟨_, _, _, h, _⟩; cases h
  | fields idx binary word =>
    simp only
    by_cases hidx : idx = (index : Int)
    · subst hidx
      simp only [ne_eq, not_true_eq_false, if_false]
      cases hr : load_from rest (index + 1) with
      | error e =>
        simp only
        constructor
        · intro h; cases h
        · rintro ⟨_, _, _, _, h, _⟩; cases h
      | ok r2 =>
        obtain ⟨n2, ws2⟩ := r2
        simp only [Except.ok.injEq, Prod.mk.injEq]
        constructor
        · rintro ⟨h1, h2⟩
          exact ⟨binary, word, ws2, rfl, ⟨h1, rfl⟩, h2.symm⟩
        · rintro ⟨b, w, ws3, h1, h2, h3⟩
          simp only [ScanResult.fields.injEq, true_and] at h1
          obtain ⟨h2a, h2b⟩ := h2
          exact ⟨h2a, by rw [h3, ← h1.2, h2b]⟩
    · rw [if_pos hidx]
      constructor
      · intro h; cases h
      · rintro ⟨_, _, _, h, _⟩
        simp only [ScanResult.fields.injEq] at h
        exact absurd h.1 hidx

/-- What the reading loop returns: it stops at the end of the input or at 2048 words, and
every piece it reads parses with the index of its slot. -/
theorem load_from_ok_iff (lines : List CString) (index n : Nat) (ws : List CString)
    (h : index ≤ WORDLIST_SIZE) :
    load_from lines index = Except.ok (n, ws)
      ↔ n = min (index + lines.length) WORDLIST_SIZE ∧ ws.length = n - index
          ∧ ∀ t, t < n - index → ∃ binary,
              sscanf_line (lines.getD t [])
                = ScanResult.fields ((index + t : Nat) : Int) binary (ws.getD t []) := by
  induction lines generalizing index n ws with
  | nil =>
    unfold load_from
    simp only [Except.ok.injEq, Prod.mk.injEq, List.length_nil, Nat.add_zero]
    constructor
    · rintro ⟨h1, h2⟩
      subst h1 h2
      refine ⟨by omega, by simp, ?_⟩
      intro t ht
      omega
    · rintro ⟨h1, h2, _⟩
      have hn : n = index := by omega
      refine ⟨hn.symm, ?_⟩
      have : ws.length = 0 := by omega
      exact (List.length_eq_zero.mp this).symm
  | cons line rest ih =>
    by_cases hi : index < WORDLIST_SIZE
    · rw [load_from_cons_ok line rest index n ws hi]
      constructor
      · rintro ⟨binary, word, ws2, h1, h2, h3⟩
        obtain ⟨i1, i2, i3⟩ := (ih (index + 1) n ws2 (by omega)).mp h2
        subst h3
        have hn : index + 1 ≤ n := by omega
        refine ⟨by rw [i1, List.length_cons]; congr 1; omega,
          by rw [List.length_cons, i2]; omega, ?_⟩
        intro t ht
        cases t with
        | zero => exact ⟨binary, by simpa using h1⟩
        | succ t =>
          obtain ⟨b, hb⟩ := i3 t (by omega)
          refine ⟨b, ?_⟩
          have e : index + 1 + t = index + (t + 1) := by omega
          rw [e] at hb
          simpa using hb
      · rintro ⟨h1, h2, h3⟩
        rw [List.length_cons] at h1
        have hn : index + 1 ≤ n := by omega
        obtain ⟨b0, hb0⟩ := h3 0 (by omega)
        cases ws with
        | nil => simp at h2; omega
        | cons w ws2 =>
          refine ⟨b0, w, ws2, by simpa using hb0, ?_, rfl⟩
          rw [ih (index + 1) n ws2 (by omega)]
          refine ⟨by rw [h1]; congr 1; omega, by rw [List.length_cons] at h2; omega, ?_⟩
          intro t ht
          obtain ⟨b, hb⟩ := h3 (t + 1) (by omega)
          refine ⟨b, ?_⟩
          have e : index + 1 + t = index + (t + 1) := by omega
          rw [e]
          simpa using hb
    · have hidx : index = WORDLIST_SIZE := by omega
      unfold load_from
      rw [if_neg hi]
      simp only [Except.ok.injEq, Prod.mk.injEq, List.length_cons]
      constructor
      · rintro ⟨h1, h2⟩
        subst h1 h2
        refine ⟨by omega, by simp, ?_⟩
        intro t ht
        omega
      · rintro ⟨h1, h2, _⟩
        have hn : n = index := by omega
        refine ⟨hn.symm, ?_⟩
        have : ws.length = 0 := by omega
        exact (List.length_eq_zero.mp this).symm

/-- The model leaves the program only on a line where `sscanf` overruns `word`. -/
theorem load_from_overrun (lines : List CString) (index n : Nat)
    (h : load_from lines index = Except.error (LoadError.word_overrun n)) :
    ∃ t, index + t < WORDLIST_SIZE ∧ sscanf_line (lines.getD t []) = ScanResult.overrun := by
  induction lines generalizing index with
  | nil => simp [load_from] at h
  | cons line rest ih =>
    rw [load_from] at h
    by_cases hi : index < WORDLIST_SIZE
    · rw [if_pos hi] at h
      cases hs : sscanf_line line with
      | fewer => rw [hs] at h; cases h
      | overrun => exact ⟨0, by omega, by simpa using hs⟩
      | fields idx binary word =>
        rw [hs] at h
        simp only at h
        by_cases hidx : idx = (index : Int)
        · rw [if_neg (by simpa using hidx)] at h
          cases hr : load_from rest (index + 1) with
          | ok r => rw [hr] at h; cases h
          | error e =>
            rw [hr] at h
            simp only [Except.error.injEq] at h
            rw [h] at hr
            obtain ⟨t, h1, h2⟩ := ih (index + 1) hr
            exact ⟨t + 1, by omega, by simpa using h2⟩
        · rw [if_pos hidx] at h; cases h
    · rw [if_neg hi] at h; cases h

/-- Success of `load_bip39_wordlist`: `fgets` delivers at least 2048 pieces and each of the
first 2048 parses with the index of its position; the result holds their words. -/
theorem load_bip39_wordlist_ok_iff (file : List Char) (wordlist : List CString) :
    load_bip39_wordlist file = Except.ok wordlist
      ↔ WORDLIST_SIZE ≤ (fgets_lines file).length ∧ wordlist.length = WORDLIST_SIZE
          ∧ ∀ k, k < WORDLIST_SIZE → ∃ binary,
              sscanf_line ((fgets_lines file).getD k [])
                = ScanResult.fields (k : Int) binary (wordlist.getD k []) := by
  unfold load_bip39_wordlist
  generalize fgets_lines file = lines
  cases hr : load_from lines 0 with
  | error e =>
    simp only
    constructor
    · intro h; cases h
    · rintro ⟨h1, h2, h3⟩
      have : load_from lines 0 = Except.ok (WORDLIST_SIZE, wordlist) := by
        rw [load_from_ok_iff lines 0 WORDLIST_SIZE wordlist (by omega)]
        refine ⟨by omega, by omega, ?_⟩
        intro t ht
        obtain ⟨b, hb⟩ := h3 t (by omega)
        exact ⟨b, by simpa using hb⟩
      rw [this] at hr
      cases hr
  | ok r =>
    obtain ⟨n, ws⟩ := r
    obtain ⟨i1, i2, i3⟩ := (load_from_ok_iff lines 0 n ws (by omega)).mp hr
    simp only
    by_cases hn : n = WORDLIST_SIZE
    · rw [if_neg (by simpa using hn)]
      simp only [Except.ok.injEq]
      constructor
      · intro h
        subst h
        refine ⟨by omega, by omega, ?_⟩
        intro k hk
        obtain ⟨b, hb⟩ := i3 k (by omega)
        exact ⟨b, by simpa using hb⟩
      · rintro ⟨h1, h2, h3⟩
        apply List.ext_getElem (by omega)
        intro k hk1 hk2
        obtain ⟨b, hb⟩ := i3 k (by omega)
        obtain ⟨b2, hb2⟩ := h3 k (by omega)
        simp only [Nat.zero_add] at hb
        rw [hb] at hb2
        simp only [ScanResult.fields.injEq, true_and] at hb2
        have := hb2.2
        simpa [List.getD_eq_getElem?_getD, List.getElem?_eq_getElem hk1,
          List.getElem?_eq_getElem hk2] using this
    · rw [if_pos (by simpa using hn)]
      constructor
      · intro h; cases h
      · rintro ⟨h1, _, _⟩
        omega

/-- An error result of `load_bip39_wordlist` other than an exit comes from an overrun among
the first 2048 pieces. -/
theorem load_bip39_wordlist_overrun (file : List Char) (n : Nat)
    (h : load_bip39_wordlist file = Except.error (LoadError.word_overrun n)) :
    ∃ k, k < WORDLIST_SIZE ∧ sscanf_line ((fgets_lines file).getD k []) = ScanResult.overrun := by
  unfold load_bip39_wordlist at h
  cases hr : load_from (fgets_lines file) 0 with
  | error e =>
    rw [hr] at h
    simp only [Except.error.injEq] at h
    rw [h] at hr
    obtain ⟨t, h1, h2⟩ := load_from_overrun _ 0 n hr
    exact ⟨t, by omega, h2⟩
  | ok r =>
    rw [hr] at h
    obtain ⟨m, ws⟩ := r
    simp only at h
    split at h <;> cases h

/-! ## The loop of `main` -/

theorem loop_continues_iff (success_count : Int) (s : LoopState) :
    loop_continues success_count s = true
      ↔ s.successful < success_count ∧ s.attempts < 100 * success_count := by
  simp [loop_continues]

/-- Invariant of the loop at its condition test. -/
theorem reachable_invariant (outcomes : Nat → Bool) (success_count : Int)
    (h1 : 1 ≤ success_count) (k : Nat) (s : LoopState)
    (h : Reachable outcomes success_count k s) :
    0 ≤ s.successful ∧ s.successful ≤ s.attempts ∧ s.attempts = (k : Int)
      ∧ s.attempts ≤ 100 * success_count ∧ s.successful ≤ success_count := by
  induction h with
  | start => simp; omega
  | step k s _ hc ih =>
    obtain ⟨i1, i2, i3, i4, i5⟩ := ih
    obtain ⟨c1, c2⟩ := (loop_continues_iff success_count s).mp hc
    unfold loop_body
    simp only
    split <;> refine ⟨?_, ?_, ?_, ?_, ?_⟩ <;> push_cast <;> omega

/-- The loop ends within the fuel that covers the attempts still allowed. -/
theorem run_loop_ends (outcomes : Nat → Bool) (success_count : Int) (h1 : 1 ≤ success_count)
    (fuel k : Nat) (s : LoopState) (hr : Reachable outcomes success_count k s)
    (hf : (100 * success_count - s.attempts).toNat ≤ fuel) :
    ∃ final, run_loop outcomes success_count fuel k s = some final
      ∧ Reachable outcomes success_count final.attempts.toNat final
      ∧ loop_continues success_count final = false := by
  induction fuel generalizing k s with
  | zero =>
    obtain ⟨_, _, i3, _, _⟩ := reachable_invariant outcomes success_count h1 k s hr
    have hc : loop_continues success_count s = false := by
      cases hb : loop_continues success_count s with
      | false => rfl
      | true =>
        obtain ⟨_, c2⟩ := (loop_continues_iff success_count s).mp hb
        omega
    refine ⟨s, by simp [run_loop, hc], ?_, hc⟩
    rw [i3, Int.toNat_ofNat]
    exact hr
  | succ fuel ih =>
    obtain ⟨_, _, i3, _, _⟩ := reachable_invariant outcomes success_count h1 k s hr
    cases hb : loop_continues success_count s with
    | false =>
      refine ⟨s, by simp [run_loop, hb], ?_, hb⟩
      rw [i3, Int.toNat_ofNat]
      exact hr
    | true =>
      obtain ⟨_, c2⟩ := (loop_continues_iff success_count s).mp hb
      have hr2 := Reachable.step k s hr hb
      have hf2 : (100 * success_count - (loop_body (outcomes k) s).attempts).toNat ≤ fuel := by
        unfold loop_body
        simp only
        omega
      obtain ⟨final, f1, f2, f3⟩ := ih (k + 1) _ hr2 hf2
      exact ⟨final, by simp [run_loop, hb, f1], f2, f3⟩

theorem is_space_sample_letter : ∀ d < 16,
    is_space (sample_letter d) = false ∧ sample_letter d ≠ newline := by decide

theorem sample_letter_ne_nul : ∀ d < 16, sample_letter d ≠ nul := by decide

theorem sample_word_no_nul (k : Nat) : nul ∉ sample_word k := by
  intro hc
  unfold sample_word at hc
  simp only [List.mem_cons, List.mem_singleton, List.not_mem_nil, or_false] at hc
  rcases hc with h | h | h <;>
    exact sample_letter_ne_nul _ (Nat.mod_lt _ (by decide)) h.symm

theorem sample_word_no_space (k : Nat) : ∀ c ∈ sample_word k, is_space c = false := by
  intro c hc
  unfold sample_word at hc
  simp only [List.mem_cons, List.mem_singleton, List.not_mem_nil, or_false] at hc
  rcases hc with h | h | h <;> rw [h] <;>
    exact (is_space_sample_letter _ (Nat.mod_lt _ (by decide))).1

theorem not_space_ne_newline (c : Char) (h : is_space c = false) : c ≠ newline := by
  intro e
  rw [e] at h
  revert h
  decide

/-- The lines of the sample sources are short and hold neither newline nor NUL. -/
theorem source_body_short (k : Nat) (word : CString) (hw : ∀ c ∈ word, is_space c = false)
    (hz : nul ∉ word) (hl : word.length ≤ 19) :
    (source_body k word).length ≤ 48 ∧ newline ∉ source_body k word
      ∧ nul ∉ source_body k word := by
  unfold source_body
  refine ⟨?_, ?_, ?_⟩
  · have : " 00000000000 ".toList.length = 13 := by decide
    simp only [List.length_append, List.length_cons, List.length_nil, this]
    omega
  · intro hmem
    rcases List.mem_append.mp hmem with h | h
    · rcases List.mem_append.mp h with h | h
      · simp only [List.mem_cons, List.mem_singleton, List.not_mem_nil, or_false] at h
        rcases h with h | h | h | h <;>
          exact (digit_char_facts _ (Nat.mod_lt _ (by decide))).2.2.2.2.2 h.symm
      · revert h
        decide
    · exact not_space_ne_newline _ (hw _ h) rfl
  · intro hmem
    rcases List.mem_append.mp hmem with h | h
    · rcases List.mem_append.mp h with h | h
      · simp only [List.mem_cons, List.mem_singleton, List.not_mem_nil, or_false] at h
        rcases h with h | h | h | h <;>
          exact digit_char_ne_nul _ (Nat.mod_lt _ (by decide)) h.symm
      · revert h
        decide
    · exact hz h

theorem getD_map_range (f : Nat → CString) (n k : Nat) (hk : k < n) :
    ((List.range n).map f).getD k [] = f k := by
  simp [List.getD_eq_getElem?_getD, List.getElem?_map, List.getElem?_range hk]

theorem fgets_lines_source_same_word :
    fgets_lines source_same_word
      = (List.range 2048).map (fun k => source_line k "abandon".toList) := by
  unfold source_same_word
  rw [fgets_lines_file_of_lines, List.map_map]
  · rfl
  · intro b hb
    obtain ⟨k, _, rfl⟩ := List.mem_map.mp hb
    exact source_body_short k _ (by decide) (by decide) (by decide)

theorem fgets_lines_source_2049 :
    fgets_lines source_2049 = (List.range 2049).map (fun k => source_line k (sample_word k)) := by
  unfold source_2049
  rw [fgets_lines_file_of_lines, List.map_map]
  · rfl
  · intro b hb
    obtain ⟨k, _, rfl⟩ := List.mem_map.mp hb
    exact source_body_short k _ (sample_word_no_space k) (sample_word_no_nul k)
      (by simp [sample_word])

theorem load_source_same_word :
    load_bip39_wordlist source_same_word
      = Except.ok (List.replicate 2048 "abandon".toList) := by
  rw [load_bip39_wordlist_ok_iff, fgets_lines_source_same_word]
  refine ⟨by simp [WORDLIST_SIZE], by rw [List.length_replicate]; rfl, ?_⟩
  intro k hk
  have hk2 : k < 2048 := hk
  refine ⟨"00000000000".toList, ?_⟩
  have e2 : (List.replicate 2048 "abandon".toList).getD k [] = "abandon".toList := by
    rw [List.getD_eq_getElem?_getD, List.getElem?_replicate, if_pos hk2]
    rfl
  rw [getD_map_range _ 2048 k hk2, e2]
  exact sscanf_source_line k (by omega) _ (by decide) (by decide) (by decide)

theorem load_source_2049 : load_bip39_wordlist source_2049 = Except.ok sample_wordlist := by
  rw [load_bip39_wordlist_ok_iff, fgets_lines_source_2049]
  refine ⟨by simp [WORDLIST_SIZE], sample_wordlist_length, ?_⟩
  intro k hk
  have hk2 : k < 2048 := hk
  refine ⟨"00000000000".toList, ?_⟩
  have e2 : sample_wordlist.getD k [] = sample_word k := word_of_sample k hk2
  rw [getD_map_range _ 2049 k (by omega), e2]
  exact sscanf_source_line k (by omega) _ (by simp [sample_word]) (sample_word_no_space k)
    (by simp [sample_word, MAX_WORD_LEN])

set_option maxRecDepth 100000 in
theorem sscanf_wrapped_line :
    sscanf_line ("4294967296 00000000000 ".toList ++ sample_word 0 ++ [newline])
      = ScanResult.fields 0 "00000000000".toList (sample_word 0) := by
  decide

theorem fgets_lines_source_wrapped_index :
    fgets_lines source_wrapped_index
      = ("4294967296 00000000000 ".toList ++ sample_word 0 ++ [newline]) ::
          (List.range 2047).map (fun k => source_line (k + 1) (sample_word (k + 1))) := by
  unfold source_wrapped_index
  rw [fgets_lines_file_of_lines, List.map_cons, List.map_map]
  · rfl
  · intro b hb
    rcases List.mem_cons.mp hb with e | hb2
    · rw [e]; decide
    · obtain ⟨k, _, rfl⟩ := List.mem_map.mp hb2
      exact source_body_short (k + 1) _ (sample_word_no_space (k + 1))
        (sample_word_no_nul (k + 1)) (by simp [sample_word])

/-- A first line numbered 4294967296 is taken for line 0: `int idx` holds 0. -/
theorem load_source_wrapped_index :
    load_bip39_wordlist source_wrapped_index = Except.ok sample_wordlist := by
  rw [load_bip39_wordlist_ok_iff, fgets_lines_source_wrapped_index]
  refine ⟨by simp [WORDLIST_SIZE], sample_wordlist_length, ?_⟩
  intro k hk
  have hk2 : k < 2048 := hk
  refine ⟨"00000000000".toList, ?_⟩
  have e2 : sample_wordlist.getD k [] = sample_word k := word_of_sample k hk2
  rw [e2]
  cases k with
  | zero => exact sscanf_wrapped_line
  | succ k =>
    have e1 : (("4294967296 00000000000 ".toList ++ sample_word 0 ++ [newline]) ::
        (List.range 2047).map (fun k => source_line (k + 1) (sample_word (k + 1)))).getD
          (k + 1) [] = source_line (k + 1) (sample_word (k + 1)) := by
      have := getD_map_range (fun k => source_line (k + 1) (sample_word (k + 1))) 2047 k
        (by omega)
      simpa using this
    rw [e1]
    exact sscanf_source_line (k + 1) (by omega) _ (by simp [sample_word])
      (sample_word_no_space (k + 1)) (by simp [sample_word, MAX_WORD_LEN])

/-! ## Ties between the claims' quantities and the two functions -/

/-- The generated indices are the 11-bit windows of the entropy followed by the checksum
byte. -/
theorem generate_indices_eq_spec_unpack (SHA256 : List Nat → List Nat) (E : List Nat)
    (word_count : Int) (hwc : word_count = 12 ∨ word_count = 24)
    (hE : E.length = entropy_bits word_count / 8) :
    generate_indices SHA256 E word_count
      = (List.range word_count.toNat).map (fun i =>
          spec_unpack (E ++ [hash0 SHA256 E >>> (8 - checksum_bits word_count)]) (11 * i) 11) := by
  unfold generate_indices
  apply List.map_congr_left
  intro i _
  rw [word_index_at_eq_spec_unpack]
  apply spec_unpack_congr
  intro p _ _
  exact bit_at_congr _ _ _ (getD_form_bits SHA256 E word_count hwc hE _)

/-- The mnemonic `generate_mnemonic` returns, in terms of the 11-bit windows. -/
theorem generate_mnemonic_ok_windows (SHA256 : List Nat → List Nat) (E : List Nat) (len : Nat)
    (wordlist : List CString) (word_count : Int) (m : CString)
    (hwc : word_count = 12 ∨ word_count = 24) (hE : E.length = entropy_bits word_count / 8)
    (h : generate_mnemonic SHA256 (some E) len wordlist word_count = Except.ok m) :
    m = join_words ((List.range word_count.toNat).map (fun i => word_of wordlist
          (spec_unpack (E ++ [hash0 SHA256 E >>> (8 - checksum_bits word_count)])
            (11 * i) 11))) := by
  rw [generate_mnemonic_ok_eq SHA256 E len wordlist word_count m hwc h,
    generate_indices_eq_spec_unpack SHA256 E word_count hwc hE, List.map_map]
  rfl

/-- With room for 24 words of at most 19 characters `generate_mnemonic` returns the words at
the 11-bit windows. -/
theorem generate_mnemonic_windows (SHA256 : List Nat → List Nat) (E : List Nat)
    (wordlist : List CString) (word_count : Int)
    (hwc : word_count = 12 ∨ word_count = 24) (hE : E.length = entropy_bits word_count / 8)
    (hlen : wordlist.length = WORDLIST_SIZE) (hL : ∀ w ∈ wordlist, w.length ≤ 19) :
    generate_mnemonic SHA256 (some E) 600 wordlist word_count
      = Except.ok (join_words ((List.range word_count.toNat).map (fun i => word_of wordlist
          (spec_unpack (E ++ [hash0 SHA256 E >>> (8 - checksum_bits word_count)])
            (11 * i) 11)))) := by
  rw [generate_mnemonic_eq SHA256 E 600 19 wordlist word_count hwc hlen hL (by decide),
    generate_indices_eq_spec_unpack SHA256 E word_count hwc hE, List.map_map]
  rfl

/-- With non-empty words the verdict on the generated mnemonic is the checksum comparison on
the entropy `E` itself, whatever hash the validator is given. -/
theorem validate_generated_hashes_entropy (SHA256 H : List Nat → List Nat) (E : List Nat)
    (len : Nat) (wordlist : List CString) (word_count : Int) (m : CString)
    (hwc : word_count = 12 ∨ word_count = 24) (hE : E.length = entropy_bits word_count / 8)
    (hb : all_bytes E) (hlen : wordlist.length = WORDLIST_SIZE) (hnd : wordlist.Nodup)
    (hw : ∀ w ∈ wordlist, is_word w)
    (hgen : generate_mnemonic SHA256 (some E) len wordlist word_count = Except.ok m) :
    validate_mnemonic H m wordlist word_count
      = if hash0 H E >>> (8 - checksum_bits word_count)
            ≠ (pack_indices (generate_indices SHA256 E word_count)).getD
                (byte_count word_count - 1) 0 &&& ((1 <<< checksum_bits word_count) - 1)
        then 0 else 1 := by
  have hl : (generate_indices SHA256 E word_count).length ≤ 24 := by
    rw [length_generate_indices]
    rcases hwc with h | h <;> rw [h] <;> decide
  have hc : ((generate_indices SHA256 E word_count).length : Int) = word_count := by
    rw [length_generate_indices]
    rcases hwc with h | h <;> rw [h] <;> rfl
  rw [generate_mnemonic_ok_eq SHA256 E len wordlist word_count m hwc hgen,
    validate_join_words H wordlist hlen hnd hw _ (generate_indices_lt _ _ _) hl word_count hc,
    take_pack_generate SHA256 E word_count hwc hE hb]

/-! ## The claims -/

/-- C1, the program on the golden vector of the specification: from 16 zero bytes and word
count 12 the generator writes twelve times word 0, and the validator returns 0 on that phrase
(the first digest byte is 0x37, its top four bits are 3, while the validator reads the
checksum from the four never-written low bits of byte 16). The round trip fails. -/
theorem C1_golden_vector_rejected :
    generate_mnemonic SHA256_std (some (List.replicate 16 0)) 600 sample_wordlist 12
        = Except.ok phrase_zero_12
      ∧ validate_mnemonic SHA256_std phrase_zero_12 sample_wordlist 12 = 0 :=
  ⟨generate_zero_12, validate_zero_12⟩

/-- C2, the program on 16 zero bytes with word count 12: the generated indices are twelve
zeros, while the 11-bit groups of the entropy bits followed by the first four digest bits
(0011) end with index 3. The checksum bits are not at bit positions 128..131 of the stream the
words are read from. -/
theorem C2_checksum_bits_missing_12 :
    generate_indices SHA256_std (List.replicate 16 0) 12 = List.replicate 12 0
      ∧ standard_indices SHA256_std (List.replicate 16 0) 12 = List.replicate 11 0 ++ [3]
      ∧ generate_indices SHA256_std (List.replicate 16 0) 12
          ≠ standard_indices SHA256_std (List.replicate 16 0) 12 := by
  have h1 := generate_indices_zero_12
  have h2 : standard_indices SHA256_std (List.replicate 16 0) 12 = List.replicate 11 0 ++ [3] := by
    decide
  refine ⟨h1, h2, ?_⟩
  rw [h1, h2]
  decide

/-- C3: for word count 12 or 24, any entropy, a dictionary of 2048 non-empty space-free words
of at most 19 characters and a buffer of 600 bytes, `generate_mnemonic` ends normally; the
text it leaves is the dictionary words of the generated indices, in order, joined by single
spaces: splitting it at every space gives back exactly these `word_count` words (so there is
no leading, trailing or doubled separator), each of them a dictionary word. -/
theorem C3_generate_format (SHA256 : List Nat → List Nat) (E : List Nat)
    (wordlist : List CString) (word_count : Int) (hwc : word_count = 12 ∨ word_count = 24)
    (hlen : wordlist.length = WORDLIST_SIZE) (hw : ∀ w ∈ wordlist, is_word w ∧ w.length ≤ 19) :
    generate_mnemonic SHA256 (some E) 600 wordlist word_count
        = Except.ok (join_words ((generate_indices SHA256 E word_count).map (word_of wordlist)))
      ∧ (join_words ((generate_indices SHA256 E word_count).map (word_of wordlist))).splitOn ' '
        = (generate_indices SHA256 E word_count).map (word_of wordlist)
      ∧ (((generate_indices SHA256 E word_count).map (word_of wordlist)).length : Int) = word_count
      ∧ ∀ w ∈ (generate_indices SHA256 E word_count).map (word_of wordlist), w ∈ wordlist := by
  have hmem : ∀ w ∈ (generate_indices SHA256 E word_count).map (word_of wordlist),
      w ∈ wordlist := by
    intro w hmem
    obtain ⟨k, hk, rfl⟩ := List.mem_map.mp hmem
    exact word_of_mem _ _ (by rw [hlen]; exact generate_indices_lt _ _ _ k hk)
  have hl : ((generate_indices SHA256 E word_count).map (word_of wordlist)).length
      = word_count.toNat := by
    rw [List.length_map, length_generate_indices]
  refine ⟨?_, ?_, ?_, hmem⟩
  · exact generate_mnemonic_eq SHA256 E 600 19 wordlist word_count hwc hlen
      (fun w h => (hw w h).2) (by decide)
  · apply splitOn_join_words _ (fun w h => (hw w (hmem w h)).1)
    intro hnil
    rw [hnil] at hl
    rcases hwc with h | h <;> rw [h] at hl <;> simp at hl
  · rw [hl]
    rcases hwc with h | h <;> rw [h] <;> rfl

/-- C3 at 16 zero bytes, word count 12, the sample dictionary and SHA-256. -/
theorem C3_generate_format_witness :
    generate_mnemonic SHA256_std (some (List.replicate 16 0)) 600 sample_wordlist 12
        = Except.ok (join_words
            ((generate_indices SHA256_std (List.replicate 16 0) 12).map (word_of sample_wordlist)))
      ∧ (join_words ((generate_indices SHA256_std (List.replicate 16 0) 12).map
            (word_of sample_wordlist))).splitOn ' '
        = (generate_indices SHA256_std (List.replicate 16 0) 12).map (word_of sample_wordlist)
      ∧ (((generate_indices SHA256_std (List.replicate 16 0) 12).map
            (word_of sample_wordlist)).length : Int) = 12
      ∧ ∀ w ∈ (generate_indices SHA256_std (List.replicate 16 0) 12).map
            (word_of sample_wordlist), w ∈ sample_wordlist :=
  C3_generate_format SHA256_std (List.replicate 16 0) sample_wordlist 12 (Or.inl rfl)
    sample_wordlist_length
    (fun w h => ⟨sample_wordlist_is_word w h, sample_wordlist_short w h⟩)

/-- C4, counterexample: a candidate of 25 single-space separated words (the valid 24-word
phrase followed by one more dictionary word) is accepted with word count 24. -/
theorem C4_counterexample_25_words :
    ((phrase_zero_24 ++ " aaa".toList).splitOn ' ').length = 25
      ∧ validate_mnemonic SHA256_std (phrase_zero_24 ++ " aaa".toList) sample_wordlist 24 = 1 :=
  ⟨by decide, validate_zero_24_extra_known⟩

/-- C4, as amended: when the number of non-empty pieces of the candidate cut at every space
(the tokens `strtok` delivers), counted up to the cap of 24, differs from the word count
(12, 24 or any other), `validate_mnemonic` returns 0. -/
theorem C4_token_count_mismatch (SHA256 : List Nat → List Nat) (candidate : CString)
    (wordlist : List CString) (word_count : Int)
    (h : ((min (nonempty_pieces candidate).length 24 : Nat) : Int) ≠ word_count) :
    validate_mnemonic SHA256 candidate wordlist word_count = 0 := by
  apply validate_count_mismatch
  rw [split_words_eq_take_pieces, List.length_take, Nat.min_comm]
  exact h

/-- C4 as amended, at a candidate of 11 dictionary words with word count 12. -/
theorem C4_token_count_mismatch_witness :
    ((min (nonempty_pieces "aaa aab aac aad aae aaf aag aah aai aaj aak".toList).length 24 : Nat)
        : Int) ≠ 12
      ∧ validate_mnemonic SHA256_std "aaa aab aac aad aae aaf aag aah aai aaj aak".toList
          sample_wordlist 12 = 0 :=
  ⟨by decide, C4_token_count_mismatch SHA256_std _ sample_wordlist 12 (by decide)⟩

/-- C5, counterexample: the candidate made of the valid 24-word phrase followed by the token
`zzz`, which is no dictionary word, is accepted with word count 24. -/
theorem C5_counterexample_unknown_25th :
    "zzz".toList ∈ (phrase_zero_24 ++ " zzz".toList).splitOn ' '
      ∧ "zzz".toList ∉ sample_wordlist
      ∧ validate_mnemonic SHA256_std (phrase_zero_24 ++ " zzz".toList) sample_wordlist 24 = 1 :=
  ⟨by decide, zzz_not_in_sample_wordlist, validate_zero_24_extra_unknown⟩

/-- C5, as amended: when one of the first 24 non-empty pieces of the candidate cut at every
space (the tokens `strtok` delivers) is none of the 2048 dictionary words,
`validate_mnemonic` returns 0, whatever the other tokens and the word count are. -/
theorem C5_unknown_word_rejected (SHA256 : List Nat → List Nat) (candidate : CString)
    (wordlist : List CString) (word_count : Int) (hlen : wordlist.length = WORDLIST_SIZE)
    (h : ∃ w ∈ (nonempty_pieces candidate).take 24, w ∉ wordlist) :
    validate_mnemonic SHA256 candidate wordlist word_count = 0 := by
  by_cases hc : ((split_words 24 candidate).length : Int) ≠ word_count
  · exact validate_count_mismatch SHA256 candidate wordlist word_count hc
  · apply validate_unknown_word
    rw [get_indices_none]
    obtain ⟨w, hw, hn⟩ := h
    exact ⟨w, by rw [split_words_eq_take_pieces]; exact hw,
      (find_word_none wordlist hlen w).mpr hn⟩

/-- C5 as amended, at a 12-token candidate whose second token is no dictionary word. -/
theorem C5_unknown_word_rejected_witness :
    (∃ w ∈ (nonempty_pieces "aaa zzz aaa aaa aaa aaa aaa aaa aaa aaa aaa aaa".toList).take 24,
        w ∉ sample_wordlist)
      ∧ validate_mnemonic SHA256_std "aaa zzz aaa aaa aaa aaa aaa aaa aaa aaa aaa aaa".toList
          sample_wordlist 12 = 0 :=
  ⟨⟨"zzz".toList, by decide, zzz_not_in_sample_wordlist⟩,
    C5_unknown_word_rejected SHA256_std _ sample_wordlist 12 sample_wordlist_length
      ⟨"zzz".toList, by decide, zzz_not_in_sample_wordlist⟩⟩

/-- C6: for word count 12 or 24 and a candidate of exactly `word_count` tokens that are all
dictionary words, `validate_mnemonic` returns 1 if and only if
`hash(first entropy_bits/8 bytes of B)[0] >> (8 - checksum_bits)` equals
`(last byte of B) & (2^checksum_bits - 1)`, where `B` is the zero-initialised buffer of
`ceil(11 * word_count / 8)` bytes in which the index of the i-th word stands most significant
bit first at the bit offsets `11 i .. 11 i + 10`. -/
theorem C6_validator_decision (SHA256 : List Nat → List Nat) (candidate : CString)
    (wordlist : List CString) (word_count : Int) (hwc : word_count = 12 ∨ word_count = 24)
    (hlen : wordlist.length = WORDLIST_SIZE)
    (hcount : ((tokens candidate).length : Int) = word_count)
    (hknown : ∀ w ∈ tokens candidate, w ∈ wordlist) :
    validate_mnemonic SHA256 candidate wordlist word_count = 1
      ↔ hash0 SHA256
            ((spec_bitstream ((tokens candidate).map (fun w => wordlist.indexOf w))
                ((11 * word_count.toNat + 7) / 8)).take (entropy_bits word_count / 8))
          >>> (8 - checksum_bits word_count)
        = (spec_bitstream ((tokens candidate).map (fun w => wordlist.indexOf w))
              ((11 * word_count.toNat + 7) / 8)).getLastD 0
          &&& (2 ^ checksum_bits word_count - 1) := by
  have hn : (tokens candidate).length ≤ 24 := by
    rcases hwc with h | h <;> rw [h] at hcount <;> omega
  have hsplit : split_words 24 candidate = tokens candidate := by
    rw [split_words_eq_take_tokens, List.take_of_length_le hn]
  have hjs : ((tokens candidate).map (fun w => wordlist.indexOf w)).length ≤ 24 := by
    rw [List.length_map]; exact hn
  rw [validate_of_indices SHA256 candidate wordlist word_count
    ((tokens candidate).map (fun w => wordlist.indexOf w))
    (by rw [hsplit]; exact hcount)
    (by rw [hsplit]; exact get_indices_indexOf wordlist hlen _ hknown)]
  generalize hJ : (tokens candidate).map (fun w => wordlist.indexOf w) = js at hjs ⊢
  have key : ∀ (n m : Nat), m ≤ n → n ≤ 33 → 0 < n →
      (pack_indices js).take m = (spec_bitstream js n).take m
        ∧ (pack_indices js).getD (n - 1) 0 = (spec_bitstream js n).getLastD 0 := by
    intro n m hmn hn33 hpos
    rw [← take_pack_indices js n hjs hn33]
    constructor
    · rw [List.take_take, Nat.min_eq_left hmn]
    · rw [List.getLastD_eq_getLast?, List.getLast?_eq_getElem?, List.length_take,
        length_pack_indices, Nat.min_eq_left hn33, List.getElem?_take_of_lt (by omega),
        List.getD_eq_getElem?_getD]
  rcases hwc with h | h
  · subst h
    obtain ⟨k1, k2⟩ := key 17 16 (by decide) (by decide) (by decide)
    rw [show entropy_bits 12 / 8 = 16 from rfl, show byte_count 12 - 1 = 17 - 1 from rfl,
      show (11 * (12 : Int).toNat + 7) / 8 = 17 from rfl, k1, k2, Nat.one_shiftLeft]
    split <;> simp_all
  · subst h
    obtain ⟨k1, k2⟩ := key 33 32 (by decide) (by decide) (by decide)
    rw [show entropy_bits 24 / 8 = 32 from rfl, show byte_count 24 - 1 = 33 - 1 from rfl,
      show (11 * (24 : Int).toNat + 7) / 8 = 33 from rfl, k1, k2, Nat.one_shiftLeft]
    split <;> simp_all

/-- C6 at the 24-word phrase of 32 zero bytes, the sample dictionary and SHA-256. -/
theorem C6_validator_decision_witness :
    validate_mnemonic SHA256_std phrase_zero_24 sample_wordlist 24 = 1
      ↔ hash0 SHA256_std
            ((spec_bitstream ((tokens phrase_zero_24).map (fun w => sample_wordlist.indexOf w))
                ((11 * (24 : Int).toNat + 7) / 8)).take (entropy_bits 24 / 8))
          >>> (8 - checksum_bits 24)
        = (spec_bitstream ((tokens phrase_zero_24).map (fun w => sample_wordlist.indexOf w))
              ((11 * (24 : Int).toNat + 7) / 8)).getLastD 0
          &&& (2 ^ checksum_bits 24 - 1) :=
  C6_validator_decision SHA256_std phrase_zero_24 sample_wordlist 24 (Or.inr rfl)
    sample_wordlist_length tokens_phrase_zero_24_length tokens_phrase_zero_24_known

/-- C7: for word count 12 or 24 and every entropy and hash, every `word_index` the generator
computes is below 2048, every byte index `bit_idx / 8` it reads is below `byte_count`, which
is at most 33, and with a fully populated dictionary the run never ends in the
`invalid word index` exit. -/
theorem C7_encoder_index_in_range (SHA256 : List Nat → List Nat) (E : List Nat)
    (word_count : Int) (hwc : word_count = 12 ∨ word_count = 24) :
    (∀ i, word_index_at (form_bits SHA256 E word_count) i < WORDLIST_SIZE)
      ∧ (∀ i j : Nat, (i : Int) < word_count → j < 11 → (i * 11 + j) / 8 < byte_count word_count)
      ∧ byte_count word_count ≤ 33
      ∧ (∀ x ∈ generate_indices SHA256 E word_count, x < WORDLIST_SIZE)
      ∧ ∀ (len : Nat) (wordlist : List CString), wordlist.length = WORDLIST_SIZE →
          generate_mnemonic SHA256 (some E) len wordlist word_count
            ≠ Except.error GenError.invalid_word_index := by
  refine ⟨fun i => word_index_at_lt _ i, ?_, ?_, generate_indices_lt _ _ _, ?_⟩
  · intro i j hi hj
    rcases hwc with h | h
    · subst h
      rw [show byte_count 12 = 17 from rfl]
      omega
    · subst h
      rw [show byte_count 24 = 33 from rfl]
      omega
  · rcases hwc with h | h <;> rw [h] <;> decide
  · intro len wordlist hlen
    unfold generate_mnemonic
    exact write_words_index_ok _ _ _ _ hlen _ _ _

/-- C7 at 16 bytes 0xff, word count 12 and SHA-256. -/
theorem C7_encoder_index_in_range_witness :
    (∀ i, word_index_at (form_bits SHA256_std (List.replicate 16 255) 12) i < WORDLIST_SIZE)
      ∧ (∀ i j : Nat, (i : Int) < 12 → j < 11 → (i * 11 + j) / 8 < byte_count 12)
      ∧ byte_count 12 ≤ 33
      ∧ (∀ x ∈ generate_indices SHA256_std (List.replicate 16 255) 12, x < WORDLIST_SIZE)
      ∧ ∀ (len : Nat) (wordlist : List CString), wordlist.length = WORDLIST_SIZE →
          generate_mnemonic SHA256_std (some (List.replicate 16 255)) len wordlist 12
            ≠ Except.error GenError.invalid_word_index :=
  C7_encoder_index_in_range SHA256_std (List.replicate 16 255) 12 (Or.inl rfl)

/-- C8: for a dictionary of 2048 pairwise distinct words, the linear search of the validator
maps the word at index `k` to `k` for every `k` below 2048, and it reports not-found exactly
when the token equals none of the 2048 words. -/
theorem C8_dictionary_lookup (wordlist : List CString) (hlen : wordlist.length = WORDLIST_SIZE)
    (hnd : wordlist.Nodup) :
    (∀ k, k < WORDLIST_SIZE → find_word wordlist (word_of wordlist k) = some k)
      ∧ ∀ token, find_word wordlist token = none
          ↔ ∀ k, k < WORDLIST_SIZE → word_of wordlist k ≠ token := by
  refine ⟨fun k hk => find_word_nodup wordlist hlen hnd k hk, ?_⟩
  intro token
  rw [find_word_none wordlist hlen]
  constructor
  · intro hnot k hk heq
    exact hnot (heq ▸ word_of_mem wordlist k (by rw [hlen]; exact hk))
  · intro hall hmem
    obtain ⟨k, hk, hget⟩ := List.getElem_of_mem hmem
    apply hall k (by rw [← hlen]; exact hk)
    unfold word_of
    simp [List.getD_eq_getElem?_getD, List.getElem?_eq_getElem hk, hget]

/-- C8 at the sample dictionary. -/
theorem C8_dictionary_lookup_witness :
    (∀ k, k < WORDLIST_SIZE → find_word sample_wordlist (word_of sample_wordlist k) = some k)
      ∧ ∀ token, find_word sample_wordlist token = none
          ↔ ∀ k, k < WORDLIST_SIZE → word_of sample_wordlist k ≠ token :=
  C8_dictionary_lookup sample_wordlist sample_wordlist_length sample_wordlist_nodup

/-- C9: for word count 12 or 24 and every entropy `E` of `entropy_bits / 8` bytes, the i-th
generated index is the value of the 11 bits at the offsets `11 i .. 11 i + 10`, most
significant first, of the buffer made of the bytes of `E` followed by the one byte
`hash(E)[0] >> (8 - checksum_bits)`; an entropy whose leading 11 bits are zero gives index 0
as first word; every mnemonic `generate_mnemonic` returns is the dictionary words at these
values joined by spaces, and with a 600-byte buffer and 2048 words of at most 19 characters
it does return it. -/
theorem C9_encoder_windows (SHA256 : List Nat → List Nat) (E : List Nat) (word_count : Int)
    (hwc : word_count = 12 ∨ word_count = 24) (hE : E.length = entropy_bits word_count / 8) :
    ((generate_indices SHA256 E word_count).length : Int) = word_count
      ∧ (∀ i : Nat, (i : Int) < word_count →
          (generate_indices SHA256 E word_count).getD i 0
            = spec_unpack (E ++ [hash0 SHA256 E >>> (8 - checksum_bits word_count)]) (11 * i) 11)
      ∧ (spec_unpack E 0 11 = 0 → (generate_indices SHA256 E word_count).getD 0 0 = 0)
      ∧ (∀ (len : Nat) (wordlist : List CString) (m : CString),
          generate_mnemonic SHA256 (some E) len wordlist word_count = Except.ok m →
          m = join_words ((List.range word_count.toNat).map (fun i => word_of wordlist
                (spec_unpack (E ++ [hash0 SHA256 E >>> (8 - checksum_bits word_count)])
                  (11 * i) 11))))
      ∧ (∀ wordlist : List CString, wordlist.length = WORDLIST_SIZE →
          (∀ w ∈ wordlist, w.length ≤ 19) →
          generate_mnemonic SHA256 (some E) 600 wordlist word_count
            = Except.ok (join_words ((List.range word_count.toNat).map (fun i =>
                word_of wordlist
                  (spec_unpack (E ++ [hash0 SHA256 E >>> (8 - checksum_bits word_count)])
                    (11 * i) 11)))))
      ∧ (spec_unpack E 0 11 = 0 →
          ∀ wordlist : List CString, wordlist.length = WORDLIST_SIZE →
            (∀ w ∈ wordlist, is_word w ∧ w.length ≤ 19) →
            ∃ m, generate_mnemonic SHA256 (some E) 600 wordlist word_count = Except.ok m
              ∧ (split_words 24 m).head? = some (word_of wordlist 0)) := by
  have hlt : ∀ i : Nat, (i : Int) < word_count → i < word_count.toNat := by
    intro i hi
    rcases hwc with h | h <;> subst h <;> simp <;> omega
  have hgi := generate_indices_eq_spec_unpack SHA256 E word_count hwc hE
  have hidx : ∀ i : Nat, (i : Int) < word_count →
      (generate_indices SHA256 E word_count).getD i 0
        = spec_unpack (E ++ [hash0 SHA256 E >>> (8 - checksum_bits word_count)]) (11 * i) 11 := by
    intro i hi
    rw [hgi, List.getD_eq_getElem?_getD, List.getElem?_map, List.getElem?_range (hlt i hi)]
    rfl
  have h0 : ((0 : Nat) : Int) < word_count := by
    rcases hwc with h | h <;> rw [h] <;> decide
  have hlen2 : 2 ≤ E.length := by
    rw [hE]
    rcases hwc with h | h <;> rw [h] <;> decide
  have hc : spec_unpack (E ++ [hash0 SHA256 E >>> (8 - checksum_bits word_count)]) 0 11
      = spec_unpack E 0 11 := by
    apply spec_unpack_congr
    intro p _ hp
    apply bit_at_congr
    simp only [List.getD_eq_getElem?_getD]
    rw [List.getElem?_append_left (by omega)]
  have hfirst : spec_unpack E 0 11 = 0 → (generate_indices SHA256 E word_count).getD 0 0 = 0 := by
    intro hz
    rw [hidx 0 h0, Nat.mul_zero, hc, hz]
  refine ⟨?_, hidx, hfirst, ?_, ?_, ?_⟩
  · rw [length_generate_indices]
    rcases hwc with h | h <;> rw [h] <;> rfl
  · intro len wordlist m hm
    exact generate_mnemonic_ok_windows SHA256 E len wordlist word_count m hwc hE hm
  · intro wordlist hlen hL
    exact generate_mnemonic_windows SHA256 E wordlist word_count hwc hE hlen hL
  · intro hz wordlist hlen hw
    refine ⟨_, generate_mnemonic_eq SHA256 E 600 19 wordlist word_count hwc hlen
      (fun w h => (hw w h).2) (by decide), ?_⟩
    have hws : ∀ w ∈ (generate_indices SHA256 E word_count).map (word_of wordlist),
        is_word w := by
      intro w hmem
      obtain ⟨k, hk, rfl⟩ := List.mem_map.mp hmem
      exact (hw _ (word_of_mem _ _ (by rw [hlen]; exact generate_indices_lt _ _ _ k hk))).1
    rw [split_words_join _ hws]
    have hpos : 0 < (generate_indices SHA256 E word_count).length := by
      rw [length_generate_indices]
      exact hlt 0 h0
    cases hg : generate_indices SHA256 E word_count with
    | nil => rw [hg] at hpos; simp at hpos
    | cons x xs =>
      have hx := hfirst hz
      rw [hg] at hx
      simp only [List.getD_cons_zero] at hx
      simp [hx]

/-- C9 at 16 zero bytes, word count 12 and SHA-256. -/
theorem C9_encoder_windows_witness :
    ((generate_indices SHA256_std (List.replicate 16 0) 12).length : Int) = 12
      ∧ (∀ i : Nat, (i : Int) < 12 →
          (generate_indices SHA256_std (List.replicate 16 0) 12).getD i 0
            = spec_unpack (List.replicate 16 0
                ++ [hash0 SHA256_std (List.replicate 16 0) >>> (8 - checksum_bits 12)])
                (11 * i) 11)
      ∧ (spec_unpack (List.replicate 16 0) 0 11 = 0 →
          (generate_indices SHA256_std (List.replicate 16 0) 12).getD 0 0 = 0)
      ∧ (∀ (len : Nat) (wordlist : List CString) (m : CString),
          generate_mnemonic SHA256_std (some (List.replicate 16 0)) len wordlist 12
            = Except.ok m →
          m = join_words ((List.range (12 : Int).toNat).map (fun i => word_of wordlist
                (spec_unpack (List.replicate 16 0
                  ++ [hash0 SHA256_std (List.replicate 16 0) >>> (8 - checksum_bits 12)])
                  (11 * i) 11))))
      ∧ (∀ wordlist : List CString, wordlist.length = WORDLIST_SIZE →
          (∀ w ∈ wordlist, w.length ≤ 19) →
          generate_mnemonic SHA256_std (some (List.replicate 16 0)) 600 wordlist 12
            = Except.ok (join_words ((List.range (12 : Int).toNat).map (fun i =>
                word_of wordlist
                  (spec_unpack (List.replicate 16 0
                    ++ [hash0 SHA256_std (List.replicate 16 0) >>> (8 - checksum_bits 12)])
                    (11 * i) 11)))))
      ∧ (spec_unpack (List.replicate 16 0) 0 11 = 0 →
          ∀ wordlist : List CString, wordlist.length = WORDLIST_SIZE →
            (∀ w ∈ wordlist, is_word w ∧ w.length ≤ 19) →
            ∃ m, generate_mnemonic SHA256_std (some (List.replicate 16 0)) 600 wordlist 12
                = Except.ok m
              ∧ (split_words 24 m).head? = some (word_of wordlist 0)) :=
  C9_encoder_windows SHA256_std (List.replicate 16 0) 12 (Or.inl rfl) (by decide)

/-- C10: for at most 24 indices, each below 2048, reading the 11-bit windows at the offsets
`11 i` (the extraction loop of the generator) from the zero-initialised 33-byte buffer
filled by the packing loop of the validator returns the original indices, whether or not a
window straddles byte boundaries. -/
theorem C10_unpack_inverts_pack (indices : List Nat) (hn : indices.length ≤ 24)
    (hlt : ∀ x ∈ indices, x < 2048) :
    (List.range indices.length).map (word_index_at (pack_indices indices)) = indices := by
  apply List.ext_getElem (by simp)
  intro i h1 h2
  rw [List.getElem_map, List.getElem_range, word_index_at_pack_indices indices hn hlt i h2]
  simp [List.getD_eq_getElem?_getD, List.getElem?_eq_getElem h2]

/-- C10 at six indices; the windows of 2047 and 1365 straddle byte boundaries. -/
theorem C10_unpack_inverts_pack_witness :
    (List.range [2047, 0, 1365, 682, 3, 1024].length).map
        (word_index_at (pack_indices [2047, 0, 1365, 682, 3, 1024]))
      = [2047, 0, 1365, 682, 3, 1024] :=
  C10_unpack_inverts_pack [2047, 0, 1365, 682, 3, 1024] (by decide) (by decide)

/-- C11: for word count 12 or 24, an entropy `E` of `entropy_bits / 8` bytes and a dictionary
of 2048 pairwise distinct space-free words, whenever `validate_mnemonic` gets to extract its
candidate entropy from the mnemonic `generate_mnemonic` built from `E`, that entropy is `E`
byte for byte; it does get there when no dictionary word is empty; the verdict of
`validate_mnemonic`, with any hash, is the checksum comparison on the buffer this entropy is
cut from, and with non-empty words it is the comparison of the hash of `E` itself. -/
theorem C11_entropy_recovery (SHA256 : List Nat → List Nat) (E : List Nat) (len : Nat)
    (wordlist : List CString) (word_count : Int) (m : CString)
    (hwc : word_count = 12 ∨ word_count = 24) (hE : E.length = entropy_bits word_count / 8)
    (hb : all_bytes E) (hlen : wordlist.length = WORDLIST_SIZE) (hnd : wordlist.Nodup)
    (hsp : ∀ w ∈ wordlist, ' ' ∉ w)
    (hgen : generate_mnemonic SHA256 (some E) len wordlist word_count = Except.ok m) :
    (∀ entropy, candidate_entropy m wordlist word_count = some entropy → entropy = E)
      ∧ ((∀ w ∈ wordlist, w ≠ []) → candidate_entropy m wordlist word_count = some E)
      ∧ (∀ H : List Nat → List Nat,
          validate_mnemonic H m wordlist word_count
            = match reconstructed_bits m wordlist word_count with
              | none => 0
              | some bits =>
                if hash0 H (bits.take (entropy_bits word_count / 8))
                      >>> (8 - checksum_bits word_count)
                    ≠ bits.getD (byte_count word_count - 1) 0
                      &&& ((1 <<< checksum_bits word_count) - 1)
                then 0 else 1)
      ∧ ((∀ w ∈ wordlist, w ≠ []) → ∀ H : List Nat → List Nat,
          validate_mnemonic H m wordlist word_count
            = if hash0 H E >>> (8 - checksum_bits word_count)
                  ≠ (pack_indices (generate_indices SHA256 E word_count)).getD
                      (byte_count word_count - 1) 0 &&& ((1 <<< checksum_bits word_count) - 1)
              then 0 else 1) := by
  have hm := generate_mnemonic_ok_eq SHA256 E len wordlist word_count m hwc hgen
  have hl : (generate_indices SHA256 E word_count).length ≤ 24 := by
    rw [length_generate_indices]
    rcases hwc with h | h <;> rw [h] <;> decide
  have hc : ((generate_indices SHA256 E word_count).length : Int) = word_count := by
    rw [length_generate_indices]
    rcases hwc with h | h <;> rw [h] <;> rfl
  have hsp2 := generate_indices_words_space_free SHA256 E word_count wordlist hlen hsp
  refine ⟨?_, ?_, fun H => validate_eq_reconstructed H m wordlist word_count, ?_⟩
  · intro entropy he
    unfold candidate_entropy at he
    cases hr : reconstructed_bits m wordlist word_count with
    | none => rw [hr] at he; cases he
    | some bits =>
      rw [hr] at he
      rw [hm] at hr
      have hbits := reconstructed_join_words_of_some wordlist hlen hnd _
        (generate_indices_lt _ _ _) hl word_count hc hsp2 bits hr
      simp only [Option.map_some', Option.some.injEq] at he
      rw [← he, hbits]
      exact take_pack_generate SHA256 E word_count hwc hE hb
  · intro hne
    unfold candidate_entropy
    rw [hm, reconstructed_join_words wordlist hlen hnd _ (generate_indices_lt _ _ _) hl
      word_count hc (generate_indices_words_nonempty SHA256 E word_count wordlist hlen hne) hsp2]
    simp only [Option.map_some']
    rw [take_pack_generate SHA256 E word_count hwc hE hb]
  · intro hne H
    exact validate_generated_hashes_entropy SHA256 H E len wordlist word_count m hwc hE hb
      hlen hnd (fun w h => ⟨hne w h, hsp w h⟩) hgen

/-- C11 at 16 zero bytes, word count 12, the sample dictionary and SHA-256. -/
theorem C11_entropy_recovery_witness :
    (∀ entropy, candidate_entropy phrase_zero_12 sample_wordlist 12 = some entropy →
        entropy = List.replicate 16 0)
      ∧ ((∀ w ∈ sample_wordlist, w ≠ []) →
          candidate_entropy phrase_zero_12 sample_wordlist 12 = some (List.replicate 16 0))
      ∧ (∀ H : List Nat → List Nat,
          validate_mnemonic H phrase_zero_12 sample_wordlist 12
            = match reconstructed_bits phrase_zero_12 sample_wordlist 12 with
              | none => 0
              | some bits =>
                if hash0 H (bits.take (entropy_bits 12 / 8)) >>> (8 - checksum_bits 12)
                    ≠ bits.getD (byte_count 12 - 1) 0 &&& ((1 <<< checksum_bits 12) - 1)
                then 0 else 1)
      ∧ ((∀ w ∈ sample_wordlist, w ≠ []) → ∀ H : List Nat → List Nat,
          validate_mnemonic H phrase_zero_12 sample_wordlist 12
            = if hash0 H (List.replicate 16 0) >>> (8 - checksum_bits 12)
                  ≠ (pack_indices (generate_indices SHA256_std (List.replicate 16 0) 12)).getD
                      (byte_count 12 - 1) 0 &&& ((1 <<< checksum_bits 12) - 1)
              then 0 else 1) :=
  C11_entropy_recovery SHA256_std (List.replicate 16 0) 600 sample_wordlist 12 phrase_zero_12
    (Or.inl rfl) (by decide) (all_bytes_replicate_zero 16) sample_wordlist_length
    sample_wordlist_nodup (fun w h => (sample_wordlist_is_word w h).2) generate_zero_12

/-- C12: in the reconstruction of `validate_mnemonic`, writing the i-th index into the 33-byte
buffer keeps its length and its bytes below 256 and changes no bit outside the positions
`11 i .. 11 i + 10`; after all indices (at most 24) are written, every bit at a position from
`11 * word_count` on is zero and every byte from index `ceil(11 * word_count / 8)` on is
zero. -/
theorem C12_pack_frame (bits : List Nat) (index i : Nat) (indices : List Nat)
    (hlen : bits.length = 33) (hb : all_bytes bits) (hi : i < 24)
    (hn : indices.length ≤ 24) :
    (pack_word bits index i).length = 33
      ∧ all_bytes (pack_word bits index i)
      ∧ (∀ p, (p < 11 * i ∨ 11 * i + 10 < p) →
          bit_at (pack_word bits index i) p = bit_at bits p)
      ∧ (∀ p, 11 * indices.length ≤ p → bit_at (pack_indices indices) p = false)
      ∧ ∀ k, (11 * indices.length + 7) / 8 ≤ k → (pack_indices indices).getD k 0 = 0 := by
  refine ⟨by rw [length_pack_word, hlen], all_bytes_pack_word bits index i hb, ?_, ?_,
    fun k hk => getD_pack_indices_zero indices hn k hk⟩
  · intro p hp
    rw [bit_at_pack_word bits index i p (by omega)]
    have : ¬ (i * 11 ≤ p ∧ p < i * 11 + 11) := by omega
    simp [this]
  · intro p hp
    rw [bit_at_pack_indices indices p hn]
    have : ¬ (p < indices.length * 11) := by omega
    simp [this]

/-- C12 at the zero buffer, index 2047 written as word 1, and three indices. -/
theorem C12_pack_frame_witness :
    (pack_word (List.replicate 33 0) 2047 1).length = 33
      ∧ all_bytes (pack_word (List.replicate 33 0) 2047 1)
      ∧ (∀ p, (p < 11 * 1 ∨ 11 * 1 + 10 < p) →
          bit_at (pack_word (List.replicate 33 0) 2047 1) p = bit_at (List.replicate 33 0) p)
      ∧ (∀ p, 11 * [2047, 2047, 2047].length ≤ p →
          bit_at (pack_indices [2047, 2047, 2047]) p = false)
      ∧ ∀ k, (11 * [2047, 2047, 2047].length + 7) / 8 ≤ k →
          (pack_indices [2047, 2047, 2047]).getD k 0 = 0 :=
  C12_pack_frame (List.replicate 33 0) 2047 1 [2047, 2047, 2047] (by decide)
    (all_bytes_replicate_zero 33) (by decide) (by decide)

/-- C13, counterexample: a file of 2048 well-numbered lines that all carry the word `abandon`
is loaded (the result holds the same word 2048 times), and a file of 2049 well-formed lines
is loaded too (the last line is not looked at). -/
theorem C13_counterexample_duplicates_and_extra_line :
    (fgets_lines source_same_word = (List.range 2048).map (fun k =>
          source_line k "abandon".toList)
        ∧ load_bip39_wordlist source_same_word
            = Except.ok (List.replicate 2048 "abandon".toList)
        ∧ ¬ (List.replicate 2048 "abandon".toList).Nodup)
      ∧ ((fgets_lines source_2049).length = 2049
        ∧ load_bip39_wordlist source_2049 = Except.ok sample_wordlist) := by
  refine ⟨⟨fgets_lines_source_same_word, load_source_same_word, ?_⟩,
    ⟨by rw [fgets_lines_source_2049]; simp, load_source_2049⟩⟩
  rw [List.nodup_replicate]
  decide

/-- C13, as amended: `load_bip39_wordlist` succeeds exactly when `fgets` delivers at least
2048 pieces of the file and `sscanf` reads from each of the first 2048 an index, a bit field
and a word of at most 19 characters, the index stored in `int idx` being the position of the
piece (0 .. 2047); the result then holds these 2048 words in order. When there are fewer
than 2048 pieces, or a piece among the first 2048 does not parse so, the loader does not
succeed, and it ends in one of its fatal errors unless `sscanf` has overrun `word` on one of
these pieces. The pieces are the lines of the file when every line has at most 48 characters
before its newline and none is NUL, and reading as many pieces as the file has characters
reaches its end. -/
theorem C13_loader_checks (file : List Char) :
    (∀ wordlist, load_bip39_wordlist file = Except.ok wordlist
        ↔ WORDLIST_SIZE ≤ (fgets_lines file).length ∧ wordlist.length = WORDLIST_SIZE
            ∧ ∀ k, k < WORDLIST_SIZE → ∃ binary,
                sscanf_line ((fgets_lines file).getD k [])
                    = ScanResult.fields (k : Int) binary (wordlist.getD k [])
                  ∧ (wordlist.getD k []).length < MAX_WORD_LEN)
      ∧ (((fgets_lines file).length < WORDLIST_SIZE
            ∨ ∃ k, k < WORDLIST_SIZE ∧ ∀ binary word,
                sscanf_line ((fgets_lines file).getD k [])
                  ≠ ScanResult.fields (k : Int) binary word)
          → ∃ e, load_bip39_wordlist file = Except.error e
              ∧ ((∀ k, k < WORDLIST_SIZE →
                    sscanf_line ((fgets_lines file).getD k []) ≠ ScanResult.overrun)
                  → ∀ n, e ≠ LoadError.word_overrun n))
      ∧ (∀ fuel, file.length ≤ fuel → fgets_calls fuel file = fgets_lines file)
      ∧ ∀ bodies : List CString, (∀ b ∈ bodies, b.length ≤ 48 ∧ newline ∉ b ∧ nul ∉ b) →
          fgets_lines (file_of_lines bodies) = bodies.map (fun b => b ++ [newline]) := by
  refine ⟨?_, ?_, fun fuel h => fgets_calls_enough fuel file h,
    fun bodies hb => fgets_lines_file_of_lines bodies hb⟩
  · intro wordlist
    rw [load_bip39_wordlist_ok_iff]
    constructor
    · rintro ⟨h1, h2, h3⟩
      refine ⟨h1, h2, ?_⟩
      intro k hk
      obtain ⟨b, hb⟩ := h3 k hk
      exact ⟨b, hb, sscanf_fields_fits _ _ _ _ hb⟩
    · rintro ⟨h1, h2, h3⟩
      refine ⟨h1, h2, ?_⟩
      intro k hk
      obtain ⟨b, hb, _⟩ := h3 k hk
      exact ⟨b, hb⟩
  · intro hbad
    cases hr : load_bip39_wordlist file with
    | error e =>
      refine ⟨e, rfl, ?_⟩
      intro hno n hn
      rw [hn] at hr
      obtain ⟨k, hk, hov⟩ := load_bip39_wordlist_overrun file n hr
      exact hno k hk hov
    | ok wordlist =>
      obtain ⟨h1, _, h3⟩ := (load_bip39_wordlist_ok_iff file wordlist).mp hr
      rcases hbad with h | ⟨k, hk, hno⟩
      · omega
      · obtain ⟨b, hb⟩ := h3 k hk
        exact absurd hb (hno b _)

/-- C14: for `success_count ≥ 1` with `100 * success_count` representable as `int` and any
sequence of validation outcomes, at every test of the loop condition
`0 ≤ successful ≤ attempts ≤ 100 * success_count` holds (with `attempts` the number of
iterations done and `successful ≤ success_count`); the loop ends after at most
`100 * success_count` attempts, and `main` returns 0 if and only if `successful` has
reached `success_count`. -/
theorem C14_orchestrator_bound (outcomes : Nat → Bool) (success_count : Int)
    (h1 : 1 ≤ success_count) (h2 : 100 * success_count ≤ 2147483647) :
    (∀ k s, Reachable outcomes success_count k s →
        0 ≤ s.successful ∧ s.successful ≤ s.attempts ∧ s.attempts = (k : Int)
          ∧ s.attempts ≤ 100 * success_count ∧ s.successful ≤ success_count
          ∧ s.attempts ≤ 2147483647)
      ∧ ∃ final,
          run_loop outcomes success_count (100 * success_count).toNat 0
              { successful := 0, attempts := 0 } = some final
            ∧ Reachable outcomes success_count final.attempts.toNat final
            ∧ 0 ≤ final.attempts ∧ final.attempts ≤ 100 * success_count
            ∧ (main_return success_count final = 0 ↔ final.successful = success_count) := by
  constructor
  · intro k s hr
    obtain ⟨i1, i2, i3, i4, i5⟩ := reachable_invariant outcomes success_count h1 k s hr
    exact ⟨i1, i2, i3, i4, i5, by omega⟩
  · obtain ⟨final, f1, f2, _⟩ := run_loop_ends outcomes success_count h1
      (100 * success_count).toNat 0 { successful := 0, attempts := 0 } Reachable.start
      (by simp)
    obtain ⟨i1, i2, _, i4, i5⟩ :=
      reachable_invariant outcomes success_count h1 _ final f2
    refine ⟨final, f1, f2, by omega, i4, ?_⟩
    unfold main_return
    split
    · constructor
      · intro h; cases h
      · intro h; omega
    · constructor
      · intro _; omega
      · intro _; rfl

/-- C14 at `success_count = 2` with every third validation succeeding. -/
theorem C14_orchestrator_bound_witness :
    (∀ k s, Reachable (fun k => decide (k % 3 = 2)) 2 k s →
        0 ≤ s.successful ∧ s.successful ≤ s.attempts ∧ s.attempts = (k : Int)
          ∧ s.attempts ≤ 100 * 2 ∧ s.successful ≤ 2 ∧ s.attempts ≤ 2147483647)
      ∧ ∃ final,
          run_loop (fun k => decide (k % 3 = 2)) 2 (100 * (2 : Int)).toNat 0
              { successful := 0, attempts := 0 } = some final
            ∧ Reachable (fun k => decide (k % 3 = 2)) 2 final.attempts.toNat final
            ∧ 0 ≤ final.attempts ∧ final.attempts ≤ 100 * 2
            ∧ (main_return 2 final = 0 ↔ final.successful = 2) :=
  C14_orchestrator_bound (fun k => decide (k % 3 = 2)) 2 (by decide) (by decide)

/-- C15: for word count 24, a 32-byte entropy `E` and a dictionary of 2048 pairwise distinct
non-empty space-free words, `validate_mnemonic` returns 1 on the mnemonic `generate_mnemonic`
built from `E`, and the word indices are the 24 consecutive 11-bit groups of the 264-bit
string made of `E` followed by the byte `hash(E)[0]`. -/
theorem C15_round_trip_24 (SHA256 : List Nat → List Nat) (E : List Nat) (len : Nat)
    (wordlist : List CString) (m : CString) (hE : E.length = 32) (hb : all_bytes E)
    (hlen : wordlist.length = WORDLIST_SIZE) (hnd : wordlist.Nodup)
    (hw : ∀ w ∈ wordlist, is_word w)
    (hgen : generate_mnemonic SHA256 (some E) len wordlist 24 = Except.ok m) :
    validate_mnemonic SHA256 m wordlist 24 = 1
      ∧ generate_indices SHA256 E 24 = groups11 24 (bit_string (E ++ [hash0 SHA256 E])) := by
  constructor
  · rw [generate_mnemonic_ok_eq SHA256 E len wordlist 24 m (Or.inr rfl) hgen]
    exact validate_generate_24 SHA256 wordlist hlen hnd hw E hE hb
  · have hl : (generate_indices SHA256 E 24).length = 24 := by
      rw [length_generate_indices]; rfl
    apply List.ext_getElem (by rw [hl, length_groups11])
    intro i h1 h2
    have hi : i < 24 := by rw [hl] at h1; exact h1
    have e1 : (generate_indices SHA256 E 24)[i] = word_index_at (E ++ [hash0 SHA256 E]) i := by
      have hr : (24 : Int).toNat = 24 := rfl
      simp only [generate_indices, hr, List.getElem_map, List.getElem_range]
      rw [form_bits_24 SHA256 E hE]
    have e2 : (groups11 24 (bit_string (E ++ [hash0 SHA256 E])))[i]
        = (groups11 24 (bit_string (E ++ [hash0 SHA256 E]))).getD i 0 := by
      simp [List.getD_eq_getElem?_getD, List.getElem?_eq_getElem h2]
    rw [e1, e2]
    exact word_index_at_eq_group _ 24 i hi (by simp [hE])

/-- C15 at 32 zero bytes, the sample dictionary and SHA-256. -/
theorem C15_round_trip_24_witness :
    validate_mnemonic SHA256_std phrase_zero_24 sample_wordlist 24 = 1
      ∧ generate_indices SHA256_std (List.replicate 32 0) 24
        = groups11 24 (bit_string (List.replicate 32 0
            ++ [hash0 SHA256_std (List.replicate 32 0)])) :=
  C15_round_trip_24 SHA256_std (List.replicate 32 0) 600 sample_wordlist phrase_zero_24
    (by decide) (all_bytes_replicate_zero 32) sample_wordlist_length sample_wordlist_nodup
    sample_wordlist_is_word generate_zero_24

/-- C16: for word count 12, a 16-byte entropy `E` and a dictionary of 2048 pairwise distinct
non-empty space-free words, `validate_mnemonic` returns 1 on the mnemonic `generate_mnemonic`
built from `E` if and only if `hash(E)[0] >> 4 = 0`. -/
theorem C16_round_trip_12_iff (SHA256 : List Nat → List Nat) (E : List Nat) (len : Nat)
    (wordlist : List CString) (m : CString) (hE : E.length = 16) (hb : all_bytes E)
    (hlen : wordlist.length = WORDLIST_SIZE) (hnd : wordlist.Nodup)
    (hw : ∀ w ∈ wordlist, is_word w)
    (hgen : generate_mnemonic SHA256 (some E) len wordlist 12 = Except.ok m) :
    validate_mnemonic SHA256 m wordlist 12 = 1 ↔ hash0 SHA256 E >>> 4 = 0 := by
  rw [generate_mnemonic_ok_eq SHA256 E len wordlist 12 m (Or.inl rfl) hgen,
    validate_generate_12 SHA256 wordlist hlen hnd hw E hE hb]
  by_cases h : hash0 SHA256 E >>> 4 = 0 <;> simp [h]

/-- C16 at 16 zero bytes, the sample dictionary and SHA-256 (both sides are false: the first
digest byte is 0x37). -/
theorem C16_round_trip_12_iff_witness :
    validate_mnemonic SHA256_std phrase_zero_12 sample_wordlist 12 = 1
      ↔ hash0 SHA256_std (List.replicate 16 0) >>> 4 = 0 :=
  C16_round_trip_12_iff SHA256_std (List.replicate 16 0) 600 sample_wordlist phrase_zero_12
    (by decide) (all_bytes_replicate_zero 16) sample_wordlist_length sample_wordlist_nodup
    sample_wordlist_is_word generate_zero_12

/-- C17: for word count 12 and a 16-byte entropy `E`, any two hash functions give the same 12
indices and the same result of `generate_mnemonic`; the 12th index is `16 * (E[15] mod 128)`,
so its low four bits are zero. -/
theorem C17_words_ignore_hash_12 (SHA256 SHA256b : List Nat → List Nat) (E : List Nat)
    (hE : E.length = 16) (hb : all_bytes E) :
    generate_indices SHA256 E 12 = generate_indices SHA256b E 12
      ∧ (generate_indices SHA256 E 12).length = 12
      ∧ (generate_indices SHA256 E 12).getD 11 0 = 16 * (E.getD 15 0 % 128)
      ∧ (generate_indices SHA256 E 12).getD 11 0 % 16 = 0
      ∧ ∀ (len : Nat) (wordlist : List CString),
          generate_mnemonic SHA256 (some E) len wordlist 12
            = generate_mnemonic SHA256b (some E) len wordlist 12 := by
  have h1 := generate_indices_12_eq SHA256 E hE hb
  have h2 := generate_indices_12_eq SHA256b E hE hb
  have h3 : (generate_indices SHA256 E 12).getD 11 0 = 16 * (E.getD 15 0 % 128) := by
    rw [h1, ← word_index_at_12_last E hE]
    rfl
  refine ⟨by rw [h1, h2], by rw [length_generate_indices]; rfl, h3, by rw [h3]; omega, ?_⟩
  intro len wordlist
  unfold generate_mnemonic
  simp only
  apply write_words_congr
  intro t _ ht
  have ht' : t < 12 := by
    have : (12 : Int).toNat = 12 := rfl
    omega
  have g1 : (generate_indices SHA256 E 12).getD t 0 = word_index_at (form_bits SHA256 E 12) t := by
    unfold generate_indices
    have : (12 : Int).toNat = 12 := rfl
    simp [List.getD_eq_getElem?_getD, List.getElem?_map, List.getElem?_range, this, ht']
  have g2 : (generate_indices SHA256b E 12).getD t 0
      = word_index_at (form_bits SHA256b E 12) t := by
    unfold generate_indices
    have : (12 : Int).toNat = 12 := rfl
    simp [List.getD_eq_getElem?_getD, List.getElem?_map, List.getElem?_range, this, ht']
  rw [← g1, ← g2, h1, h2]

/-- C17 at 16 bytes 0xff with SHA-256 and the constant-zero hash: the 12th index is 2032. -/
theorem C17_words_ignore_hash_12_witness :
    generate_indices SHA256_std (List.replicate 16 255) 12
        = generate_indices (fun _ => []) (List.replicate 16 255) 12
      ∧ (generate_indices SHA256_std (List.replicate 16 255) 12).length = 12
      ∧ (generate_indices SHA256_std (List.replicate 16 255) 12).getD 11 0
        = 16 * ((List.replicate 16 255).getD 15 0 % 128)
      ∧ (generate_indices SHA256_std (List.replicate 16 255) 12).getD 11 0 % 16 = 0
      ∧ ∀ (len : Nat) (wordlist : List CString),
          generate_mnemonic SHA256_std (some (List.replicate 16 255)) len wordlist 12
            = generate_mnemonic (fun _ => []) (some (List.replicate 16 255)) len wordlist 12 :=
  C17_words_ignore_hash_12 SHA256_std (fun _ => []) (List.replicate 16 255) (by decide)
    (by unfold all_bytes; decide)

/-- C18: the verdict on a candidate is the verdict on its first 24 tokens (non-empty pieces
between spaces) joined by single spaces, so tokens past the 24th are ignored; and two
candidates with the same first 24 tokens, however many spaces separate, precede or follow
them, get the same verdict. -/
theorem C18_extra_tokens_and_spaces_ignored (SHA256 : List Nat → List Nat)
    (candidate : CString) (wordlist : List CString) (word_count : Int) :
    validate_mnemonic SHA256 candidate wordlist word_count
        = validate_mnemonic SHA256 (join_words ((nonempty_pieces candidate).take 24))
            wordlist word_count
      ∧ ∀ other : CString,
          (nonempty_pieces other).take 24 = (nonempty_pieces candidate).take 24 →
          validate_mnemonic SHA256 other wordlist word_count
            = validate_mnemonic SHA256 candidate wordlist word_count := by
  constructor
  · apply validate_mnemonic_congr
    rw [← split_words_eq_take_pieces, split_words_join_split]
  · intro other h
    apply validate_mnemonic_congr
    rw [split_words_eq_take_pieces, split_words_eq_take_pieces, h]

/-- C19: for every candidate and every integer word count, the splitting loop stores at most
24 tokens (array index below 24); a run that passes the count check has
`0 ≤ word_count ≤ 24`; then every byte index `(11 i + j) / 8` written for `i < word_count`,
`j < 11` is at most 32, inside the 33-byte buffer; `entropy_bits / 8` is at most 32 and
`byte_count - 1` lies in `0 .. 32`. -/
theorem C19_validator_in_bounds (candidate : CString) (word_count : Int) :
    (split_words 24 candidate).length ≤ 24
      ∧ (((split_words 24 candidate).length : Int) = word_count →
          0 ≤ word_count ∧ word_count ≤ 24
            ∧ ∀ i j : Nat, (i : Int) < word_count → j < 11 →
                (i * 11 + j) / 8 ≤ 32 ∧ (i * 11 + j) / 8 < (List.replicate 33 0).length)
      ∧ entropy_bits word_count / 8 ≤ 32
      ∧ 1 ≤ byte_count word_count
      ∧ byte_count word_count - 1 ≤ 32 := by
  have hl := split_words_length_le_room 24 candidate
  refine ⟨hl, ?_, ?_, ?_, ?_⟩
  · intro hpass
    refine ⟨by omega, by omega, ?_⟩
    intro i j hi hj
    simp only [List.length_replicate]
    omega
  · unfold entropy_bits; split <;> decide
  · unfold byte_count total_bits checksum_bits entropy_bits; split <;> decide
  · unfold byte_count total_bits checksum_bits entropy_bits; split <;> decide

end Seed
